import Mathlib

/-!
# pb2bv_rewriter: pseudo-boolean constraints to bit-vector circuits

A shallow embedding of `src/ast/rewriter/pb2bv_rewriter.cpp`.

* Terms of the external term factory are the inductive type `Expr`; their meaning under an
  assignment of the boolean constants is `eval`, which yields `none` on an ill-sorted term.
* `SASSERT` is a debug macro. The definitions `mk_le_ge`, `mk_bv`, `mk_pb` and `pop` are the
  build that checks it: a function whose assertion is violated returns `none`. The definitions
  `mk_le_ge_build`, `mk_bv_build`, `mk_pb_build`, `pop_build` and `mk_app_core` take the build
  as a parameter and cover the build with assertions compiled out as well; where the
  assertions hold the two builds agree (`mk_bv_build_eq_mk_bv`, `pop_build_eq_pop`).
* A function that reads `back()` of an empty vector, or a vector outside of its bounds, returns
  `none` in either build, and so does the `UNREACHABLE` default case of a switch over the
  kinds.
* Arbitrary-precision `rational` thresholds and coefficients are `Int`.
* The comparator-network service `psort_nw` is a parameter `m_sort`: a circuit together with the
  calls of `fresh` and `mk_clause` it made.
* The `unsigned` counter `m_num_translated` is a natural number incremented modulo `2 ^ 32`;
  vector sizes and the width `bits` of `mk_arith` are unbounded naturals;
  `rational::is_unsigned` is `0 <= k < 2 ^ 32`.
-/

namespace Pb2bv

/-! ## Terms of the term factory -/

/-- Modelled from the spec: the terms of the external term factory (`ast.h` is not under src/):
boolean constants and connectives (and/or/not/implies/ite/eq), bit-vector constructors (numeral,
zero-extend, extract, add, unsigned-less-equal) and the arithmetic numerals and sums that
`mk_arith` inspects. `var i` is an uninterpreted boolean constant. -/
inductive Expr where
  | var (i : Nat)
  | tt
  | ff
  | not (e : Expr)
  | and (es : List Expr)
  | or (es : List Expr)
  | implies (a b : Expr)
  | ite (c a b : Expr)
  | eq (a b : Expr)
  | bvnum (v w : Nat)
  | zext (n : Nat) (e : Expr)
  | bvadd (a b : Expr)
  | extract (hi lo : Nat) (e : Expr)
  | ule (a b : Expr)
  | num (v : Int) (is_int : Bool)
  | add (es : List Expr)

mutual
/-- Modelled from the spec: identity of terms. The term factory deduplicates structurally
identical terms, so the pointer comparison `hi == lo` of the source is structural equality. -/
def Expr.beq : Expr → Expr → Bool
  | .var i, e => match e with | .var j => i == j | _ => false
  | .tt, e => match e with | .tt => true | _ => false
  | .ff, e => match e with | .ff => true | _ => false
  | .not a, e => match e with | .not b => Expr.beq a b | _ => false
  | .and as, e => match e with | .and bs => Expr.beqList as bs | _ => false
  | .or as, e => match e with | .or bs => Expr.beqList as bs | _ => false
  | .implies a b, e => match e with
    | .implies c d => Expr.beq a c && Expr.beq b d
    | _ => false
  | .ite a b c, e => match e with
    | .ite d e f => Expr.beq a d && Expr.beq b e && Expr.beq c f
    | _ => false
  | .eq a b, e => match e with | .eq c d => Expr.beq a c && Expr.beq b d | _ => false
  | .bvnum v w, e => match e with | .bvnum v2 w2 => v == v2 && w == w2 | _ => false
  | .zext n a, e => match e with | .zext m b => n == m && Expr.beq a b | _ => false
  | .bvadd a b, e => match e with | .bvadd c d => Expr.beq a c && Expr.beq b d | _ => false
  | .extract h l a, e => match e with
    | .extract h2 l2 b => h == h2 && l == l2 && Expr.beq a b
    | _ => false
  | .ule a b, e => match e with | .ule c d => Expr.beq a c && Expr.beq b d | _ => false
  | .num v i, e => match e with | .num v2 i2 => v == v2 && i == i2 | _ => false
  | .add as, e => match e with | .add bs => Expr.beqList as bs | _ => false
/-- Structural equality of two argument vectors. -/
def Expr.beqList : List Expr → List Expr → Bool
  | [], l => match l with | [] => true | _ => false
  | a :: as, l => match l with | b :: bs => Expr.beq a b && Expr.beqList as bs | _ => false
end

/-- Modelled from the spec: the values terms denote: a boolean, a bit-vector of width `w` with
unsigned value `v`, or an integral numeral tagged with its sort (`is_int`: Int, else Real). -/
inductive Val where
  | b (x : Bool)
  | bv (w v : Nat)
  | num (v : Int) (is_int : Bool)
  deriving DecidableEq, Repr

/-- Two values belong to the same sort. -/
def Val.sameSort : Val → Val → Bool
  | .b _, .b _ => true
  | .bv w _, .bv w2 _ => w == w2
  | .num _ i, .num _ i2 => i == i2
  | _, _ => false

/-- Conjunction of the values of an argument vector. -/
def Val.andL : List (Option Val) → Option Val
  | [] => some (.b true)
  | some (.b x) :: rest =>
    match Val.andL rest with
    | some (.b y) => some (.b (x && y))
    | _ => none
  | _ :: _ => none

/-- Disjunction of the values of an argument vector. -/
def Val.orL : List (Option Val) → Option Val
  | [] => some (.b false)
  | some (.b x) :: rest =>
    match Val.orL rest with
    | some (.b y) => some (.b (x || y))
    | _ => none
  | _ :: _ => none

/-- Sum of the values of a non-empty argument vector of numerals of one sort. -/
def Val.addL : List (Option Val) → Option Val
  | [] => none
  | [some (.num v i)] => some (.num v i)
  | some (.num v i) :: rest =>
    match Val.addL rest with
    | some (.num v2 i2) => if i == i2 then some (.num (v + v2) i) else none
    | _ => none
  | _ :: _ => none

mutual
/-- Modelled from the spec: the meaning of a term under the assignment `σ` of the boolean
constants, with the standard semantics of the boolean connectives and of fixed-width unsigned
bit-vector arithmetic. An ill-sorted term has no value. -/
def eval (σ : Nat → Bool) : Expr → Option Val
  | .var i => some (.b (σ i))
  | .tt => some (.b true)
  | .ff => some (.b false)
  | .not e =>
    match eval σ e with
    | some (.b x) => some (.b (!x))
    | _ => none
  | .and es => Val.andL (evalList σ es)
  | .or es => Val.orL (evalList σ es)
  | .implies a b =>
    match eval σ a, eval σ b with
    | some (.b x), some (.b y) => some (.b (!x || y))
    | _, _ => none
  | .ite c a b =>
    match eval σ c, eval σ a, eval σ b with
    | some (.b x), some va, some vb =>
      if Val.sameSort va vb then some (if x then va else vb) else none
    | _, _, _ => none
  | .eq a b =>
    match eval σ a, eval σ b with
    | some va, some vb => if Val.sameSort va vb then some (.b (decide (va = vb))) else none
    | _, _ => none
  | .bvnum v w => some (.bv w (v % 2 ^ w))
  | .zext n e =>
    match eval σ e with
    | some (.bv w v) => some (.bv (w + n) v)
    | _ => none
  | .bvadd a b =>
    match eval σ a, eval σ b with
    | some (.bv w v), some (.bv w2 v2) =>
      if w = w2 then some (.bv w ((v + v2) % 2 ^ w)) else none
    | _, _ => none
  | .extract hi lo e =>
    match eval σ e with
    | some (.bv w v) =>
      if lo ≤ hi ∧ hi < w then some (.bv (hi - lo + 1) ((v / 2 ^ lo) % 2 ^ (hi - lo + 1)))
      else none
    | _ => none
  | .ule a b =>
    match eval σ a, eval σ b with
    | some (.bv w v), some (.bv w2 v2) => if w = w2 then some (.b (decide (v ≤ v2))) else none
    | _, _ => none
  | .num v i => some (.num v i)
  | .add es => Val.addL (evalList σ es)
/-- Values of an argument vector, argument by argument. -/
def evalList (σ : Nat → Bool) : List Expr → List (Option Val)
  | [] => []
  | e :: es => eval σ e :: evalList σ es
end

/-- Modelled from the spec: `bv_util::get_bv_size`, the width recorded in the sort of a
bit-vector term (0 for a term that is not a bit-vector). -/
def get_bv_size : Expr → Nat
  | .bvnum _ w => w
  | .zext n e => get_bv_size e + n
  | .bvadd a _ => get_bv_size a
  | .extract hi lo _ => hi - lo + 1
  | .ite _ a _ => get_bv_size a
  | _ => 0

/-- Modelled from the spec: `bv_util::mk_numeral(val, bv_size)`, the numeral of the given width
whose value is `val` modulo `2 ^ bv_size`. -/
def mk_numeral (val : Int) (bv_size : Nat) : Expr :=
  .bvnum (val % 2 ^ bv_size).toNat bv_size

/-- Modelled from the spec: `ast_manager::is_true`. -/
def is_true : Expr → Bool
  | .tt => true
  | _ => false

/-- Modelled from the spec: `ast_manager::is_false`. -/
def is_false : Expr → Bool
  | .ff => true
  | _ => false

/-- Modelled from the spec: `mk_and` of `ast_util.h` (not under src/): the conjunction of a
vector of formulas, `true` for no formula and the formula itself for a single one. -/
def mk_and : List Expr → Expr
  | [] => .tt
  | [e] => e
  | es => .and es

/-- Modelled from the spec: `mk_or` of `ast_util.h` (not under src/): the disjunction of a
vector of formulas, `false` for no formula and the formula itself for a single one. -/
def mk_or : List Expr → Expr
  | [] => .ff
  | [e] => e
  | es => .or es

/-- Modelled from the spec: the free function `::mk_not` of `ast_util.h` (not under src/), which
strips a negation instead of nesting one. -/
def mk_not : Expr → Expr
  | .not e => e
  | e => .not e

/-! ## Circuit builder -/

/-- The function `card2bv_rewriter::negate` (lines 197-200): `if (m.is_not(e, e)) return e;
return m.mk_not(e);`. -/
def negate : Expr → Expr
  | .not e => e
  | e => .not e

/-- The body of `card2bv_rewriter::mk_ite` after its `while` loop (lines 205-212). -/
def mk_ite_core (c hi lo : Expr) : Expr :=
  if Expr.beq hi lo then hi
  else if is_true hi && is_false lo then c
  else if is_false hi && is_true lo then negate c
  else if is_true hi then .or [c, lo]
  else if is_false lo then .and [c, hi]
  else if is_false hi then .and [negate c, lo]
  else if is_true lo then .implies c hi
  else .ite c hi lo

/-- The function `card2bv_rewriter::mk_ite` (lines 201-213). The loop
`while (m.is_not(c, c)) std::swap(hi, lo);` is the recursion on a negated condition. -/
def mk_ite : Expr → Expr → Expr → Expr
  | .not c, hi, lo => mk_ite c lo hi
  | c, hi, lo => mk_ite_core c hi lo

/-! ## Declarations of the pseudo-boolean family -/

/-- The three-valued `lbool` of `lbool.h`, the template argument `is_le` of `mk_le_ge`:
`l_true` is the LE mode, `l_false` the GE mode, `l_undef` the EQ mode. -/
inductive lbool where
  | l_false
  | l_undef
  | l_true
  deriving DecidableEq, Repr

/-- Modelled from the spec: the families of operators the rewrite rule tells apart. -/
inductive family_id where
  | pb_family
  | arith_family
  | other_family
  deriving DecidableEq, Repr

/-- Modelled from the spec: the operator kinds named in the source (`OP_OTHER` stands for every
other kind). -/
inductive decl_kind where
  | OP_AT_MOST_K
  | OP_AT_LEAST_K
  | OP_PB_LE
  | OP_PB_GE
  | OP_PB_EQ
  | OP_ADD
  | OP_OTHER
  deriving DecidableEq, Repr

/-- Modelled from the spec: a `func_decl` as far as the rewriter reads it: family, kind, and the
parameters of a pseudo-boolean operator, the threshold `k` and one coefficient per argument. -/
structure func_decl where
  family : family_id
  kind : decl_kind
  k : Int
  coeffs : List Int
  deriving DecidableEq, Repr

/-- Modelled from the spec: `pb_util::is_at_most_k`. -/
def is_at_most_k (f : func_decl) : Bool :=
  f.family = .pb_family && f.kind = .OP_AT_MOST_K

/-- Modelled from the spec: `pb_util::is_at_least_k`. -/
def is_at_least_k (f : func_decl) : Bool :=
  f.family = .pb_family && f.kind = .OP_AT_LEAST_K

/-- Modelled from the spec: `pb_util::get_k`, the threshold of the constraint. -/
def get_k (f : func_decl) : Int := f.k

/-- Modelled from the spec: `pb_util::get_coeff`, the coefficient of argument `index`: 1 for the
unit-coefficient cardinality forms, the recorded coefficient for the weighted forms. -/
def get_coeff (f : func_decl) (index : Nat) : Int :=
  if is_at_most_k f || is_at_least_k f then 1 else f.coeffs.getD index 0

/-- The loop of `rational::get_num_bits`: one more bit for every halving that leaves a positive
number. The first argument bounds the number of iterations. -/
def num_bits_loop : Nat → Nat → Nat
  | 0, _ => 0
  | fuel + 1, n => if 0 < n then 1 + num_bits_loop fuel (n / 2) else 0

/-- Modelled from the spec: `rational::get_num_bits` (`rational.h` is not under src/), the bits
needed to represent `k`: 1 for 0 and 1, 2 for 2 and 3, 3 for 4 to 7, and so on. -/
def get_num_bits (k : Int) : Nat :=
  1 + num_bits_loop k.toNat (k.toNat / 2)

/-! ## Weighted encoder -/

/-- The checked-add step, the four-argument overload `mk_le_ge(fmls, a, b, bound)` of lines
83-102. It returns the remainder and the vector `fmls` with the two recorded facts pushed. -/
def mk_le_ge_add (is_le : lbool) (fmls : List Expr) (a b bound : Expr) : Expr × List Expr :=
  let nb := get_bv_size a
  let x := Expr.zext 1 a
  let y := Expr.zext 1 b
  let result := Expr.bvadd x y
  let x := Expr.extract nb nb result
  let result := Expr.extract (nb - 1) 0 result
  if is_le ≠ .l_false then
    (result, fmls ++ [.eq x (mk_numeral 0 1), .ule result bound])
  else
    (result, fmls ++ [.eq x (mk_numeral 1 1), .ule bound result])

/-- The pruning loop of lines 128-140, from index `i` on: a literal whose coefficient exceeds
`k` is recorded as a unit fact, every other literal is lifted to a bit-vector value. The state
is the pair of vectors `(es, fmls)`. -/
def prune_loop (is_le : lbool) (f : func_decl) (k : Int) (nb : Nat) (zero : Expr) :
    Nat → List Expr → List Expr × List Expr → List Expr × List Expr
  | _, [], st => st
  | i, a :: rest, (es, fmls) =>
    if get_coeff f i > k then
      if is_le ≠ .l_false then
        prune_loop is_le f k nb zero (i + 1) rest (es, fmls ++ [.not a])
      else
        prune_loop is_le f k nb zero (i + 1) rest (es, fmls ++ [a])
    else
      prune_loop is_le f k nb zero (i + 1) rest
        (es ++ [mk_ite a (mk_numeral (get_coeff f i) nb) zero], fmls)

/-- The `for` loop of lines 142-144 from index `i` on, on the vector in place:
`es[i/2] = mk_le_ge<is_le>(fmls, es[i].get(), es[i+1].get(), bound)` while `i + 1 < es.size()`,
with `i += 2`. The first argument bounds the number of iterations; `es.size()` are always
enough. The reads are within the vector by the loop condition. -/
def pair_for (is_le : lbool) (bound : Expr) :
    Nat → Nat → List Expr → List Expr → List Expr × List Expr
  | 0, _, es, fmls => (es, fmls)
  | fuel + 1, i, es, fmls =>
    if i + 1 < es.length then
      let r := mk_le_ge_add is_le fmls (es.getD i .tt) (es.getD (i + 1) .tt) bound
      pair_for is_le bound fuel (i + 2) (es.set (i / 2) r.1) r.2
    else (es, fmls)

/-- The body of the `while` loop (lines 142-148): the `for` loop, then
`if ((es.size() % 2) == 1) es[es.size()/2] = es.back();` and
`es.shrink((1 + es.size())/2);`. -/
def while_body (is_le : lbool) (bound : Expr) (es fmls : List Expr) : List Expr × List Expr :=
  let st := pair_for is_le bound es.length 0 es fmls
  let es1 := if st.1.length % 2 = 1 then st.1.set (st.1.length / 2) (st.1.getLastD .tt)
    else st.1
  (es1.take ((1 + es1.length) / 2), st.2)

/-- The loop `while (es.size() > 1)` of lines 141-149. The first argument bounds the number of
passes; `es.size()` passes are always enough. -/
def reduce_loop (is_le : lbool) (bound : Expr) :
    Nat → List Expr → List Expr → List Expr × List Expr
  | 0, es, fmls => (es, fmls)
  | fuel + 1, es, fmls =>
    if es.length > 1 then
      let r := while_body is_le bound es fmls
      reduce_loop is_le bound fuel r.1 r.2
    else (es, fmls)

/-- What one pass of the `while` loop computes, as a recursion over the vector: adjacent values
are replaced by their checked sum and an odd last value is kept unchanged (see
`while_body_eq_pair_round`). -/
def pair_round (is_le : lbool) (bound : Expr) : List Expr → List Expr → List Expr × List Expr
  | a :: b :: rest, fmls =>
    let r := mk_le_ge_add is_le fmls a b bound
    let rs := pair_round is_le bound rest r.2
    (r.1 :: rs.1, rs.2)
  | es, fmls => (es, fmls)

/-- The general case of the weighted encoder, lines 123-162 of `mk_le_ge<is_le>`: what the
function computes once `SASSERT(k.is_pos())` is passed (or compiled out). The result is `none`
when `es.back()` is read of an empty vector. -/
def mk_le_ge_tree (is_le : lbool) (f : func_decl) (args : List Expr) (k : Int) : Option Expr :=
  let nb := get_num_bits k
  let zero := mk_numeral 0 nb
  let bound := mk_numeral k nb
  let st := prune_loop is_le f k nb zero 0 args ([], [])
  let st := reduce_loop is_le bound st.1.length st.1 st.2
  match is_le with
  | .l_true => some (mk_and st.2)
  | .l_false =>
    match st.1.getLast? with
    | some r => some (mk_or (st.2 ++ [.ule bound r]))
    | none => none
  | .l_undef =>
    match st.1.getLast? with
    | some r => some (mk_and (st.2 ++ [.eq bound r]))
    | none => none

/-- The weighted encoder `mk_le_ge<is_le>(f, sz, args, k)` of lines 112-163, in the build that
checks assertions (`mk_le_ge_build` is either build). `sz` is the length of `args`. The result
is `none` when `SASSERT(k.is_pos())` fails or `es.back()` is read of an empty vector. -/
def mk_le_ge (is_le : lbool) (f : func_decl) (args : List Expr) (k : Int) : Option Expr :=
  if k = 0 then
    if is_le ≠ .l_false then some (.not (mk_or args))
    else some .tt
  else if ¬ 0 < k then none
  else mk_le_ge_tree is_le f args k

/-- The loop of `card2bv_rewriter::dualize` (lines 191-194), from index `i` on: the coefficient
is added to `k` and the argument is replaced by its negation. -/
def dualize_loop (f : func_decl) : Nat → List Expr → Int → List Expr × Int
  | _, [], k => ([], k)
  | i, a :: rest, k =>
    let r := dualize_loop f (i + 1) rest (k + get_coeff f i)
    (mk_not a :: r.1, r.2)

/-- The function `card2bv_rewriter::dualize` (lines 189-195): `k.neg()` and then the loop. It
returns the new argument vector and the new threshold. -/
def dualize (f : func_decl) (args : List Expr) (k : Int) : List Expr × Int :=
  dualize_loop f 0 args (-k)

/-- The function `card2bv_rewriter::mk_bv` (lines 165-187), in the build that checks assertions
(`mk_bv_build` is either build). The result is `none` when one of the two
`SASSERT(!k.is_neg())` fails or the kind is not a pseudo-boolean one (`UNREACHABLE`). -/
def mk_bv (f : func_decl) (args : List Expr) : Option Expr :=
  let k := get_k f
  if k < 0 then none
  else
    match f.kind with
    | .OP_PB_GE | .OP_AT_LEAST_K =>
      let d := dualize f args k
      if d.2 < 0 then none
      else mk_le_ge .l_true f d.1 d.2
    | .OP_PB_LE | .OP_AT_MOST_K => mk_le_ge .l_true f args k
    | .OP_PB_EQ => mk_le_ge .l_undef f args k
    | _ => none

/-! ## Scope and ledger -/

/-- The mutable state of `pb2bv_rewriter::imp` (lines 65-70): the pending lemmas, the fresh
constants (a fresh constant is named by a number; `none` is the null entry that `resize` pads
with), the checkpoints and the counter of translated constraints. -/
structure imp where
  m_lemmas : List Expr
  m_fresh : List (Option Nat)
  m_fresh_lim : List Nat
  m_num_translated : Nat

/-- The state built by the constructor `imp(m, p)` (lines 368-373). -/
def imp.init : imp :=
  { m_lemmas := [], m_fresh := [], m_fresh_lim := [], m_num_translated := 0 }

/-- Modelled from the spec: `resize` of the vector classes: the vector is cut to `n` entries
or padded with `d` up to `n` entries. -/
def resize {α : Type} (l : List α) (n : Nat) (d : α) : List α :=
  l.take n ++ List.replicate (n - l.length) d

/-- The function `imp::push` (lines 381-383). -/
def push (s : imp) : imp :=
  { s with m_fresh_lim := s.m_fresh_lim ++ [s.m_fresh.length] }

/-- The function `imp::pop` (lines 384-394), in the build that checks assertions (`pop_build`
is either build). The result is `none` when `SASSERT(m_lemmas.empty())` or
`SASSERT(num_scopes <= m_fresh_lim.size())` fails. The reset of the rewriter cache has no
effect on the ledger. -/
def pop (num_scopes : Nat) (s : imp) : Option imp :=
  if ¬ s.m_lemmas.isEmpty then none
  else if num_scopes > 0 then
    if ¬ num_scopes ≤ s.m_fresh_lim.length then none
    else
      let new_sz := s.m_fresh_lim.length - num_scopes
      match s.m_fresh_lim.get? new_sz with
      | some lim =>
        some { s with m_fresh := resize s.m_fresh lim none,
                      m_fresh_lim := resize s.m_fresh_lim new_sz 0 }
      | none => none
  else some s

/-- The function `card2bv_rewriter::fresh` (lines 336-340): the declaration of the fresh
constant `d` that the term factory minted is recorded, and the constant is returned. -/
def fresh (d : Nat) (s : imp) : Expr × imp :=
  (.var d, { s with m_fresh := s.m_fresh ++ [some d] })

/-- The function `card2bv_rewriter::mk_clause` (lines 342-344). -/
def mk_clause (lits : List Expr) (s : imp) : imp :=
  { s with m_lemmas := s.m_lemmas ++ [mk_or lits] }

/-- The function `imp::flush_side_constraints` (lines 396-399): it returns the extended vector
of the caller and the new state. -/
def flush_side_constraints (side_constraints : List Expr) (s : imp) : List Expr × imp :=
  (side_constraints ++ s.m_lemmas, { s with m_lemmas := [] })

/-- An operation of the host on the ledger. -/
inductive Op where
  | push
  | pop (num_scopes : Nat)
  | fresh (d : Nat)
  | mk_clause (lits : List Expr)
  | flush

/-- One operation; `none` when its assertion fails. -/
def step (s : imp) : Op → Option imp
  | .push => some (push s)
  | .pop n => pop n s
  | .fresh d => some (fresh d s).2
  | .mk_clause lits => some (mk_clause lits s)
  | .flush => some (flush_side_constraints [] s).2

/-- The fresh-variable lists recorded at the open pushes, the most recent first: `push` records
the current list, `pop n` forgets the `n` most recent records. -/
def record (s : imp) (snaps : List (List (Option Nat))) : Op → List (List (Option Nat))
  | .push => s.m_fresh :: snaps
  | .pop n => snaps.drop n
  | _ => snaps

/-- A sequence of operations run from a state, together with the record of the lists at the
open pushes; `none` as soon as an operation fails. -/
def run : List Op → imp × List (List (Option Nat)) → Option (imp × List (List (Option Nat)))
  | [], st => some st
  | op :: ops, (s, snaps) =>
    match step s op with
    | some s2 => run ops (s2, record s snaps op)
    | none => none

/-! ## Specification-side notions -/

/-- The literal `a` is true under `σ`. -/
def holds (σ : Nat → Bool) (a : Expr) : Bool :=
  decide (eval σ a = some (.b true))

/-- The sum of the coefficients of the true literals among `args`, the first of which is
argument number `i` of `f`. -/
def wsum (σ : Nat → Bool) (f : func_decl) : Nat → List Expr → Int
  | _, [] => 0
  | i, a :: rest => (if holds σ a then get_coeff f i else 0) + wsum σ f (i + 1) rest

/-- The sum of all coefficients of `f` for `n` arguments starting at argument number `i`. -/
def total (f : func_decl) : Nat → Nat → Int
  | _, 0 => 0
  | i, n + 1 => get_coeff f i + total f (i + 1) n

/-! ## Value-level reading of the reduction

The same loops on the unsigned values of the lifted terms and on the truth values of the
recorded facts. They are related to the term-level loops by the lemmas below. -/

/-- The unsigned value of a bit-vector term (0 for a term without a bit-vector value). -/
def valOf (σ : Nat → Bool) (e : Expr) : Nat :=
  match eval σ e with
  | some (.bv _ v) => v
  | _ => 0

/-- The term `e` is a bit-vector of width `nb`, by its sort and by its value. -/
def Lifted (σ : Nat → Bool) (nb : Nat) (e : Expr) : Prop :=
  ∃ v, eval σ e = some (.bv nb v) ∧ v < 2 ^ nb ∧ get_bv_size e = nb

/-- Truth values of the two facts a checked-add step records for operands `va` and `vb`. -/
def add_facts_val (is_le : lbool) (nb kk va vb : Nat) : List Bool :=
  if is_le ≠ .l_false then
    [decide ((va + vb) / 2 ^ nb % 2 = 0), decide ((va + vb) % 2 ^ nb ≤ kk)]
  else
    [decide ((va + vb) / 2 ^ nb % 2 = 1), decide (kk ≤ (va + vb) % 2 ^ nb)]

/-- One pass of the reduction on values: the new values and the truth values of the facts. -/
def pair_round_val (is_le : lbool) (nb kk : Nat) : List Nat → List Nat × List Bool
  | a :: b :: rest =>
    let rs := pair_round_val is_le nb kk rest
    ((a + b) % 2 ^ nb :: rs.1, add_facts_val is_le nb kk a b ++ rs.2)
  | vs => (vs, [])

/-- The reduction on values. -/
def reduce_loop_val (is_le : lbool) (nb kk : Nat) : Nat → List Nat → List Nat × List Bool
  | 0, vs => (vs, [])
  | fuel + 1, vs =>
    if vs.length > 1 then
      let r := pair_round_val is_le nb kk vs
      let r2 := reduce_loop_val is_le nb kk fuel r.1
      (r2.1, r.2 ++ r2.2)
    else (vs, [])

/-- The sum of the coefficients of the true literals whose coefficient does not exceed `k`. -/
def wsum_kept (σ : Nat → Bool) (f : func_decl) (k : Int) : Nat → List Expr → Int
  | _, [] => 0
  | i, a :: rest =>
    (if get_coeff f i ≤ k ∧ holds σ a = true then get_coeff f i else 0)
      + wsum_kept σ f k (i + 1) rest

/-- Every literal whose coefficient exceeds `k` is false. -/
def pruned_false (σ : Nat → Bool) (f : func_decl) (k : Int) : Nat → List Expr → Bool
  | _, [] => true
  | i, a :: rest =>
    (if get_coeff f i > k then !holds σ a else true) && pruned_false σ f k (i + 1) rest

/-- Each recorded list is an initial segment of the next more recent one, and the most recent
one of the current list `cur`. -/
def Chained : List (List (Option Nat)) → List (Option Nat) → Prop
  | [], _ => True
  | x :: g, cur => x = cur.take x.length ∧ Chained g x

/-- The checkpoints are the lengths of the recorded lists, oldest first, and the recorded
lists are nested initial segments of the current fresh-variable list. -/
def LedgerInv (s : imp) (snaps : List (List (Option Nat))) : Prop :=
  s.m_fresh_lim = (snaps.map List.length).reverse ∧ Chained snaps s.m_fresh

/-! ## Cardinality dispatcher and rewrite rule -/

/-- Modelled from the spec: `pb_util::is_le`, the weighted at-most form PB_LE. -/
def is_le (f : func_decl) : Bool :=
  f.family = .pb_family && f.kind = .OP_PB_LE

/-- Modelled from the spec: `pb_util::is_ge`, the weighted at-least form PB_GE. -/
def is_ge (f : func_decl) : Bool :=
  f.family = .pb_family && f.kind = .OP_PB_GE

/-- Modelled from the spec: `pb_util::is_eq`, the weighted equality form PB_EQ. -/
def is_eq (f : func_decl) : Bool :=
  f.family = .pb_family && f.kind = .OP_PB_EQ

/-- Modelled from the spec: `rational::is_unsigned`, the threshold is representable as a
non-negative machine-sized integer (a 32-bit `unsigned`). -/
def is_unsigned (k : Int) : Bool :=
  decide (0 ≤ k ∧ k < 2 ^ 32)

/-- Modelled from the spec: `rational::get_unsigned`. -/
def get_unsigned (k : Int) : Nat := k.toNat

/-- Modelled from the spec: `pb_util::has_unit_coefficients`: the cardinality forms have unit
coefficients, a weighted form has them when every recorded coefficient is 1. -/
def has_unit_coefficients (f : func_decl) : Bool :=
  if is_at_most_k f || is_at_least_k f then true
  else (List.range f.coeffs.length).all (fun i => decide (get_coeff f i = 1))

/-- The function `card2bv_rewriter::is_or` (lines 215-229); `none` is the `UNREACHABLE` of the
default case. -/
def is_or (f : func_decl) : Option Bool :=
  match f.kind with
  | .OP_AT_MOST_K | .OP_PB_LE => some false
  | .OP_AT_LEAST_K | .OP_PB_GE => some (decide (get_k f = 1))
  | .OP_PB_EQ => some false
  | _ => none

/-- Modelled from the spec: a call the comparator-network service makes on the rewriter while
it builds a circuit, as far as the ledger sees it: `fresh()` or `mk_clause(lits)`. -/
inductive nw_call where
  | fresh (d : Nat)
  | mk_clause (lits : List Expr)

/-- Modelled from the spec: the external comparator-network service `psort_nw` (not under
src/), a black box that, given the literals and a threshold, returns a circuit together with
the calls of `fresh` and `mk_clause` it made. -/
structure psort_nw where
  le : Bool → Nat → List Expr → imp → Expr × List nw_call
  ge : Bool → Nat → List Expr → imp → Expr × List nw_call
  eq : Nat → List Expr → imp → Expr × List nw_call

/-- The effect on the ledger of the calls made by the comparator-network service. -/
def apply_calls : List nw_call → imp → imp
  | [], s => s
  | .fresh d :: cs, s => apply_calls cs (fresh d s).2
  | .mk_clause lits :: cs, s => apply_calls cs (mk_clause lits s)

/-- The function `card2bv_rewriter::mk_pb` (lines 298-321), in the build that checks assertions
(`mk_pb_build` is either build): it returns `result` and the new ledger; `none` when an
assertion fails. -/
def mk_pb (m_sort : psort_nw) (f : func_decl) (args : List Expr) (s : imp) :
    Option (Expr × imp) :=
  if f.family ≠ .pb_family then none
  else
    match is_or f with
    | none => none
    | some true => some (.or args, s)
    | some false =>
      if is_at_most_k f && is_unsigned (get_k f) then
        let r := m_sort.le true (get_unsigned (get_k f)) args s
        some (r.1, apply_calls r.2 s)
      else if is_at_least_k f && is_unsigned (get_k f) then
        let r := m_sort.ge true (get_unsigned (get_k f)) args s
        some (r.1, apply_calls r.2 s)
      else if is_eq f && is_unsigned (get_k f) && has_unit_coefficients f then
        let r := m_sort.eq (get_unsigned (get_k f)) args s
        some (r.1, apply_calls r.2 s)
      else if is_le f && is_unsigned (get_k f) && has_unit_coefficients f then
        let r := m_sort.le true (get_unsigned (get_k f)) args s
        some (r.1, apply_calls r.2 s)
      else if is_ge f && is_unsigned (get_k f) && has_unit_coefficients f then
        let r := m_sort.ge true (get_unsigned (get_k f)) args s
        some (r.1, apply_calls r.2 s)
      else
        match mk_bv f args with
        | some e => some (e, s)
        | none => none

/-- Modelled from the spec: `to_app(e)->get_arg(0)`, the first argument of an application;
`none` for a term without arguments. -/
def get_arg0 : Expr → Option Expr
  | .not e => some e
  | .and (e :: _) => some e
  | .or (e :: _) => some e
  | .implies a _ => some a
  | .ite c _ _ => some c
  | .eq a _ => some a
  | .zext _ e => some e
  | .bvadd a _ => some a
  | .extract _ _ e => some e
  | .ule a _ => some a
  | .add (e :: _) => some e
  | _ => none

/-- The first loop of `mk_arith` (lines 267-279): the width `bits` grows by the number of bits
of an integer numeral and by 1 for an `ite(c, 1, 0)`; `none` is `return false`. The counter
`bits` is an `unsigned`; it is modelled unbounded, a width of `2 ^ 32` being out of reach. -/
def arith_bits_loop : List Expr → Nat → Option Nat
  | [], bits => some bits
  | .num val1 true :: rest, bits => arith_bits_loop rest (bits + get_num_bits val1)
  | .ite _ (.num 1 _) (.num 0 _) :: rest, bits => arith_bits_loop rest (bits + 1)
  | _ :: _, _ => none

/-- The term `q` of the second loop of `mk_arith` (lines 285-288); `none` when `get_arg(0)` is
read of a term without arguments. -/
def arith_q (bits : Nat) : Expr → Option Expr
  | .num val1 true => some (mk_numeral val1 bits)
  | e =>
    match get_arg0 e with
    | some c => some (mk_ite c (mk_numeral 1 bits) (mk_numeral 0 bits))
    | none => none

/-- The second loop of `mk_arith` (lines 282-290) from index `i` on:
`result = (i == 0) ? q : bv.mk_bv_add(result.get(), q)`. A null `result` is `none`; the outer
`none` is an undefined read. -/
def arith_sum_loop (bits : Nat) : List Expr → Nat → Option Expr → Option (Option Expr)
  | [], _, result => some result
  | a :: rest, i, result =>
    match arith_q bits a with
    | none => none
    | some q =>
      if i = 0 then arith_sum_loop bits rest (i + 1) (some q)
      else
        match result with
        | some r => arith_sum_loop bits rest (i + 1) (some (.bvadd r q))
        | none => none

/-- The function `card2bv_rewriter::mk_arith` (lines 264-296): it returns the boolean and the
value of the reference `result` (`none` is the null term). -/
def mk_arith (f : func_decl) (args : List Expr) (result : Option Expr) :
    Option (Bool × Option Expr) :=
  if f.kind = .OP_ADD then
    match arith_bits_loop args 0 with
    | none => some (false, result)
    | some bits =>
      match arith_sum_loop bits args 0 none with
      | some r => some (true, r)
      | none => none
  else some (false, result)

/-- Modelled from the spec: the outcomes of the single-node rewrite rule, `BR_DONE`
("rewritten") and `BR_FAILED` ("not applicable"). -/
inductive br_status where
  | BR_DONE
  | BR_FAILED
  deriving DecidableEq, Repr

/-! ## Counting the steps of the reduction -/

/-- The number of checked-add steps the `for` loop `pair_for` performs. -/
def pair_for_adds (is_le : lbool) (bound : Expr) :
    Nat → Nat → List Expr → List Expr → Nat
  | 0, _, _, _ => 0
  | fuel + 1, i, es, fmls =>
    if i + 1 < es.length then
      let r := mk_le_ge_add is_le fmls (es.getD i .tt) (es.getD (i + 1) .tt) bound
      1 + pair_for_adds is_le bound fuel (i + 2) (es.set (i / 2) r.1) r.2
    else 0

/-- The number of passes of the loop `while (es.size() > 1)` that `reduce_loop` performs. -/
def reduce_rounds (is_le : lbool) (bound : Expr) : Nat → List Expr → List Expr → Nat
  | 0, _, _ => 0
  | fuel + 1, es, fmls =>
    if es.length > 1 then
      let r := while_body is_le bound es fmls
      1 + reduce_rounds is_le bound fuel r.1 r.2
    else 0

/-- The number of checked-add steps that `reduce_loop` performs in all its passes. -/
def reduce_adds (is_le : lbool) (bound : Expr) : Nat → List Expr → List Expr → Nat
  | 0, _, _ => 0
  | fuel + 1, es, fmls =>
    if es.length > 1 then
      let r := while_body is_le bound es fmls
      pair_for_adds is_le bound es.length 0 es fmls + reduce_adds is_le bound fuel r.1 r.2
    else 0

/-- The weighted encoder `mk_le_ge<is_le>(f, sz, args, k)` of lines 112-163 in either build:
`SASSERT(k.is_pos())` (line 122) stops the function only when `z3debug` holds; otherwise the
code of lines 123-162 runs on a negative `k` as well. The result is `none` when the assertion
is checked and fails, or `es.back()` is read of an empty vector. -/
def mk_le_ge_build (z3debug : Bool) (is_le : lbool) (f : func_decl) (args : List Expr)
    (k : Int) : Option Expr :=
  if k = 0 then
    if is_le ≠ .l_false then some (.not (mk_or args))
    else some .tt
  else if z3debug = true ∧ ¬ 0 < k then none
  else mk_le_ge_tree is_le f args k

/-- The function `card2bv_rewriter::mk_bv` (lines 165-187) in either build: the two
`SASSERT(!k.is_neg())` (lines 168 and 175) stop the function only when `z3debug` holds;
otherwise `mk_le_ge<l_true>` is called with whatever threshold `dualize` left. -/
def mk_bv_build (z3debug : Bool) (f : func_decl) (args : List Expr) : Option Expr :=
  let k := get_k f
  if z3debug = true ∧ k < 0 then none
  else
    match f.kind with
    | .OP_PB_GE | .OP_AT_LEAST_K =>
      let d := dualize f args k
      if z3debug = true ∧ d.2 < 0 then none
      else mk_le_ge_build z3debug .l_true f d.1 d.2
    | .OP_PB_LE | .OP_AT_MOST_K => mk_le_ge_build z3debug .l_true f args k
    | .OP_PB_EQ => mk_le_ge_build z3debug .l_undef f args k
    | _ => none

/-- The function `imp::pop` (lines 384-394) in either build: `SASSERT(m_lemmas.empty())`
(line 385) is the only test of `m_lemmas` and stops the function only when `z3debug` holds.
For `num_scopes > m_fresh_lim.size()` the unsigned difference `new_sz` wraps around and
`m_fresh_lim[new_sz]` is read outside of the vector: the result is `none` in either build. -/
def pop_build (z3debug : Bool) (num_scopes : Nat) (s : imp) : Option imp :=
  if z3debug = true ∧ ¬ s.m_lemmas.isEmpty then none
  else if num_scopes > 0 then
    if ¬ num_scopes ≤ s.m_fresh_lim.length then none
    else
      let new_sz := s.m_fresh_lim.length - num_scopes
      match s.m_fresh_lim.get? new_sz with
      | some lim =>
        some { s with m_fresh := resize s.m_fresh lim none,
                      m_fresh_lim := resize s.m_fresh_lim new_sz 0 }
      | none => none
  else some s

/-- The function `card2bv_rewriter::mk_pb` (lines 298-321) in either build: it returns `result`
and the new ledger. The assertion of line 299 stops the function only when `z3debug` holds. -/
def mk_pb_build (z3debug : Bool) (m_sort : psort_nw) (f : func_decl) (args : List Expr)
    (s : imp) : Option (Expr × imp) :=
  if z3debug = true ∧ f.family ≠ .pb_family then none
  else
    match is_or f with
    | none => none
    | some true => some (.or args, s)
    | some false =>
      if is_at_most_k f && is_unsigned (get_k f) then
        let r := m_sort.le true (get_unsigned (get_k f)) args s
        some (r.1, apply_calls r.2 s)
      else if is_at_least_k f && is_unsigned (get_k f) then
        let r := m_sort.ge true (get_unsigned (get_k f)) args s
        some (r.1, apply_calls r.2 s)
      else if is_eq f && is_unsigned (get_k f) && has_unit_coefficients f then
        let r := m_sort.eq (get_unsigned (get_k f)) args s
        some (r.1, apply_calls r.2 s)
      else if is_le f && is_unsigned (get_k f) && has_unit_coefficients f then
        let r := m_sort.le true (get_unsigned (get_k f)) args s
        some (r.1, apply_calls r.2 s)
      else if is_ge f && is_unsigned (get_k f) && has_unit_coefficients f then
        let r := m_sort.ge true (get_unsigned (get_k f)) args s
        some (r.1, apply_calls r.2 s)
      else
        match mk_bv_build z3debug f args with
        | some e => some (e, s)
        | none => none

/-- The function `card2bv_rewriter::mk_app_core` (lines 244-257) in either build: it returns
the status, the value of the reference `result` and the new ledger; `none` when `mk_pb` does
not return. The counter `m_num_translated` is an `unsigned` (line 70): `++` wraps around at
`2 ^ 32`. -/
def mk_app_core (z3debug : Bool) (m_sort : psort_nw) (f : func_decl) (args : List Expr)
    (result : Option Expr) (s : imp) : Option (br_status × Option Expr × imp) :=
  if f.family = .pb_family then
    match mk_pb_build z3debug m_sort f args s with
    | some r =>
      some (.BR_DONE, some r.1,
        { r.2 with m_num_translated := (r.2.m_num_translated + 1) % 2 ^ 32 })
    | none => none
  else if f.family = .arith_family then
    match mk_arith f args result with
    | some (true, r) =>
      some (.BR_DONE, r, { s with m_num_translated := (s.m_num_translated + 1) % 2 ^ 32 })
    | some (false, r) => some (.BR_FAILED, r, s)
    | none => none
  else some (.BR_FAILED, result, s)

/-- The call `mk_pb(f, ...)` ends in the last branch of lines 299-320, the weighted encoder
`mk_bv`: `f` is not the at-least-one shortcut and is not handed to the comparator network. -/
def reaches_mk_bv (f : func_decl) : Prop :=
  is_or f = some false ∧ ¬ (is_unsigned (get_k f) = true ∧ has_unit_coefficients f = true)

/-- What `mk_bv(f, sz, args)` needs to return: in a build that checks assertions the two
`SASSERT(!k.is_neg())` hold (`k` is not negative and, for PB_GE and AtLeast, not above the sum
of the coefficients), and in the EQ mode with `k ≠ 0` some coefficient does not exceed `k`, so
that `es.back()` is read of a non-empty vector. -/
def mk_bv_defined (z3debug : Bool) (f : func_decl) (args : List Expr) : Prop :=
  (z3debug = true → 0 ≤ get_k f ∧
    (f.kind = .OP_PB_GE ∨ f.kind = .OP_AT_LEAST_K → get_k f ≤ total f 0 args.length)) ∧
  (f.kind = .OP_PB_EQ → get_k f = 0 ∨ ∃ j, j < args.length ∧ get_coeff f j ≤ get_k f)

/-! ## Identity of terms -/

mutual
theorem Expr.beq_refl : ∀ a : Expr, Expr.beq a a = true
  | .var i => by simp [Expr.beq]
  | .tt => by simp [Expr.beq]
  | .ff => by simp [Expr.beq]
  | .not a => by simp [Expr.beq, Expr.beq_refl a]
  | .and as => by simp [Expr.beq, Expr.beqList_refl as]
  | .or as => by simp [Expr.beq, Expr.beqList_refl as]
  | .implies a b => by simp [Expr.beq, Expr.beq_refl a, Expr.beq_refl b]
  | .ite a b c => by simp [Expr.beq, Expr.beq_refl a, Expr.beq_refl b, Expr.beq_refl c]
  | .eq a b => by simp [Expr.beq, Expr.beq_refl a, Expr.beq_refl b]
  | .bvnum v w => by simp [Expr.beq]
  | .zext n a => by simp [Expr.beq, Expr.beq_refl a]
  | .bvadd a b => by simp [Expr.beq, Expr.beq_refl a, Expr.beq_refl b]
  | .extract h l a => by simp [Expr.beq, Expr.beq_refl a]
  | .ule a b => by simp [Expr.beq, Expr.beq_refl a, Expr.beq_refl b]
  | .num v i => by simp [Expr.beq]
  | .add as => by simp [Expr.beq, Expr.beqList_refl as]
theorem Expr.beqList_refl : ∀ as : List Expr, Expr.beqList as as = true
  | [] => by simp [Expr.beqList]
  | a :: as => by simp [Expr.beqList, Expr.beq_refl a, Expr.beqList_refl as]
end

mutual
theorem Expr.eq_of_beq : ∀ a b : Expr, Expr.beq a b = true → a = b
  | .var i, b => by cases b <;> simp [Expr.beq]
  | .tt, b => by cases b <;> simp [Expr.beq]
  | .ff, b => by cases b <;> simp [Expr.beq]
  | .not a, b => by
    cases b <;> simp [Expr.beq]
    exact Expr.eq_of_beq a _
  | .and as, b => by
    cases b <;> simp [Expr.beq]
    exact Expr.eq_of_beqList as _
  | .or as, b => by
    cases b <;> simp [Expr.beq]
    exact Expr.eq_of_beqList as _
  | .implies a a2, b => by
    cases b <;> simp [Expr.beq]
    exact fun h1 h2 => ⟨Expr.eq_of_beq a _ h1, Expr.eq_of_beq a2 _ h2⟩
  | .ite a a2 a3, b => by
    cases b <;> simp [Expr.beq]
    exact fun h1 h2 h3 =>
      ⟨Expr.eq_of_beq a _ h1, Expr.eq_of_beq a2 _ h2, Expr.eq_of_beq a3 _ h3⟩
  | .eq a a2, b => by
    cases b <;> simp [Expr.beq]
    exact fun h1 h2 => ⟨Expr.eq_of_beq a _ h1, Expr.eq_of_beq a2 _ h2⟩
  | .bvnum v w, b => by cases b <;> simp [Expr.beq]
  | .zext n a, b => by
    cases b <;> simp [Expr.beq]
    exact fun h1 h2 => ⟨h1, Expr.eq_of_beq a _ h2⟩
  | .bvadd a a2, b => by
    cases b <;> simp [Expr.beq]
    exact fun h1 h2 => ⟨Expr.eq_of_beq a _ h1, Expr.eq_of_beq a2 _ h2⟩
  | .extract h l a, b => by
    cases b <;> simp [Expr.beq]
    exact fun h1 h2 h3 => ⟨h1, h2, Expr.eq_of_beq a _ h3⟩
  | .ule a a2, b => by
    cases b <;> simp [Expr.beq]
    exact fun h1 h2 => ⟨Expr.eq_of_beq a _ h1, Expr.eq_of_beq a2 _ h2⟩
  | .num v i, b => by cases b <;> simp [Expr.beq]
  | .add as, b => by
    cases b <;> simp [Expr.beq]
    exact Expr.eq_of_beqList as _
theorem Expr.eq_of_beqList : ∀ as bs : List Expr, Expr.beqList as bs = true → as = bs
  | [], bs => by cases bs <;> simp [Expr.beqList]
  | a :: as, bs => by
    cases bs <;> simp [Expr.beqList]
    exact fun h1 h2 => ⟨Expr.eq_of_beq a _ h1, Expr.eq_of_beqList as _ h2⟩
end

theorem Expr.beq_iff (a b : Expr) : Expr.beq a b = true ↔ a = b :=
  ⟨Expr.eq_of_beq a b, fun h => h ▸ Expr.beq_refl a⟩

/-! ## Evaluation lemmas -/

theorem evalList_eq_map (σ : Nat → Bool) (es : List Expr) :
    evalList σ es = es.map (eval σ) := by
  induction es with
  | nil => simp [evalList]
  | cons e es ih => simp [evalList, ih]

theorem is_true_iff (e : Expr) : is_true e = true ↔ e = .tt := by
  cases e <;> simp [is_true]

theorem is_false_iff (e : Expr) : is_false e = true ↔ e = .ff := by
  cases e <;> simp [is_false]

theorem eval_not_inv (σ : Nat → Bool) (e : Expr) (x : Bool)
    (h : eval σ (.not e) = some (.b x)) : eval σ e = some (.b (!x)) := by
  simp only [eval] at h
  split at h
  · rename_i y hy
    simp at h
    simp [hy, ← h]
  · simp at h

theorem eval_negate (σ : Nat → Bool) (e : Expr) (x : Bool) (h : eval σ e = some (.b x)) :
    eval σ (negate e) = some (.b (!x)) := by
  unfold negate
  split
  · exact eval_not_inv σ _ x h
  · simp [eval, h]

theorem Val.sameSort_b_left (x : Bool) (v : Val) (h : Val.sameSort (.b x) v = true) :
    ∃ y, v = .b y := by
  cases v <;> simp [Val.sameSort] at h ⊢

theorem Val.sameSort_b_right (x : Bool) (v : Val) (h : Val.sameSort v (.b x) = true) :
    ∃ y, v = .b y := by
  cases v <;> simp [Val.sameSort] at h ⊢

theorem Val.sameSort_symm (v w : Val) (h : Val.sameSort v w = true) :
    Val.sameSort w v = true := by
  cases v <;> cases w <;> simp [Val.sameSort] at h ⊢ <;> exact h.symm

theorem eval_mk_ite_core (σ : Nat → Bool) (c hi lo : Expr) (x : Bool) (vh vl : Val)
    (hc : eval σ c = some (.b x)) (hh : eval σ hi = some vh) (hl : eval σ lo = some vl)
    (hs : Val.sameSort vh vl = true) :
    eval σ (mk_ite_core c hi lo) = some (if x then vh else vl) := by
  generalize hr : (if x then vh else vl) = r
  unfold mk_ite_core
  split_ifs with h1 h2 h3 h4 h5 h6 h7
  · have := Expr.eq_of_beq _ _ h1
    subst this
    rw [hh] at hl
    cases hl
    simp at hr
    rw [hh, hr]
  · simp only [Bool.and_eq_true, is_true_iff, is_false_iff] at h2
    obtain ⟨rfl, rfl⟩ := h2
    simp only [eval, Option.some.injEq] at hh hl
    subst hh hl hr
    cases x <;> simp [hc]
  · simp only [Bool.and_eq_true, is_true_iff, is_false_iff] at h3
    obtain ⟨rfl, rfl⟩ := h3
    simp only [eval, Option.some.injEq] at hh hl
    subst hh hl hr
    rw [eval_negate σ c x hc]
    cases x <;> simp
  · rw [is_true_iff] at h4
    subst h4
    simp only [eval, Option.some.injEq] at hh
    subst hh hr
    obtain ⟨y, rfl⟩ := Val.sameSort_b_left _ _ hs
    simp only [eval, evalList, hc, hl, Val.orL]
    cases x <;> simp
  · rw [is_false_iff] at h5
    subst h5
    simp only [eval, Option.some.injEq] at hl
    subst hl hr
    obtain ⟨y, rfl⟩ := Val.sameSort_b_right _ _ hs
    simp only [eval, evalList, hc, hh, Val.andL]
    cases x <;> simp
  · rw [is_false_iff] at h6
    subst h6
    simp only [eval, Option.some.injEq] at hh
    subst hh hr
    obtain ⟨y, rfl⟩ := Val.sameSort_b_left _ _ hs
    simp only [eval, evalList, eval_negate σ c x hc, hl, Val.andL]
    cases x <;> simp
  · rw [is_true_iff] at h7
    subst h7
    simp only [eval, Option.some.injEq] at hl
    subst hl hr
    obtain ⟨y, rfl⟩ := Val.sameSort_b_right _ _ hs
    simp only [eval, hc, hh]
    cases x <;> simp
  · simp [eval, hc, hh, hl, hs, hr]

theorem eval_mk_ite (σ : Nat → Bool) (c hi lo : Expr) :
    ∀ (x : Bool) (vh vl : Val), eval σ c = some (.b x) → eval σ hi = some vh →
      eval σ lo = some vl → Val.sameSort vh vl = true →
      eval σ (mk_ite c hi lo) = some (if x then vh else vl) := by
  induction c, hi, lo using mk_ite.induct with
  | case1 c hi lo ih =>
    intro x vh vl hc hh hl hs
    rw [mk_ite]
    have := ih (!x) vl vh (eval_not_inv σ c x hc) hl hh (Val.sameSort_symm _ _ hs)
    rw [this]
    cases x <;> simp
  | case2 c hi lo hn =>
    intro x vh vl hc hh hl hs
    rw [mk_ite]
    · exact eval_mk_ite_core σ c hi lo x vh vl hc hh hl hs
    · exact hn

theorem mk_ite_same (c x : Expr) : mk_ite c x x = x := by
  generalize hy : x = y
  nth_rewrite 1 [← hy]
  nth_rewrite 2 [← hy]
  induction c, x, y using mk_ite.induct with
  | case1 c hi lo ih =>
    rw [mk_ite]
    subst hy
    exact ih rfl
  | case2 c hi lo hn =>
    rw [mk_ite]
    · subst hy
      simp [mk_ite_core, Expr.beq_refl]
    · exact hn

/-! ## Arithmetic of the reduction on values -/

theorem add_facts_val_le (is_le : lbool) (h : is_le ≠ .l_false) (nb kk va vb : Nat)
    (hk : kk < 2 ^ nb) (ha : va < 2 ^ nb) (hb : vb < 2 ^ nb) :
    (add_facts_val is_le nb kk va vb).all id = true ↔ va + vb ≤ kk := by
  have hP : 0 < 2 ^ nb := Nat.pos_of_ne_zero (by positivity)
  simp only [add_facts_val, h, ne_eq, not_false_eq_true, if_true, List.all_cons, id,
    List.all_nil, Bool.and_true, Bool.and_eq_true, decide_eq_true_eq]
  constructor
  · rintro ⟨h1, h2⟩
    by_cases hs : va + vb < 2 ^ nb
    · rwa [Nat.mod_eq_of_lt hs] at h2
    · exfalso
      have : (va + vb) / 2 ^ nb = 1 := by
        apply Nat.div_eq_of_lt_le <;> omega
      rw [this] at h1
      omega
  · intro hs
    have hlt : va + vb < 2 ^ nb := by omega
    rw [Nat.div_eq_of_lt hlt, Nat.mod_eq_of_lt hlt]
    exact ⟨rfl, hs⟩

theorem pair_round_val_length (is_le : lbool) (nb kk : Nat) :
    ∀ vs : List Nat, (pair_round_val is_le nb kk vs).1.length = (vs.length + 1) / 2
  | [] => by simp [pair_round_val]
  | [a] => by simp [pair_round_val]
  | a :: b :: rest => by
    simp only [pair_round_val, List.length_cons, pair_round_val_length is_le nb kk rest]
    omega

theorem pair_round_val_lt (is_le : lbool) (nb kk : Nat) :
    ∀ vs : List Nat, (∀ v ∈ vs, v < 2 ^ nb) →
      ∀ v ∈ (pair_round_val is_le nb kk vs).1, v < 2 ^ nb
  | [], _ => by simp [pair_round_val]
  | [a], h => by simpa [pair_round_val] using h
  | a :: b :: rest, h => by
    have hP : 0 < 2 ^ nb := Nat.pos_of_ne_zero (by positivity)
    intro v hv
    simp only [pair_round_val, List.mem_cons] at hv
    rcases hv with rfl | hv
    · exact Nat.mod_lt _ hP
    · exact pair_round_val_lt is_le nb kk rest
        (fun w hw => h w (by simp [hw])) v hv

/-- One pass in the LE and EQ modes, on values that do not exceed the bound. -/
theorem pair_round_val_le (is_le : lbool) (h : is_le ≠ .l_false) (nb kk : Nat)
    (hk : kk < 2 ^ nb) :
    ∀ vs : List Nat, (∀ v ∈ vs, v ≤ kk) →
      ((pair_round_val is_le nb kk vs).2.all id = true →
        (pair_round_val is_le nb kk vs).1.sum = vs.sum ∧
        ∀ v ∈ (pair_round_val is_le nb kk vs).1, v ≤ kk) ∧
      (vs.sum ≤ kk → (pair_round_val is_le nb kk vs).2.all id = true)
  | [], _ => by simp [pair_round_val]
  | [a], hv => by simpa [pair_round_val] using hv
  | a :: b :: rest, hv => by
    have ha : a ≤ kk := hv a (by simp)
    have hb : b ≤ kk := hv b (by simp)
    have hrest : ∀ v ∈ rest, v ≤ kk := fun w hw => hv w (by simp [hw])
    have ih := pair_round_val_le is_le h nb kk hk rest hrest
    have hf := add_facts_val_le is_le h nb kk a b hk (by omega) (by omega)
    simp only [pair_round_val, List.all_append, Bool.and_eq_true, List.sum_cons,
      List.mem_cons, forall_eq_or_imp]
    constructor
    · rintro ⟨h1, h2⟩
      have hab := hf.1 h1
      obtain ⟨e1, e2⟩ := ih.1 h2
      rw [Nat.mod_eq_of_lt (by omega)]
      exact ⟨by omega, hab, e2⟩
    · intro hs
      exact ⟨hf.2 (by omega), ih.2 (by omega)⟩

theorem reduce_loop_val_length (is_le : lbool) (nb kk : Nat) :
    ∀ (fuel : Nat) (vs : List Nat), vs.length ≤ fuel →
      (reduce_loop_val is_le nb kk fuel vs).1.length = min vs.length 1
  | 0, vs, h => by
    have : vs = [] := List.length_eq_zero.mp (by omega)
    simp [reduce_loop_val, this]
  | fuel + 1, vs, h => by
    simp only [reduce_loop_val]
    split_ifs with h1
    · have hl := pair_round_val_length is_le nb kk vs
      rw [reduce_loop_val_length is_le nb kk fuel _ (by omega), hl]
      omega
    · simp; omega

theorem sum_le_of_length_le_one (kk : Nat) (vs : List Nat) (hv : ∀ v ∈ vs, v ≤ kk)
    (h : ¬ vs.length > 1) : vs.sum ≤ kk := by
  match vs, hv, h with
  | [], _, _ => simp
  | [a], hv, _ => simpa using hv
  | a :: b :: rest, _, h => simp at h

/-- The whole reduction in the LE and EQ modes, on values that do not exceed the bound: the
recorded facts all hold exactly when the sum does not exceed the bound, and then the value
that is left is the sum. -/
theorem reduce_loop_val_le (is_le : lbool) (h : is_le ≠ .l_false) (nb kk : Nat)
    (hk : kk < 2 ^ nb) :
    ∀ (fuel : Nat) (vs : List Nat), vs.length ≤ fuel → (∀ v ∈ vs, v ≤ kk) →
      ((reduce_loop_val is_le nb kk fuel vs).2.all id = true ↔ vs.sum ≤ kk) ∧
      ((reduce_loop_val is_le nb kk fuel vs).2.all id = true →
        (reduce_loop_val is_le nb kk fuel vs).1.sum = vs.sum)
  | 0, vs, hl, _ => by
    have : vs = [] := List.length_eq_zero.mp (by omega)
    simp [reduce_loop_val, this]
  | fuel + 1, vs, hl, hv => by
    simp only [reduce_loop_val]
    split_ifs with h1
    · have hr := pair_round_val_le is_le h nb kk hk vs hv
      have hlen := pair_round_val_length is_le nb kk vs
      have ih := fun e2 => reduce_loop_val_le is_le h nb kk hk fuel
        (pair_round_val is_le nb kk vs).1 (by omega) e2
      simp only [List.all_append, Bool.and_eq_true]
      refine ⟨⟨?_, ?_⟩, ?_⟩
      · rintro ⟨h2, h3⟩
        obtain ⟨e1, e2⟩ := hr.1 h2
        rw [← e1]
        exact (ih e2).1.1 h3
      · intro hs
        have h2 := hr.2 hs
        obtain ⟨e1, e2⟩ := hr.1 h2
        exact ⟨h2, (ih e2).1.2 (by omega)⟩
      · rintro ⟨h2, h3⟩
        obtain ⟨e1, e2⟩ := hr.1 h2
        rw [(ih e2).2 h3, e1]
    · simpa using sum_le_of_length_le_one kk vs hv h1

theorem eval_mk_numeral (σ : Nat → Bool) (v : Int) (w : Nat) :
    eval σ (mk_numeral v w) = some (.bv w (v % 2 ^ w).toNat) := by
  have hP : (0 : Int) < 2 ^ w := by positivity
  have h0 : 0 ≤ v % 2 ^ w := Int.emod_nonneg _ (by omega)
  have h1 : v % 2 ^ w < 2 ^ w := Int.emod_lt_of_pos _ hP
  have h2 : (v % 2 ^ w).toNat < 2 ^ w := by
    zify
    rw [Int.toNat_of_nonneg h0]
    exact_mod_cast h1
  simp [mk_numeral, eval, Nat.mod_eq_of_lt h2]

theorem eval_mk_numeral_of_lt (σ : Nat → Bool) (v : Int) (w : Nat) (h0 : 0 ≤ v)
    (h : v.toNat < 2 ^ w) : eval σ (mk_numeral v w) = some (.bv w v.toNat) := by
  rw [eval_mk_numeral]
  have : v % 2 ^ w = v := by
    apply Int.emod_eq_of_lt h0
    have : (v.toNat : Int) < 2 ^ w := by exact_mod_cast h
    rwa [Int.toNat_of_nonneg h0] at this
  rw [this]

theorem valOf_eq (σ : Nat → Bool) (e : Expr) (w v : Nat) (h : eval σ e = some (.bv w v)) :
    valOf σ e = v := by
  simp [valOf, h]

theorem Lifted.eval_eq {σ : Nat → Bool} {nb : Nat} {e : Expr} (h : Lifted σ nb e) :
    eval σ e = some (.bv nb (valOf σ e)) := by
  obtain ⟨v, h1, _, _⟩ := h
  rw [valOf_eq σ e nb v h1, h1]

theorem Lifted.lt {σ : Nat → Bool} {nb : Nat} {e : Expr} (h : Lifted σ nb e) :
    valOf σ e < 2 ^ nb := by
  obtain ⟨v, h1, h2, _⟩ := h
  rwa [valOf_eq σ e nb v h1]

theorem Lifted.size {σ : Nat → Bool} {nb : Nat} {e : Expr} (h : Lifted σ nb e) :
    get_bv_size e = nb := by
  obtain ⟨v, _, _, h3⟩ := h
  exact h3

theorem eval_eq_bv (σ : Nat → Bool) (x y : Expr) (w v v2 : Nat)
    (hx : eval σ x = some (.bv w v)) (hy : eval σ y = some (.bv w v2)) :
    eval σ (.eq x y) = some (.b (decide (v = v2))) := by
  simp [eval, hx, hy, Val.sameSort]

theorem eval_ule_bv (σ : Nat → Bool) (x y : Expr) (w v v2 : Nat)
    (hx : eval σ x = some (.bv w v)) (hy : eval σ y = some (.bv w v2)) :
    eval σ (.ule x y) = some (.b (decide (v ≤ v2))) := by
  simp [eval, hx, hy]

theorem eval_extract_bv (σ : Nat → Bool) (x : Expr) (hi lo w v : Nat)
    (hx : eval σ x = some (.bv w v)) (h1 : lo ≤ hi) (h2 : hi < w) :
    eval σ (.extract hi lo x) =
      some (.bv (hi - lo + 1) ((v / 2 ^ lo) % 2 ^ (hi - lo + 1))) := by
  simp [eval, hx, h1, h2]

theorem eval_checked_sum (σ : Nat → Bool) (a b : Expr) (nb va vb : Nat)
    (ha : eval σ a = some (.bv nb va)) (hb : eval σ b = some (.bv nb vb))
    (la : va < 2 ^ nb) (lb : vb < 2 ^ nb) :
    eval σ (.bvadd (.zext 1 a) (.zext 1 b)) = some (.bv (nb + 1) (va + vb)) := by
  have hs : (va + vb) % 2 ^ (nb + 1) = va + vb := by
    apply Nat.mod_eq_of_lt
    rw [pow_succ]
    omega
  simp [eval, ha, hb, hs]

/-- The checked-add step on terms agrees with the step on values. -/
theorem mk_le_ge_add_spec (σ : Nat → Bool) (is_le : lbool) (nb kk : Nat) (fmls : List Expr)
    (a b bound : Expr) (hnb : 1 ≤ nb) (ha : Lifted σ nb a) (hb : Lifted σ nb b)
    (hbound : eval σ bound = some (.bv nb kk)) :
    Lifted σ nb (mk_le_ge_add is_le fmls a b bound).1 ∧
    valOf σ (mk_le_ge_add is_le fmls a b bound).1 = (valOf σ a + valOf σ b) % 2 ^ nb ∧
    (mk_le_ge_add is_le fmls a b bound).2.map (eval σ) = fmls.map (eval σ) ++
      (add_facts_val is_le nb kk (valOf σ a) (valOf σ b)).map (fun x => some (.b x)) := by
  have hP : 0 < 2 ^ nb := Nat.pos_of_ne_zero (by positivity)
  have hsum := eval_checked_sum σ a b nb _ _ ha.eval_eq hb.eval_eq ha.lt hb.lt
  have e1 : eval σ (.extract (nb - 1) 0 (.bvadd (.zext 1 a) (.zext 1 b))) =
      some (.bv nb ((valOf σ a + valOf σ b) % 2 ^ nb)) := by
    rw [eval_extract_bv σ _ _ _ _ _ hsum (Nat.zero_le _) (by omega)]
    have h3 : nb - 1 - 0 + 1 = nb := by omega
    rw [h3]
    simp
  have e2 : eval σ (.extract nb nb (.bvadd (.zext 1 a) (.zext 1 b))) =
      some (.bv 1 ((valOf σ a + valOf σ b) / 2 ^ nb % 2)) := by
    rw [eval_extract_bv σ _ _ _ _ _ hsum (Nat.le_refl _) (by omega)]
    simp
  have hsz : get_bv_size a = nb := ha.size
  have hr : (mk_le_ge_add is_le fmls a b bound).1 =
      .extract (nb - 1) 0 (.bvadd (.zext 1 a) (.zext 1 b)) := by
    simp only [mk_le_ge_add, hsz]
    split_ifs <;> rfl
  have n0 : eval σ (mk_numeral 0 1) = some (.bv 1 0) := by
    rw [eval_mk_numeral]; rfl
  have n1 : eval σ (mk_numeral 1 1) = some (.bv 1 1) := by
    rw [eval_mk_numeral]; rfl
  refine ⟨?_, ?_, ?_⟩
  · rw [hr]
    refine ⟨_, e1, Nat.mod_lt _ hP, ?_⟩
    simp only [get_bv_size]
    omega
  · rw [hr]
    exact valOf_eq σ _ _ _ e1
  · simp only [mk_le_ge_add, hsz, add_facts_val]
    split_ifs with h
    · simp only [List.map_append, List.map_cons, List.map_nil]
      rw [eval_eq_bv σ _ _ _ _ _ e2 n0, eval_ule_bv σ _ _ _ _ _ e1 hbound]
    · simp only [List.map_append, List.map_cons, List.map_nil]
      rw [eval_eq_bv σ _ _ _ _ _ e2 n1, eval_ule_bv σ _ _ _ _ _ hbound e1]

/-- One pass of the reduction on terms agrees with the pass on values. -/
theorem pair_round_spec (σ : Nat → Bool) (is_le : lbool) (nb kk : Nat) (bound : Expr)
    (hnb : 1 ≤ nb) (hbound : eval σ bound = some (.bv nb kk)) :
    ∀ (es fmls : List Expr), (∀ e ∈ es, Lifted σ nb e) →
      (∀ e ∈ (pair_round is_le bound es fmls).1, Lifted σ nb e) ∧
      (pair_round is_le bound es fmls).1.map (valOf σ) =
        (pair_round_val is_le nb kk (es.map (valOf σ))).1 ∧
      (pair_round is_le bound es fmls).2.map (eval σ) = fmls.map (eval σ) ++
        (pair_round_val is_le nb kk (es.map (valOf σ))).2.map (fun x => some (.b x))
  | [], fmls, _ => by simp [pair_round, pair_round_val]
  | [a], fmls, h => by simpa [pair_round, pair_round_val] using h
  | a :: b :: rest, fmls, h => by
    have ha : Lifted σ nb a := h a (by simp)
    have hb : Lifted σ nb b := h b (by simp)
    have hrest : ∀ e ∈ rest, Lifted σ nb e := fun e he => h e (by simp [he])
    obtain ⟨s1, s2, s3⟩ := mk_le_ge_add_spec σ is_le nb kk fmls a b bound hnb ha hb hbound
    obtain ⟨i1, i2, i3⟩ := pair_round_spec σ is_le nb kk bound hnb hbound rest
      (mk_le_ge_add is_le fmls a b bound).2 hrest
    simp only [pair_round, pair_round_val, List.map_cons, List.mem_cons, forall_eq_or_imp,
      List.map_append]
    refine ⟨⟨s1, i1⟩, ?_, ?_⟩
    · rw [s2, i2]
    · rw [i3, s3, List.append_assoc]

theorem pair_round_length (is_le : lbool) (bound : Expr) :
    ∀ (es fmls : List Expr), (pair_round is_le bound es fmls).1.length = (es.length + 1) / 2
  | [], _ => by simp [pair_round]
  | [a], _ => by simp [pair_round]
  | a :: b :: rest, fmls => by
    simp only [pair_round, List.length_cons, pair_round_length is_le bound rest]
    omega

theorem pair_for_spec (is_le : lbool) (bound : Expr) :
    ∀ (rest res mid fmls : List Expr) (fuel : Nat), res.length = mid.length →
      rest.length ≤ 2 * fuel →
      pair_for is_le bound fuel (res.length + mid.length) (res ++ (mid ++ rest)) fmls =
        (res ++ ((pair_round is_le bound rest fmls).1.take (rest.length / 2) ++
          (mid ++ rest).drop (rest.length / 2)), (pair_round is_le bound rest fmls).2)
  | [], res, mid, fmls, fuel, _, _ => by
    cases fuel <;> simp [pair_for, pair_round]
  | [a], res, mid, fmls, fuel, _, _ => by
    have hi : ¬ res.length + mid.length + 1 < (res ++ (mid ++ [a])).length := by
      simp
      omega
    cases fuel
    · simp [pair_for, pair_round]
    · simp only [pair_for, hi, if_false]
      simp [pair_round]
  | a :: b :: rest, res, mid, fmls, 0, _, h => by simp at h
  | a :: b :: rest, res, mid, fmls, fuel + 1, hlen, h => by
    have hi : res.length + mid.length + 1 < (res ++ (mid ++ a :: b :: rest)).length := by
      simp; omega
    have ga : (res ++ (mid ++ a :: b :: rest)).getD (res.length + mid.length) .tt = a := by
      rw [List.getD_eq_getElem?_getD, List.getElem?_append_right (by omega),
        List.getElem?_append_right (by omega)]
      have : res.length + mid.length - res.length - mid.length = 0 := by omega
      simp [this]
    have gb : (res ++ (mid ++ a :: b :: rest)).getD (res.length + mid.length + 1) .tt = b := by
      rw [List.getD_eq_getElem?_getD, List.getElem?_append_right (by omega),
        List.getElem?_append_right (by omega)]
      have : res.length + mid.length + 1 - res.length - mid.length = 1 := by omega
      simp [this]
    have hdiv : (res.length + mid.length) / 2 = res.length := by omega
    simp only [pair_for, hi, if_true, ga, gb, hdiv]
    set r := mk_le_ge_add is_le fmls a b bound with hr
    have hset : (res ++ (mid ++ a :: b :: rest)).set res.length r.1 =
        (res ++ [r.1]) ++ ((mid ++ [a, b]).tail ++ rest) := by
      rw [List.set_append_right _ _ (le_refl _)]
      cases mid with
      | nil => simp
      | cons m mid => simp
    rw [hset]
    have hl2 : (res ++ [r.1]).length = ((mid ++ [a, b]).tail).length := by
      simp; omega
    have hidx : res.length + mid.length + 2 =
        (res ++ [r.1]).length + ((mid ++ [a, b]).tail).length := by
      simp; omega
    rw [hidx, pair_for_spec is_le bound rest (res ++ [r.1]) ((mid ++ [a, b]).tail) r.2 fuel
      hl2 (by simp at h; omega)]
    have hhalf : (a :: b :: rest).length / 2 = rest.length / 2 + 1 := by
      simp; omega
    simp only [pair_round, hhalf, List.take_succ_cons, ← hr]
    congr 1
    simp only [List.append_assoc, List.singleton_append, List.cons_append]
    congr 2
    cases mid with
    | nil => simp
    | cons m mid => simp

theorem getLastD_append_cons {α : Type} (l1 : List α) (x : α) (l2 : List α) (d : α) :
    (l1 ++ x :: l2).getLastD d = (x :: l2).getLastD d := by
  induction l1 generalizing d with
  | nil => rfl
  | cons a l1 ih =>
    rw [List.cons_append, List.getLastD_cons, ih, List.getLastD_cons, List.getLastD_cons]

theorem pair_round_odd (is_le : lbool) (bound : Expr) :
    ∀ (rest fmls : List Expr), rest.length % 2 = 1 →
      (pair_round is_le bound rest fmls).1 =
        (pair_round is_le bound rest fmls).1.take (rest.length / 2) ++ [rest.getLastD .tt]
  | [], _, h => by simp at h
  | [a], _, _ => by simp [pair_round]
  | a :: b :: rest, fmls, h => by
    have h2 : rest.length % 2 = 1 := by
      simp only [List.length_cons] at h
      omega
    have ih := pair_round_odd is_le bound rest (mk_le_ge_add is_le fmls a b bound).2 h2
    have hhalf : (a :: b :: rest).length / 2 = rest.length / 2 + 1 := by
      simp; omega
    have hne : rest ≠ [] := by
      intro h0
      simp [h0] at h2
    have hlast : (a :: b :: rest).getLastD .tt = rest.getLastD .tt := by
      cases rest with
      | nil => exact absurd rfl hne
      | cons c rest => simp [List.getLastD]
    simp only [pair_round, hhalf, List.take_succ_cons, List.cons_append, hlast]
    congr 1

/-- The body of the `while` loop on the vector in place computes the pairing pass. -/
theorem while_body_eq_pair_round (is_le : lbool) (bound : Expr) (es fmls : List Expr) :
    while_body is_le bound es fmls = pair_round is_le bound es fmls := by
  have hspec := pair_for_spec is_le bound es [] [] fmls es.length rfl (by omega)
  simp only [List.length_nil, List.nil_append, Nat.add_zero] at hspec
  have hlenP := pair_round_length is_le bound es fmls
  have hlen : ((pair_round is_le bound es fmls).1.take (es.length / 2) ++
      es.drop (es.length / 2)).length = es.length := by
    simp only [List.length_append, List.length_take, List.length_drop, hlenP]
    omega
  have hA : ((pair_round is_le bound es fmls).1.take (es.length / 2)).length = es.length / 2 := by
    simp only [List.length_take, hlenP]
    omega
  simp only [while_body, hspec, hlen]
  by_cases hodd : es.length % 2 = 1
  · simp only [hodd, if_true]
    have hB : es.drop (es.length / 2) ≠ [] := by
      intro h0
      have := congrArg List.length h0
      simp only [List.length_drop, List.length_nil] at this
      omega
    obtain ⟨x, B, hxB⟩ := List.exists_cons_of_ne_nil hB
    have hlast : ((pair_round is_le bound es fmls).1.take (es.length / 2) ++
        es.drop (es.length / 2)).getLastD .tt = es.getLastD .tt := by
      rw [hxB, getLastD_append_cons]
      conv_rhs => rw [← List.take_append_drop (es.length / 2) es, hxB, getLastD_append_cons]
    have hhalf : (1 + es.length) / 2 = es.length / 2 + 1 := by omega
    rw [hlast, List.length_set, hlen, hhalf, hxB,
      List.set_append_right _ _ (by omega), hA, Nat.sub_self, List.set_cons_zero,
      List.take_append_eq_append_take, hA, List.take_of_length_le (by omega)]
    have h1 : es.length / 2 + 1 - es.length / 2 = 1 := by omega
    rw [h1, List.take_succ_cons, List.take_zero]
    rw [← pair_round_odd is_le bound es fmls hodd]
  · simp only [hodd, if_false, hlen]
    have hhalf : (1 + es.length) / 2 = es.length / 2 := by omega
    rw [hhalf, List.take_append_of_le_length (by omega), List.take_take]
    simp only [min_self]
    rw [List.take_of_length_le (by omega)]

/-- The reduction on terms agrees with the reduction on values. -/
theorem reduce_loop_spec (σ : Nat → Bool) (is_le : lbool) (nb kk : Nat) (bound : Expr)
    (hnb : 1 ≤ nb) (hbound : eval σ bound = some (.bv nb kk)) :
    ∀ (fuel : Nat) (es fmls : List Expr), (∀ e ∈ es, Lifted σ nb e) →
      (∀ e ∈ (reduce_loop is_le bound fuel es fmls).1, Lifted σ nb e) ∧
      (reduce_loop is_le bound fuel es fmls).1.map (valOf σ) =
        (reduce_loop_val is_le nb kk fuel (es.map (valOf σ))).1 ∧
      (reduce_loop is_le bound fuel es fmls).2.map (eval σ) = fmls.map (eval σ) ++
        (reduce_loop_val is_le nb kk fuel (es.map (valOf σ))).2.map (fun x => some (.b x))
  | 0, es, fmls, h => by simpa [reduce_loop, reduce_loop_val] using h
  | fuel + 1, es, fmls, h => by
    obtain ⟨s1, s2, s3⟩ := pair_round_spec σ is_le nb kk bound hnb hbound es fmls h
    obtain ⟨i1, i2, i3⟩ := reduce_loop_spec σ is_le nb kk bound hnb hbound fuel
      (pair_round is_le bound es fmls).1 (pair_round is_le bound es fmls).2 s1
    simp only [reduce_loop, while_body_eq_pair_round, reduce_loop_val, List.length_map]
    split_ifs with h1
    · refine ⟨i1, ?_, ?_⟩
      · rw [i2, s2]
      · rw [i3, s3, s2, List.map_append, List.append_assoc]
    · simpa using h



theorem num_bits_loop_spec : ∀ (fuel n : Nat), n ≤ fuel → n < 2 ^ num_bits_loop fuel n
  | 0, n, h => by
    have : n = 0 := by omega
    simp [num_bits_loop, this]
  | fuel + 1, n, h => by
    simp only [num_bits_loop]
    split_ifs with h0
    · have ih := num_bits_loop_spec fuel (n / 2) (by omega)
      rw [pow_add, pow_one]
      omega
    · have : n = 0 := by omega
      simp [this]

theorem lt_two_pow_get_num_bits (k : Int) : k.toNat < 2 ^ get_num_bits k := by
  have h := num_bits_loop_spec k.toNat (k.toNat / 2) (Nat.div_le_self _ _)
  simp only [get_num_bits]
  rw [pow_add, pow_one]
  omega

theorem one_le_get_num_bits (k : Int) : 1 ≤ get_num_bits k := by
  simp [get_num_bits]

theorem Val.andL_map (bs : List Bool) :
    Val.andL (bs.map (fun x => some (Val.b x))) = some (.b (bs.all id)) := by
  induction bs with
  | nil => simp [Val.andL]
  | cons x bs ih => simp [Val.andL, ih]

theorem Val.orL_map (bs : List Bool) :
    Val.orL (bs.map (fun x => some (Val.b x))) = some (.b (bs.any id)) := by
  induction bs with
  | nil => simp [Val.orL]
  | cons x bs ih => simp [Val.orL, ih]

theorem eval_and_of_map (σ : Nat → Bool) (fmls : List Expr) (bs : List Bool)
    (h : fmls.map (eval σ) = bs.map (fun x => some (Val.b x))) :
    eval σ (.and fmls) = some (.b (bs.all id)) := by
  rw [eval, evalList_eq_map, h, Val.andL_map]

theorem eval_or_of_map (σ : Nat → Bool) (fmls : List Expr) (bs : List Bool)
    (h : fmls.map (eval σ) = bs.map (fun x => some (Val.b x))) :
    eval σ (.or fmls) = some (.b (bs.any id)) := by
  rw [eval, evalList_eq_map, h, Val.orL_map]

theorem eval_mk_and (σ : Nat → Bool) (fmls : List Expr) (bs : List Bool)
    (h : fmls.map (eval σ) = bs.map (fun x => some (Val.b x))) :
    eval σ (mk_and fmls) = some (.b (bs.all id)) := by
  match fmls, h with
  | [], h =>
    have : bs = [] := by simpa using h.symm
    simp [mk_and, eval, this]
  | [e], h =>
    have hl : bs.length = 1 := by
      have := congrArg List.length h
      simpa using this.symm
    obtain ⟨x, rfl⟩ := List.length_eq_one.mp hl
    simp only [List.map_cons, List.map_nil, List.cons.injEq, and_true] at h
    simp [mk_and, h]
  | e1 :: e2 :: rest, h => exact eval_and_of_map σ _ bs h

theorem eval_mk_or (σ : Nat → Bool) (fmls : List Expr) (bs : List Bool)
    (h : fmls.map (eval σ) = bs.map (fun x => some (Val.b x))) :
    eval σ (mk_or fmls) = some (.b (bs.any id)) := by
  match fmls, h with
  | [], h =>
    have : bs = [] := by simpa using h.symm
    simp [mk_or, eval, this]
  | [e], h =>
    have hl : bs.length = 1 := by
      have := congrArg List.length h
      simpa using this.symm
    obtain ⟨x, rfl⟩ := List.length_eq_one.mp hl
    simp only [List.map_cons, List.map_nil, List.cons.injEq, and_true] at h
    simp [mk_or, h]
  | e1 :: e2 :: rest, h => exact eval_or_of_map σ _ bs h

theorem get_bv_size_mk_ite (nb : Nat) (c hi lo : Expr) :
    get_bv_size hi = nb → get_bv_size lo = nb →
      is_true hi = false → is_false hi = false → is_true lo = false → is_false lo = false →
      get_bv_size (mk_ite c hi lo) = nb := by
  induction c, hi, lo using mk_ite.induct with
  | case1 c hi lo ih =>
    intro h1 h2 h3 h4 h5 h6
    rw [mk_ite]
    exact ih h2 h1 h5 h6 h3 h4
  | case2 c hi lo hn =>
    intro h1 h2 h3 h4 h5 h6
    rw [mk_ite]
    · simp only [mk_ite_core, h3, h4, h5, h6]
      split_ifs <;> simp_all [get_bv_size]
    · exact hn

/-- A literal lifted by `mk_ite(a, coeff, zero)` has the value of its coefficient when it is
true and the value 0 when it is false. -/
theorem lifted_mk_ite (σ : Nat → Bool) (nb : Nat) (a : Expr) (c : Int) (x : Bool)
    (ha : eval σ a = some (.b x)) (hc0 : 0 ≤ c) (hc : c.toNat < 2 ^ nb) :
    Lifted σ nb (mk_ite a (mk_numeral c nb) (mk_numeral 0 nb)) ∧
    valOf σ (mk_ite a (mk_numeral c nb) (mk_numeral 0 nb)) = if x then c.toNat else 0 := by
  have hP : 0 < 2 ^ nb := Nat.pos_of_ne_zero (by positivity)
  have e1 := eval_mk_numeral_of_lt σ c nb hc0 hc
  have e0 := eval_mk_numeral_of_lt σ 0 nb (le_refl _) (by simp)
  have he := eval_mk_ite σ a _ _ x _ _ ha e1 e0 (by simp [Val.sameSort])
  have hv : (if x = true then Val.bv nb c.toNat else Val.bv nb (Int.toNat 0)) =
      Val.bv nb (if x then c.toNat else 0) := by
    cases x <;> simp
  rw [hv] at he
  refine ⟨⟨_, he, ?_, ?_⟩, valOf_eq σ _ _ _ he⟩
  · cases x <;> simp [hc, hP]
  · apply get_bv_size_mk_ite <;> simp [mk_numeral, get_bv_size, is_true, is_false]

theorem holds_eq (σ : Nat → Bool) (a : Expr) (x : Bool) (h : eval σ a = some (.b x)) :
    holds σ a = x := by
  cases x <;> simp [holds, h]

theorem wsum_kept_nonneg (σ : Nat → Bool) (f : func_decl) (k : Int) :
    ∀ (args : List Expr) (i : Nat), (∀ j, j < args.length → 0 ≤ get_coeff f (i + j)) →
      0 ≤ wsum_kept σ f k i args
  | [], _, _ => by simp [wsum_kept]
  | a :: rest, i, h => by
    have h0 : 0 ≤ get_coeff f i := by simpa using h 0 (by simp)
    have ih := wsum_kept_nonneg σ f k rest (i + 1) (fun j hj => by
      have := h (j + 1) (by simpa using hj)
      rwa [show i + 1 + j = i + (j + 1) by omega])
    simp only [wsum_kept]
    split_ifs <;> omega

/-- The weighted sum splits into the literals kept for the adder tree and the pruned ones. -/
theorem wsum_split (σ : Nat → Bool) (f : func_decl) (k : Int) :
    ∀ (args : List Expr) (i : Nat), (∀ j, j < args.length → 0 ≤ get_coeff f (i + j)) →
      wsum_kept σ f k i args ≤ wsum σ f i args ∧
      (pruned_false σ f k i args = true → wsum σ f i args = wsum_kept σ f k i args) ∧
      (pruned_false σ f k i args = false → k < wsum σ f i args)
  | [], _, _ => by simp [wsum_kept, wsum, pruned_false]
  | a :: rest, i, h => by
    have h0 : 0 ≤ get_coeff f i := by simpa using h 0 (by simp)
    have hrest : ∀ j, j < rest.length → 0 ≤ get_coeff f (i + 1 + j) := fun j hj => by
      have := h (j + 1) (by simpa using hj)
      rwa [show i + 1 + j = i + (j + 1) by omega]
    obtain ⟨i1, i2, i3⟩ := wsum_split σ f k rest (i + 1) hrest
    have i0 := wsum_kept_nonneg σ f k rest (i + 1) hrest
    simp only [wsum_kept, wsum, pruned_false]
    by_cases hc : get_coeff f i ≤ k
    · have hc2 : ¬ get_coeff f i > k := by omega
      simp only [hc, hc2, true_and, if_false, Bool.true_and]
      refine ⟨by omega, fun hp => by rw [i2 hp], fun hp => ?_⟩
      have := i3 hp
      split_ifs <;> omega
    · have hc2 : get_coeff f i > k := by omega
      simp only [hc, hc2, false_and, if_false, if_true, zero_add, Bool.and_eq_true,
        Bool.not_eq_true', Bool.and_eq_false_iff, Bool.not_eq_false']
      refine ⟨by split_ifs <;> omega, fun hp => ?_, fun hp => ?_⟩
      · simp [hp.1, i2 hp.2]
      · rcases hp with hp | hp
        · simp only [hp, if_true]
          omega
        · have := i3 hp
          split_ifs <;> omega

/-- The pruning loop in the LE and EQ modes: the lifted values are those of the kept literals
and the recorded unit facts say that the pruned literals are false. -/
theorem prune_loop_spec (σ : Nat → Bool) (is_le : lbool) (hle : is_le ≠ .l_false)
    (f : func_decl) (k : Int) (nb : Nat) (hknb : k.toNat < 2 ^ nb) :
    ∀ (args : List Expr) (i : Nat) (es fmls : List Expr),
      (∀ a ∈ args, ∃ x, eval σ a = some (.b x)) →
      (∀ j, j < args.length → 0 ≤ get_coeff f (i + j)) →
      ∃ (kept pruned : List Expr) (bs : List Bool),
        prune_loop is_le f k nb (mk_numeral 0 nb) i args (es, fmls)
          = (es ++ kept, fmls ++ pruned) ∧
        (∀ e ∈ kept, Lifted σ nb e) ∧
        (∀ v ∈ kept.map (valOf σ), v ≤ k.toNat) ∧
        (((kept.map (valOf σ)).sum : Nat) : Int) = wsum_kept σ f k i args ∧
        pruned.map (eval σ) = bs.map (fun x => some (Val.b x)) ∧
        bs.all id = pruned_false σ f k i args
  | [], i, es, fmls, _, _ => ⟨[], [], [], by simp [prune_loop, wsum_kept, pruned_false]⟩
  | a :: rest, i, es, fmls, hb, h => by
    have h0 : 0 ≤ get_coeff f i := by simpa using h 0 (by simp)
    have hrest : ∀ j, j < rest.length → 0 ≤ get_coeff f (i + 1 + j) := fun j hj => by
      have := h (j + 1) (by simpa using hj)
      rwa [show i + 1 + j = i + (j + 1) by omega]
    have hbrest : ∀ a ∈ rest, ∃ x, eval σ a = some (.b x) := fun e he => hb e (by simp [he])
    obtain ⟨x, hx⟩ := hb a (by simp)
    have hh := holds_eq σ a x hx
    by_cases hc : get_coeff f i > k
    · obtain ⟨kept, pruned, bs, e1, e2, e3, e4, e5, e6⟩ :=
        prune_loop_spec σ is_le hle f k nb hknb rest (i + 1) es (fmls ++ [.not a]) hbrest hrest
      refine ⟨kept, .not a :: pruned, (!x) :: bs, ?_, e2, e3, ?_, ?_, ?_⟩
      · simp only [prune_loop, hc, if_true, hle, ne_eq, not_false_eq_true, e1]
        simp
      · have hc2 : ¬ get_coeff f i ≤ k := by omega
        simp [wsum_kept, hc2, e4]
      · simp [eval, hx, e5]
      · simp [pruned_false, hc, hh, e6]
    · obtain ⟨kept, pruned, bs, e1, e2, e3, e4, e5, e6⟩ :=
        prune_loop_spec σ is_le hle f k nb hknb rest (i + 1)
          (es ++ [mk_ite a (mk_numeral (get_coeff f i) nb) (mk_numeral 0 nb)]) fmls hbrest hrest
      have hck : get_coeff f i ≤ k := by omega
      have hcn : (get_coeff f i).toNat ≤ k.toNat := Int.toNat_le_toNat hck
      obtain ⟨l1, l2⟩ := lifted_mk_ite σ nb a (get_coeff f i) x hx h0 (by omega)
      refine ⟨mk_ite a (mk_numeral (get_coeff f i) nb) (mk_numeral 0 nb) :: kept, pruned, bs,
        ?_, ?_, ?_, ?_, e5, ?_⟩
      · simp only [prune_loop, hc, if_false, e1]
        simp
      · intro e he
        rcases List.mem_cons.mp he with rfl | he
        · exact l1
        · exact e2 e he
      · intro v hv
        simp only [List.map_cons, List.mem_cons] at hv
        rcases hv with rfl | hv
        · rw [l2]
          split_ifs <;> omega
        · exact e3 v hv
      · simp only [List.map_cons, List.sum_cons, Nat.cast_add, e4, wsum_kept, hck, hh, true_and,
          l2]
        cases x <;> simp [Int.toNat_of_nonneg h0]
      · simp [pruned_false, hc, e6]

theorem prune_loop_length_ge (is_le : lbool) (f : func_decl) (k : Int) (nb : Nat)
    (zero : Expr) :
    ∀ (args : List Expr) (i : Nat) (es fmls : List Expr),
      es.length ≤ (prune_loop is_le f k nb zero i args (es, fmls)).1.length
  | [], _, _, _ => by simp [prune_loop]
  | a :: rest, i, es, fmls => by
    simp only [prune_loop]
    split_ifs
    · exact prune_loop_length_ge is_le f k nb zero rest (i + 1) es _
    · exact prune_loop_length_ge is_le f k nb zero rest (i + 1) es _
    · have := prune_loop_length_ge is_le f k nb zero rest (i + 1)
        (es ++ [mk_ite a (mk_numeral (get_coeff f i) nb) zero]) fmls
      simp only [List.length_append, List.length_singleton] at this
      omega

/-- A literal whose coefficient does not exceed `k` leaves a lifted value in `es`. -/
theorem prune_loop_length_gt (is_le : lbool) (f : func_decl) (k : Int) (nb : Nat)
    (zero : Expr) :
    ∀ (args : List Expr) (i : Nat) (es fmls : List Expr),
      (∃ j, j < args.length ∧ get_coeff f (i + j) ≤ k) →
      es.length < (prune_loop is_le f k nb zero i args (es, fmls)).1.length
  | [], _, _, _, h => by
    obtain ⟨j, hj, _⟩ := h
    simp at hj
  | a :: rest, i, es, fmls, h => by
    have hrest : ¬ get_coeff f i ≤ k → ∃ j, j < rest.length ∧ get_coeff f (i + 1 + j) ≤ k := by
      intro hc
      obtain ⟨j, hj, hjk⟩ := h
      cases j with
      | zero => exact absurd hjk hc
      | succ j =>
        refine ⟨j, by simpa using hj, ?_⟩
        rwa [show i + 1 + j = i + (j + 1) by omega]
    simp only [prune_loop]
    split_ifs with h1 h2
    · exact prune_loop_length_gt is_le f k nb zero rest (i + 1) es _ (hrest (by omega))
    · exact prune_loop_length_gt is_le f k nb zero rest (i + 1) es _ (hrest (by omega))
    · have := prune_loop_length_ge is_le f k nb zero rest (i + 1)
        (es ++ [mk_ite a (mk_numeral (get_coeff f i) nb) zero]) fmls
      simp only [List.length_append, List.length_singleton] at this
      omega

/-- The state of the encoder in the LE and EQ modes when it reaches the finalization: the
recorded facts all hold exactly when the weighted sum does not exceed `k`, and then the values
left in `es` add up to the weighted sum. -/
theorem encoder_state_spec (σ : Nat → Bool) (is_le : lbool) (hle : is_le ≠ .l_false)
    (f : func_decl) (args : List Expr) (k : Int) (hk : 0 < k)
    (hc : ∀ i, i < args.length → 0 ≤ get_coeff f i)
    (hb : ∀ a ∈ args, ∃ x, eval σ a = some (.b x)) :
    ∃ (es fmls : List Expr) (bs : List Bool),
      (let st := prune_loop is_le f k (get_num_bits k) (mk_numeral 0 (get_num_bits k)) 0 args
          ([], [])
       reduce_loop is_le (mk_numeral k (get_num_bits k)) st.1.length st.1 st.2) = (es, fmls) ∧
      fmls.map (eval σ) = bs.map (fun x => some (Val.b x)) ∧
      (bs.all id = true ↔ wsum σ f 0 args ≤ k) ∧
      (∀ e ∈ es, Lifted σ (get_num_bits k) e) ∧
      (bs.all id = true → (((es.map (valOf σ)).sum : Nat) : Int) = wsum σ f 0 args) ∧
      es.length ≤ 1 ∧
      ((∃ j, j < args.length ∧ get_coeff f j ≤ k) → es.length = 1) := by
  have hknb := lt_two_pow_get_num_bits k
  have hnb := one_le_get_num_bits k
  generalize get_num_bits k = nb at hknb hnb
  have hc2 : ∀ j, j < args.length → 0 ≤ get_coeff f (0 + j) := by simpa using hc
  obtain ⟨kept, pruned, bs, e1, e2, e3, e4, e5, e6⟩ :=
    prune_loop_spec σ is_le hle f k nb hknb args 0 [] [] hb hc2
  have hgt := prune_loop_length_gt is_le f k nb (mk_numeral 0 nb) args 0 [] []
  simp only [List.nil_append] at e1
  rw [e1] at hgt
  simp only [e1]
  have hbound := eval_mk_numeral_of_lt σ k nb (le_of_lt hk) hknb
  obtain ⟨r1, r2, r3⟩ := reduce_loop_spec σ is_le nb k.toNat (mk_numeral k nb) hnb hbound
    kept.length kept pruned e2
  have hlen := reduce_loop_val_length is_le nb k.toNat kept.length (kept.map (valOf σ))
    (by simp)
  obtain ⟨v1, v2⟩ := reduce_loop_val_le is_le hle nb k.toNat hknb kept.length
    (kept.map (valOf σ)) (by simp) e3
  obtain ⟨w1, w2, w3⟩ := wsum_split σ f k args 0 hc2
  have hkk : ((k.toNat : Nat) : Int) = k := Int.toNat_of_nonneg (le_of_lt hk)
  have hsum : (kept.map (valOf σ)).sum ≤ k.toNat ↔ wsum_kept σ f k 0 args ≤ k := by
    rw [← e4, ← hkk]
    simp
  have hlen2 : (reduce_loop is_le (mk_numeral k nb) kept.length kept pruned).1.length =
      min kept.length 1 := by
    have := congrArg List.length r2
    simpa [hlen] using this
  refine ⟨_, _, bs ++ (reduce_loop_val is_le nb k.toNat kept.length (kept.map (valOf σ))).2,
    rfl, ?_, ?_, r1, ?_, ?_, ?_⟩
  · rw [r3, e5, List.map_append]
  · rw [List.all_append, Bool.and_eq_true, e6, v1, hsum]
    constructor
    · rintro ⟨h1, h2⟩
      rw [w2 h1]
      exact h2
    · intro h
      have hp : pruned_false σ f k 0 args = true := by
        by_contra hp
        have := w3 (by simpa using hp)
        omega
      exact ⟨hp, by omega⟩
  · rw [List.all_append, Bool.and_eq_true, e6]
    rintro ⟨h1, h2⟩
    rw [r2, v2 h2, e4, w2 h1]
  · rw [hlen2]
    omega
  · intro h
    have := hgt (by simpa using h)
    simp only [List.length_nil] at this
    rw [hlen2]
    omega

theorem eval_mk_not (σ : Nat → Bool) (e : Expr) (x : Bool) (h : eval σ e = some (.b x)) :
    eval σ (mk_not e) = some (.b (!x)) := by
  unfold mk_not
  split
  · exact eval_not_inv σ _ x h
  · simp [eval, h]

theorem dualize_loop_eq (f : func_decl) :
    ∀ (args : List Expr) (i : Nat) (k : Int),
      dualize_loop f i args k = (args.map mk_not, k + total f i args.length)
  | [], _, _ => by simp [dualize_loop, total]
  | a :: rest, i, k => by
    simp only [dualize_loop, dualize_loop_eq f rest, List.map_cons, List.length_cons, total]
    rw [add_assoc]

theorem wsum_map_mk_not (σ : Nat → Bool) (f : func_decl) :
    ∀ (args : List Expr) (i : Nat), (∀ a ∈ args, ∃ x, eval σ a = some (.b x)) →
      wsum σ f i (args.map mk_not) = total f i args.length - wsum σ f i args
  | [], _, _ => by simp [wsum, total]
  | a :: rest, i, hb => by
    obtain ⟨x, hx⟩ := hb a (by simp)
    have ih := wsum_map_mk_not σ f rest (i + 1) (fun e he => hb e (by simp [he]))
    simp only [List.map_cons, wsum, List.length_cons, total, ih,
      holds_eq σ a x hx, holds_eq σ _ _ (eval_mk_not σ a x hx)]
    cases x <;> simp; omega

/-- The LE mode of the weighted encoder for a positive threshold. -/
theorem mk_le_ge_le_spec (σ : Nat → Bool) (f : func_decl) (args : List Expr) (k : Int)
    (hk : 0 < k) (hc : ∀ i, i < args.length → 0 ≤ get_coeff f i)
    (hb : ∀ a ∈ args, ∃ x, eval σ a = some (.b x)) :
    ∃ e, mk_le_ge .l_true f args k = some e ∧
      eval σ e = some (.b (decide (wsum σ f 0 args ≤ k))) := by
  obtain ⟨es, fmls, bs, h1, h2, h3, -⟩ :=
    encoder_state_spec σ .l_true (by decide) f args k hk hc hb
  have hk0 : k ≠ 0 := by omega
  refine ⟨mk_and fmls, ?_, ?_⟩
  · simp only [mk_le_ge, mk_le_ge_tree, hk0, hk, if_false, not_true_eq_false]
    simp only [] at h1
    rw [h1]
  · rw [eval_mk_and σ fmls bs h2]
    congr 2
    exact Bool.eq_iff_iff.mpr (by simpa using h3)

/-- The EQ mode of the weighted encoder for a positive threshold and at least one lifted
literal. -/
theorem mk_le_ge_eq_spec (σ : Nat → Bool) (f : func_decl) (args : List Expr) (k : Int)
    (hk : 0 < k) (hc : ∀ i, i < args.length → 0 ≤ get_coeff f i)
    (hb : ∀ a ∈ args, ∃ x, eval σ a = some (.b x))
    (hex : ∃ j, j < args.length ∧ get_coeff f j ≤ k) :
    ∃ e, mk_le_ge .l_undef f args k = some e ∧
      eval σ e = some (.b (decide (wsum σ f 0 args = k))) := by
  obtain ⟨es, fmls, bs, h1, h2, h3, h4, h5, -, h7⟩ :=
    encoder_state_spec σ .l_undef (by decide) f args k hk hc hb
  have hk0 : k ≠ 0 := by omega
  obtain ⟨r, rfl⟩ := List.length_eq_one.mp (h7 hex)
  have hr : Lifted σ (get_num_bits k) r := h4 r (by simp)
  have hbound := eval_mk_numeral_of_lt σ k (get_num_bits k) (le_of_lt hk)
    (lt_two_pow_get_num_bits k)
  have hkk : ((k.toNat : Nat) : Int) = k := Int.toNat_of_nonneg (le_of_lt hk)
  refine ⟨mk_and (fmls ++ [.eq (mk_numeral k (get_num_bits k)) r]), ?_, ?_⟩
  · simp only [mk_le_ge, mk_le_ge_tree, hk0, hk, if_false, not_true_eq_false]
    simp only [] at h1
    rw [h1]
    rfl
  · have hm : (fmls ++ [Expr.eq (mk_numeral k (get_num_bits k)) r]).map (eval σ) =
        (bs ++ [decide (k.toNat = valOf σ r)]).map (fun x => some (Val.b x)) := by
      rw [List.map_append, List.map_append, h2]
      simp only [List.map_cons, List.map_nil]
      rw [eval_eq_bv σ _ _ _ _ _ hbound hr.eval_eq]
    rw [eval_mk_and σ _ _ hm]
    congr 2
    apply Bool.eq_iff_iff.mpr
    simp only [List.all_append, Bool.and_eq_true, List.all_cons, List.all_nil, Bool.and_true,
      id, decide_eq_true_eq]
    simp only [List.map_cons, List.map_nil, List.sum_cons, List.sum_nil, add_zero] at h5
    constructor
    · rintro ⟨a1, a2⟩
      rw [← h5 a1, ← a2, hkk]
    · intro hw
      have a1 : bs.all id = true := h3.mpr (by omega)
      refine ⟨a1, ?_⟩
      have := h5 a1
      omega

/-- The statement of `mk_bv` for a PB_GE or AtLeast constraint whose threshold is smaller than
the sum of the coefficients. -/
theorem mk_bv_ge_spec (σ : Nat → Bool) (f : func_decl) (args : List Expr)
    (hkind : f.kind = .OP_PB_GE ∨ f.kind = .OP_AT_LEAST_K)
    (hk : 0 ≤ get_k f) (hlt : get_k f < total f 0 args.length)
    (hc : ∀ i, i < args.length → 0 ≤ get_coeff f i)
    (hb : ∀ a ∈ args, ∃ x, eval σ a = some (.b x)) :
    mk_bv f args =
      mk_le_ge .l_true f (args.map mk_not) (total f 0 args.length - get_k f) ∧
    ∃ e, mk_bv f args = some e ∧
      eval σ e = some (.b (decide (get_k f ≤ wsum σ f 0 args))) := by
  have hd : dualize f args (get_k f) =
      (args.map mk_not, total f 0 args.length - get_k f) := by
    rw [dualize, dualize_loop_eq]
    congr 1
    omega
  have hmk : mk_bv f args =
      mk_le_ge .l_true f (args.map mk_not) (total f 0 args.length - get_k f) := by
    have h1 : ¬ get_k f < 0 := by omega
    have h2 : ¬ total f 0 args.length - get_k f < 0 := by omega
    rcases hkind with h | h <;> simp only [mk_bv, h1, if_false, h, hd, h2]
  refine ⟨hmk, ?_⟩
  obtain ⟨e, e1, e2⟩ := mk_le_ge_le_spec σ f (args.map mk_not)
    (total f 0 args.length - get_k f) (by omega) (by simpa using hc)
    (by
      intro a ha
      obtain ⟨a0, ha0, rfl⟩ := List.mem_map.mp ha
      obtain ⟨x, hx⟩ := hb a0 ha0
      exact ⟨_, eval_mk_not σ a0 x hx⟩)
  refine ⟨e, by rw [hmk, e1], ?_⟩
  rw [e2, wsum_map_mk_not σ f args 0 hb]
  congr 2
  apply Bool.eq_iff_iff.mpr
  simp only [decide_eq_true_eq]
  omega

/-- The zero-threshold shortcut of the LE mode for strictly positive coefficients. -/
theorem mk_le_ge_zero_pos (σ : Nat → Bool) (f : func_decl) (args : List Expr)
    (hc : ∀ i, i < args.length → 0 < get_coeff f i)
    (hb : ∀ a ∈ args, ∃ x, eval σ a = some (.b x)) :
    mk_le_ge .l_true f args 0 = some (.not (mk_or args)) ∧
    eval σ (.not (mk_or args)) = some (.b (decide (wsum σ f 0 args ≤ 0))) := by
  refine ⟨by simp [mk_le_ge], ?_⟩
  have key : ∀ (args : List Expr) (i : Nat),
      (∀ j, j < args.length → 0 < get_coeff f (i + j)) →
      (∀ a ∈ args, ∃ x, eval σ a = some (.b x)) →
      ∃ bs : List Bool, args.map (eval σ) = bs.map (fun x => some (Val.b x)) ∧
        0 ≤ wsum σ f i args ∧ (bs.any id = false ↔ wsum σ f i args ≤ 0) := by
    intro args
    induction args with
    | nil => intro i _ _; exact ⟨[], by simp [wsum]⟩
    | cons a rest ih =>
      intro i hc hb
      obtain ⟨x, hx⟩ := hb a (by simp)
      have h0 : 0 < get_coeff f i := by simpa using hc 0 (by simp)
      obtain ⟨bs, b1, b2, b3⟩ := ih (i + 1) (fun j hj => by
        have := hc (j + 1) (by simpa using hj)
        rwa [show i + 1 + j = i + (j + 1) by omega]) (fun e he => hb e (by simp [he]))
      refine ⟨x :: bs, by simp [hx, b1], ?_, ?_⟩
      · simp only [wsum]
        split_ifs <;> omega
      · simp only [wsum, holds_eq σ a x hx, List.any_cons, id, Bool.or_eq_false_iff]
        cases x
        · simp [b3]
        · simp only [if_true, true_iff, not_and]
          constructor
          · intro h; simp at h
          · intro h; omega
  obtain ⟨bs, b1, -, b3⟩ := key args 0 (by simpa using hc) hb
  rw [eval, eval_mk_or σ args bs b1]
  simp only []
  congr 2
  cases h : bs.any id
  · simp [b3.mp h]
  · have : ¬ wsum σ f 0 args ≤ 0 := fun hw => by
      rw [b3.mpr hw] at h
      cases h
    simp [this]

/-- The function `mk_bv` on a PB_GE or AtLeast constraint whose threshold exceeds the sum of
the coefficients: the assertion after `dualize` fails. -/
theorem mk_bv_ge_over_spec (f : func_decl) (args : List Expr)
    (hkind : f.kind = .OP_PB_GE ∨ f.kind = .OP_AT_LEAST_K)
    (hgt : total f 0 args.length < get_k f) :
    (dualize f args (get_k f)).2 < 0 ∧ mk_bv f args = none := by
  have hd : dualize f args (get_k f) =
      (args.map mk_not, total f 0 args.length - get_k f) := by
    rw [dualize, dualize_loop_eq]
    congr 1
    omega
  refine ⟨by rw [hd]; simp only []; omega, ?_⟩
  have h2 : total f 0 args.length - get_k f < 0 := by omega
  rcases hkind with h | h <;> simp only [mk_bv, h, hd, h2, if_true] <;> simp

theorem take_length_le {α : Type} (x cur : List α) (h : x = cur.take x.length) :
    x.length ≤ cur.length := by
  have := congrArg List.length h
  rw [List.length_take] at this
  omega

theorem Chained.mono : ∀ (g : List (List (Option Nat))) (cur cur2 : List (Option Nat)),
    Chained g cur → cur = cur2.take cur.length → Chained g cur2
  | [], _, _, _, _ => trivial
  | x :: g, cur, cur2, ⟨h1, h2⟩, h => by
    refine ⟨?_, h2⟩
    have hl := take_length_le x cur h1
    rw [h1, h, List.take_take]
    simp only [List.length_take]
    congr 1
    have := take_length_le cur cur2 h
    omega

/-- The list recorded at the `(i+1)`-th most recent push is an initial segment of the current
list, and the older records are chained below it. -/
theorem Chained.get : ∀ (g : List (List (Option Nat))) (cur : List (Option Nat)) (i : Nat)
    (x : List (Option Nat)), Chained g cur → g.get? i = some x →
    x = cur.take x.length ∧ Chained (g.drop (i + 1)) x
  | [], _, _, _, _, h => by simp at h
  | y :: g, cur, 0, x, ⟨h1, h2⟩, h => by
    simp only [List.get?_cons_zero, Option.some.injEq] at h
    subst h
    exact ⟨h1, by simpa using h2⟩
  | y :: g, cur, i + 1, x, ⟨h1, h2⟩, h => by
    simp only [List.get?_cons_succ] at h
    obtain ⟨a1, a2⟩ := Chained.get g y i x h2 h
    refine ⟨?_, by simpa using a2⟩
    have hl := take_length_le x y a1
    have hl2 := take_length_le y cur h1
    rw [a1, h1, List.take_take]
    simp only [List.length_take]
    congr 1
    omega

theorem resize_of_le {α : Type} (l : List α) (n : Nat) (d : α) (h : n ≤ l.length) :
    resize l n d = l.take n := by
  simp [resize, Nat.sub_eq_zero_of_le h]

/-- The effect of `pop` on a ledger that satisfies the invariant. -/
theorem pop_spec (s : imp) (snaps : List (List (Option Nat))) (n : Nat)
    (hinv : LedgerInv s snaps) (hl : s.m_lemmas = []) (h1 : 1 ≤ n)
    (h2 : n ≤ s.m_fresh_lim.length) :
    ∃ s2 snap, pop n s = some s2 ∧ snaps.get? (n - 1) = some snap ∧
      s2.m_fresh = snap ∧
      s2.m_fresh_lim = s.m_fresh_lim.take (s.m_fresh_lim.length - n) ∧
      s2.m_lemmas = s.m_lemmas ∧ s2.m_num_translated = s.m_num_translated ∧
      LedgerInv s2 (snaps.drop n) := by
  obtain ⟨i1, i2⟩ := hinv
  have hlen : s.m_fresh_lim.length = snaps.length := by simp [i1]
  have hn : n - 1 < snaps.length := by omega
  have hsnap : snaps.get? (n - 1) = some (snaps.get ⟨n - 1, hn⟩) := List.get?_eq_get hn
  obtain ⟨c1, c2⟩ := Chained.get snaps s.m_fresh (n - 1) _ i2 hsnap
  have hn1 : n - 1 + 1 = n := by omega
  rw [hn1] at c2
  have hlim : s.m_fresh_lim.get? (s.m_fresh_lim.length - n) =
      some (snaps.get ⟨n - 1, hn⟩).length := by
    rw [i1, List.get?_eq_getElem?, List.getElem?_reverse (by simp; omega)]
    simp only [List.length_reverse, List.length_map]
    have : snaps.length - 1 - (snaps.length - n) = n - 1 := by omega
    rw [this, List.getElem?_map, List.getElem?_eq_getElem hn]
    rfl
  have hfr : resize s.m_fresh (snaps.get ⟨n - 1, hn⟩).length none = snaps.get ⟨n - 1, hn⟩ := by
    rw [resize_of_le _ _ _ (take_length_le _ _ c1)]
    exact c1.symm
  have hli : resize s.m_fresh_lim (s.m_fresh_lim.length - n) 0 =
      s.m_fresh_lim.take (s.m_fresh_lim.length - n) :=
    resize_of_le _ _ _ (by omega)
  refine ⟨{ s with m_fresh := snaps.get ⟨n - 1, hn⟩,
                   m_fresh_lim := s.m_fresh_lim.take (s.m_fresh_lim.length - n) },
    snaps.get ⟨n - 1, hn⟩, ?_, hsnap, rfl, rfl, rfl, rfl, ?_, c2⟩
  · have hpos : n > 0 := by omega
    simp only [pop, hl, List.isEmpty_nil, not_true_eq_false, if_false, hpos, if_true, h2, hlim,
      hfr, hli]
  · show s.m_fresh_lim.take (s.m_fresh_lim.length - n) = ((snaps.drop n).map List.length).reverse
    rw [i1, List.take_reverse, List.map_drop]
    simp only [List.length_reverse, List.length_map]
    congr 2
    omega

theorem step_inv (s s2 : imp) (snaps : List (List (Option Nat))) (op : Op)
    (hinv : LedgerInv s snaps) (hstep : step s op = some s2) :
    LedgerInv s2 (record s snaps op) := by
  obtain ⟨i1, i2⟩ := hinv
  cases op with
  | push =>
    simp only [step, Option.some.injEq] at hstep
    subst hstep
    refine ⟨by simp [push, record, i1], ?_⟩
    exact ⟨by simp [push], i2⟩
  | pop n =>
    simp only [step] at hstep
    by_cases hn : n = 0
    · subst hn
      have : s2 = s := by
        by_cases hl : s.m_lemmas.isEmpty = true
        · simpa [pop, hl] using hstep.symm
        · simp [pop, hl] at hstep
      subst this
      exact ⟨by simpa [record] using i1, by simpa [record] using i2⟩
    · have hl : s.m_lemmas = [] := by
        by_contra hne
        have : ¬ s.m_lemmas.isEmpty = true := by simpa using hne
        simp [pop, this] at hstep
      have h2 : n ≤ s.m_fresh_lim.length := by
        by_contra hgt
        have hpos : n > 0 := by omega
        simp [pop, hl, hpos, hgt] at hstep
      obtain ⟨s3, snap, p1, -, -, -, -, -, p7⟩ := pop_spec s snaps n ⟨i1, i2⟩ hl (by omega) h2
      rw [p1] at hstep
      cases hstep
      exact p7
  | fresh d =>
    simp only [step, Option.some.injEq] at hstep
    subst hstep
    refine ⟨by simpa [fresh, record] using i1, ?_⟩
    exact Chained.mono snaps s.m_fresh _ i2 (by simp [fresh])
  | mk_clause lits =>
    simp only [step, Option.some.injEq] at hstep
    subst hstep
    exact ⟨by simpa [mk_clause, record] using i1, by simpa [mk_clause, record] using i2⟩
  | flush =>
    simp only [step, Option.some.injEq] at hstep
    subst hstep
    exact ⟨by simpa [flush_side_constraints, record] using i1,
      by simpa [flush_side_constraints, record] using i2⟩

theorem run_inv : ∀ (ops : List Op) (s s2 : imp) (snaps snaps2 : List (List (Option Nat))),
    LedgerInv s snaps → run ops (s, snaps) = some (s2, snaps2) → LedgerInv s2 snaps2
  | [], s, s2, snaps, snaps2, hinv, h => by
    simp only [run, Option.some.injEq, Prod.mk.injEq] at h
    obtain ⟨rfl, rfl⟩ := h
    exact hinv
  | op :: ops, s, s2, snaps, snaps2, hinv, h => by
    simp only [run] at h
    split at h
    · rename_i s3 hs3
      exact run_inv ops s3 s2 _ snaps2 (step_inv s s3 snaps op hinv hs3) h
    · simp at h

theorem init_inv : LedgerInv imp.init [] := ⟨rfl, trivial⟩

/-- The reduction loop given `es.size()` passes stops with at most one value, that is with its
loop condition `es.size() > 1` false. -/
theorem reduce_loop_length (is_le : lbool) (bound : Expr) :
    ∀ (fuel : Nat) (es fmls : List Expr), es.length ≤ fuel →
      (reduce_loop is_le bound fuel es fmls).1.length = min es.length 1
  | 0, es, fmls, h => by
    have : es = [] := List.length_eq_zero.mp (by omega)
    simp [reduce_loop, this]
  | fuel + 1, es, fmls, h => by
    simp only [reduce_loop, while_body_eq_pair_round]
    split_ifs with h1
    · have hl := pair_round_length is_le bound es fmls
      rw [reduce_loop_length is_le bound fuel _ _ (by omega), hl]
      omega
    · simp; omega

theorem wsum_congr (σ σ2 : Nat → Bool) (f : func_decl) :
    ∀ (args : List Expr) (i : Nat), (∀ a ∈ args, eval σ2 a = eval σ a) →
      wsum σ2 f i args = wsum σ f i args
  | [], _, _ => by simp [wsum]
  | a :: rest, i, h => by
    have ha : holds σ2 a = holds σ a := by simp [holds, h a (by simp)]
    simp only [wsum, ha, wsum_congr σ σ2 f rest (i + 1) (fun e he => h e (by simp [he]))]

/-! ## The ledger: pending lemmas, flush and the checkpoint invariant -/

theorem pop_none_of_pending (s : imp) (n : Nat) (h : s.m_lemmas ≠ []) : pop n s = none := by
  have : ¬ s.m_lemmas.isEmpty = true := by simpa using h
  simp [pop, this]

theorem mk_clause_foldl (clauses : List (List Expr)) :
    ∀ s : imp, (clauses.foldl (fun st lits => mk_clause lits st) s).m_lemmas =
      s.m_lemmas ++ clauses.map mk_or := by
  induction clauses with
  | nil => intro s; simp
  | cons c cs ih =>
    intro s
    rw [List.foldl_cons, ih]
    simp [mk_clause]

theorem Chained.lengths : ∀ (g : List (List (Option Nat))) (cur : List (Option Nat)),
    Chained g cur →
    (∀ x ∈ g, x.length ≤ cur.length) ∧ List.Pairwise (fun a b => b ≤ a) (g.map List.length)
  | [], _, _ => by simp
  | x :: g, cur, ⟨h1, h2⟩ => by
    have hl := take_length_le x cur h1
    obtain ⟨a1, a2⟩ := Chained.lengths g x h2
    refine ⟨?_, ?_⟩
    · intro y hy
      rcases List.mem_cons.mp hy with rfl | hy
      · exact hl
      · exact le_trans (a1 y hy) hl
    · simp only [List.map_cons, List.pairwise_cons, List.mem_map, forall_exists_index, and_imp,
        forall_apply_eq_imp_iff₂]
      exact ⟨a1, a2⟩

/-- A successful `pop` on a ledger that satisfies the invariant cuts the fresh-variable list
to an initial segment of itself. -/
theorem pop_take (s s2 : imp) (snaps : List (List (Option Nat))) (n : Nat)
    (hinv : LedgerInv s snaps) (hpop : pop n s = some s2) :
    s2.m_fresh = s.m_fresh.take s2.m_fresh.length := by
  by_cases hn : n = 0
  · subst hn
    have : s2 = s := by
      by_cases hl : s.m_lemmas.isEmpty = true
      · simpa [pop, hl] using hpop.symm
      · simp [pop, hl] at hpop
    subst this
    simp
  · have hl : s.m_lemmas = [] := by
      by_contra hne
      rw [pop_none_of_pending s n hne] at hpop
      cases hpop
    have h2 : n ≤ s.m_fresh_lim.length := by
      by_contra hgt
      have hpos : n > 0 := by omega
      simp [pop, hl, hpos, hgt] at hpop
    obtain ⟨s3, snap, p1, p2, p3, -⟩ := pop_spec s snaps n hinv hl (by omega) h2
    rw [p1] at hpop
    cases hpop
    obtain ⟨c1, -⟩ := Chained.get snaps s.m_fresh (n - 1) snap hinv.2 p2
    rw [p3]
    exact c1

theorem step_no_null (s s2 : imp) (snaps : List (List (Option Nat))) (op : Op)
    (hinv : LedgerInv s snaps) (hnn : ∀ x ∈ s.m_fresh, x ≠ none)
    (hstep : step s op = some s2) : ∀ x ∈ s2.m_fresh, x ≠ none := by
  cases op with
  | push =>
    simp only [step, Option.some.injEq] at hstep
    subst hstep
    simpa [push] using hnn
  | pop n =>
    simp only [step] at hstep
    have := pop_take s s2 snaps n hinv hstep
    intro x hx
    rw [this] at hx
    exact hnn x (List.mem_of_mem_take hx)
  | fresh d =>
    simp only [step, Option.some.injEq] at hstep
    subst hstep
    intro x hx
    simp only [fresh, List.mem_append, List.mem_singleton] at hx
    rcases hx with hx | rfl
    · exact hnn x hx
    · simp
  | mk_clause lits =>
    simp only [step, Option.some.injEq] at hstep
    subst hstep
    simpa [mk_clause] using hnn
  | flush =>
    simp only [step, Option.some.injEq] at hstep
    subst hstep
    simpa [flush_side_constraints] using hnn

theorem run_no_null : ∀ (ops : List Op) (s s2 : imp) (snaps snaps2 : List (List (Option Nat))),
    LedgerInv s snaps → (∀ x ∈ s.m_fresh, x ≠ none) →
    run ops (s, snaps) = some (s2, snaps2) → ∀ x ∈ s2.m_fresh, x ≠ none
  | [], s, s2, snaps, snaps2, _, hnn, h => by
    simp only [run, Option.some.injEq, Prod.mk.injEq] at h
    obtain ⟨rfl, rfl⟩ := h
    exact hnn
  | op :: ops, s, s2, snaps, snaps2, hinv, hnn, h => by
    simp only [run] at h
    split at h
    · rename_i s3 hs3
      exact run_no_null ops s3 s2 _ snaps2 (step_inv s s3 snaps op hinv hs3)
        (step_no_null s s3 snaps op hinv hnn hs3) h
    · simp at h

/-- The checkpoint invariant of a ledger that satisfies `LedgerInv`. -/
theorem checkpoints_sorted (s : imp) (snaps : List (List (Option Nat)))
    (hinv : LedgerInv s snaps) :
    List.Pairwise (fun a b => a ≤ b) s.m_fresh_lim ∧
    ∀ c ∈ s.m_fresh_lim, c ≤ s.m_fresh.length := by
  obtain ⟨i1, i2⟩ := hinv
  obtain ⟨a1, a2⟩ := Chained.lengths snaps s.m_fresh i2
  rw [i1]
  refine ⟨List.pairwise_reverse.mpr a2, ?_⟩
  intro c hc
  simp only [List.mem_reverse, List.mem_map] at hc
  obtain ⟨x, hx, rfl⟩ := hc
  exact a1 x hx

/-! ## Dispatcher and rewrite rule -/

theorem apply_calls_num_translated : ∀ (cs : List nw_call) (s : imp),
    (apply_calls cs s).m_num_translated = s.m_num_translated
  | [], _ => rfl
  | .fresh d :: cs, s => by simp [apply_calls, apply_calls_num_translated cs, fresh]
  | .mk_clause lits :: cs, s => by simp [apply_calls, apply_calls_num_translated cs, mk_clause]

theorem apply_calls_fresh_lim : ∀ (cs : List nw_call) (s : imp),
    (apply_calls cs s).m_fresh_lim = s.m_fresh_lim
  | [], _ => rfl
  | .fresh d :: cs, s => by simp [apply_calls, apply_calls_fresh_lim cs, fresh]
  | .mk_clause lits :: cs, s => by simp [apply_calls, apply_calls_fresh_lim cs, mk_clause]

/-- The function `mk_pb` leaves the counter of translated constraints alone. -/
theorem mk_pb_num_translated (m_sort : psort_nw) (f : func_decl) (args : List Expr) (s : imp)
    (r : Expr × imp) (h : mk_pb m_sort f args s = some r) :
    r.2.m_num_translated = s.m_num_translated := by
  by_cases hfam : f.family = .pb_family
  · cases hor : is_or f with
    | none => simp [mk_pb, hfam, hor] at h
    | some b =>
      cases b
      · simp only [mk_pb, hfam, hor, ne_eq, not_true_eq_false, if_false] at h
        split_ifs at h
        all_goals first
          | (cases h; exact apply_calls_num_translated _ _)
          | (split at h
             · cases h; rfl
             · cases h)
      · simp only [mk_pb, hfam, hor, ne_eq, not_true_eq_false, if_false] at h
        cases h
        rfl
  · simp [mk_pb, hfam] at h

/-- The dispatch of `mk_pb` on a constraint that is not the at-least-one shortcut. -/
theorem mk_pb_dispatch (m_sort : psort_nw) (f : func_decl) (args : List Expr) (s : imp)
    (hfam : f.family = .pb_family) (hor : is_or f = some false) :
    (is_unsigned (get_k f) = true ∧ has_unit_coefficients f = true →
      mk_pb m_sort f args s =
        match f.kind with
        | .OP_AT_MOST_K | .OP_PB_LE =>
          some ((m_sort.le true (get_unsigned (get_k f)) args s).1,
            apply_calls (m_sort.le true (get_unsigned (get_k f)) args s).2 s)
        | .OP_AT_LEAST_K | .OP_PB_GE =>
          some ((m_sort.ge true (get_unsigned (get_k f)) args s).1,
            apply_calls (m_sort.ge true (get_unsigned (get_k f)) args s).2 s)
        | _ =>
          some ((m_sort.eq (get_unsigned (get_k f)) args s).1,
            apply_calls (m_sort.eq (get_unsigned (get_k f)) args s).2 s)) ∧
    (¬ (is_unsigned (get_k f) = true ∧ has_unit_coefficients f = true) →
      mk_pb m_sort f args s = (mk_bv f args).map (fun e => (e, s))) := by
  have hunit : f.kind = .OP_AT_MOST_K ∨ f.kind = .OP_AT_LEAST_K →
      has_unit_coefficients f = true := by
    intro h
    rcases h with h | h <;> simp [has_unit_coefficients, is_at_most_k, is_at_least_k, hfam, h]
  constructor
  · rintro ⟨hu, hc⟩
    cases hk : f.kind <;>
      simp [mk_pb, hfam, hor, is_at_most_k, is_at_least_k, is_eq, is_le, is_ge, hk, hu, hc]
    all_goals simp [is_or, hk] at hor
  · intro hn
    have hmap : ∀ o : Option Expr,
        (match o with
          | some e => some (e, s)
          | none => none) = o.map (fun e => (e, s)) := by
      intro o; cases o <;> rfl
    cases hk : f.kind
    · have hc := hunit (Or.inl hk)
      have hu : is_unsigned (get_k f) = false := by
        cases h : is_unsigned (get_k f)
        · rfl
        · exact absurd ⟨h, hc⟩ hn
      simp [mk_pb, hfam, hor, is_at_most_k, is_at_least_k, is_eq, is_le, is_ge, hk, hu]
      exact hmap _
    · have hc := hunit (Or.inr hk)
      have hu : is_unsigned (get_k f) = false := by
        cases h : is_unsigned (get_k f)
        · rfl
        · exact absurd ⟨h, hc⟩ hn
      simp [mk_pb, hfam, hor, is_at_most_k, is_at_least_k, is_eq, is_le, is_ge, hk, hu]
      exact hmap _
    all_goals first
      | (simp [is_or, hk] at hor; done)
      | (have hn2 : ¬ (is_unsigned (get_k f) = true ∧ has_unit_coefficients f = true) := hn
         simp only [mk_pb, hfam, hor, is_at_most_k, is_at_least_k, is_eq, is_le, is_ge, hk,
           hmap]
         by_cases hu : is_unsigned (get_k f) = true
         · have hc : has_unit_coefficients f = false := by
             cases h : has_unit_coefficients f
             · rfl
             · exact absurd ⟨hu, h⟩ hn
           simp [hu, hc]
         · simp [hu])

theorem arith_sum_loop_isSome (B : Nat) (args : List Expr) (b : Nat) :
    (arith_bits_loop args b).isSome = true →
    ∀ (i : Nat) (result : Option Expr), (i = 0 ∨ result.isSome = true) →
      (arith_sum_loop B args i result).isSome = true := by
  induction args, b using arith_bits_loop.induct with
  | case1 bits => intro _ i result _; simp [arith_sum_loop]
  | case2 val1 rest bits ih =>
    intro h i result hi
    rw [arith_bits_loop] at h
    simp only [arith_sum_loop, arith_q]
    split_ifs with h0
    · exact ih h _ _ (Or.inr rfl)
    · rcases hi with hi | hi
      · exact absurd hi h0
      · obtain ⟨r, rfl⟩ := Option.isSome_iff_exists.mp hi
        exact ih h _ _ (Or.inr rfl)
  | case3 c i1 i2 rest bits ih =>
    intro h i result hi
    rw [arith_bits_loop] at h
    have hq : arith_q B (.ite c (.num 1 i1) (.num 0 i2)) =
        some (mk_ite c (mk_numeral 1 B) (mk_numeral 0 B)) := by
      unfold arith_q
      split
      · rename_i heq; cases heq
      · simp [get_arg0]
    simp only [arith_sum_loop, hq]
    split_ifs with h0
    · exact ih h _ _ (Or.inr rfl)
    · rcases hi with hi | hi
      · exact absurd hi h0
      · obtain ⟨r, rfl⟩ := Option.isSome_iff_exists.mp hi
        exact ih h _ _ (Or.inr rfl)
  | case4 head tail x h1 h2 =>
    intro h
    rw [arith_bits_loop] at h
    · simp at h
    · exact h1
    · exact h2

/-- The function `mk_arith` always returns, and when it returns `false` it has not touched
`result`. -/
theorem mk_arith_total (f : func_decl) (args : List Expr) (result : Option Expr) :
    ∃ (b : Bool) (r : Option Expr), mk_arith f args result = some (b, r) ∧
      (b = false → r = result) := by
  unfold mk_arith
  split_ifs with hk
  · cases hb : arith_bits_loop args 0 with
    | none => exact ⟨false, result, rfl, fun _ => rfl⟩
    | some bits =>
      have := arith_sum_loop_isSome bits args 0 (by simp [hb]) 0 none (Or.inl rfl)
      obtain ⟨r, hr⟩ := Option.isSome_iff_exists.mp this
      exact ⟨true, r, by simp [hr], fun h => by cases h⟩
  · exact ⟨false, result, rfl, fun _ => rfl⟩

/-- The disjunction of literals with strictly positive coefficients is true exactly when the
weighted sum is at least 1. -/
theorem eval_or_pos (σ : Nat → Bool) (f : func_decl) :
    ∀ (args : List Expr) (i : Nat), (∀ j, j < args.length → 0 < get_coeff f (i + j)) →
      (∀ a ∈ args, ∃ x, eval σ a = some (.b x)) →
      ∃ bs : List Bool, args.map (eval σ) = bs.map (fun x => some (Val.b x)) ∧
        0 ≤ wsum σ f i args ∧ (bs.any id = true ↔ 1 ≤ wsum σ f i args)
  | [], _, _, _ => ⟨[], by simp [wsum]⟩
  | a :: rest, i, hc, hb => by
    obtain ⟨x, hx⟩ := hb a (by simp)
    have h0 : 0 < get_coeff f i := by simpa using hc 0 (by simp)
    obtain ⟨bs, b1, b2, b3⟩ := eval_or_pos σ f rest (i + 1) (fun j hj => by
      have := hc (j + 1) (by simpa using hj)
      rwa [show i + 1 + j = i + (j + 1) by omega]) (fun e he => hb e (by simp [he]))
    refine ⟨x :: bs, by simp [hx, b1], ?_, ?_⟩
    · simp only [wsum]
      split_ifs <;> omega
    · simp only [wsum, holds_eq σ a x hx, List.any_cons, id, Bool.or_eq_true]
      cases x
      · simp [b3]
      · simp only [if_true, true_or, true_iff]
        omega

/-- The at-least-one shortcut of `mk_pb` for strictly positive coefficients. -/
theorem mk_pb_or_pos (σ : Nat → Bool) (m_sort : psort_nw) (f : func_decl) (args : List Expr)
    (s : imp) (hfam : f.family = .pb_family) (hor : is_or f = some true)
    (hc : ∀ i, i < args.length → 0 < get_coeff f i)
    (hb : ∀ a ∈ args, ∃ x, eval σ a = some (.b x)) :
    mk_pb m_sort f args s = some (.or args, s) ∧ get_k f = 1 ∧
    eval σ (.or args) = some (.b (decide (get_k f ≤ wsum σ f 0 args))) := by
  have hk : get_k f = 1 := by
    unfold is_or at hor
    split at hor <;> simp at hor <;> exact hor
  refine ⟨by simp [mk_pb, hfam, hor], hk, ?_⟩
  obtain ⟨bs, b1, -, b3⟩ := eval_or_pos σ f args 0 (by simpa using hc) hb
  rw [eval_or_of_map σ args bs b1, hk]
  congr 2
  exact Bool.eq_iff_iff.mpr (by simpa using b3)

/-- The at-least-one shortcut of `mk_pb` on PB_GE with threshold 1 over two literals of
coefficients 0 and 1, whose sum reaches the threshold: under the assignment that makes only the
first literal true the disjunction is true, while the weighted sum is 0. -/
theorem mk_pb_or_zero_coeff_two :
    is_or ⟨.pb_family, .OP_PB_GE, 1, [0, 1]⟩ = some true ∧
    total ⟨.pb_family, .OP_PB_GE, 1, [0, 1]⟩ 0 2 = 1 ∧
    (∀ (z3debug : Bool) (m_sort : psort_nw) (s : imp),
      mk_pb_build z3debug m_sort ⟨.pb_family, .OP_PB_GE, 1, [0, 1]⟩ [.var 0, .var 1] s =
        some (.or [.var 0, .var 1], s)) ∧
    eval (fun i => decide (i = 0)) (.or [.var 0, .var 1]) = some (.b true) ∧
    wsum (fun i => decide (i = 0)) ⟨.pb_family, .OP_PB_GE, 1, [0, 1]⟩ 0 [.var 0, .var 1] = 0 :=
  ⟨rfl, rfl, fun z3debug _ _ => by cases z3debug <;> rfl, rfl, rfl⟩

/-! ## The counts of the reduction -/

theorem pair_for_adds_eq (is_le : lbool) (bound : Expr) :
    ∀ (fuel i : Nat) (es fmls : List Expr),
      pair_for_adds is_le bound fuel i es fmls = min fuel ((es.length - i) / 2)
  | 0, _, _, _ => by simp [pair_for_adds]
  | fuel + 1, i, es, fmls => by
    simp only [pair_for_adds]
    split_ifs with h
    · rw [pair_for_adds_eq is_le bound fuel, List.length_set]
      omega
    · omega

theorem mk_le_ge_add_length (is_le : lbool) (fmls : List Expr) (a b bound : Expr) :
    (mk_le_ge_add is_le fmls a b bound).2.length = fmls.length + 2 := by
  simp only [mk_le_ge_add]
  split_ifs <;> simp

theorem pair_round_fmls_length (is_le : lbool) (bound : Expr) :
    ∀ (es fmls : List Expr),
      (pair_round is_le bound es fmls).2.length = fmls.length + 2 * (es.length / 2)
  | [], _ => by simp [pair_round]
  | [a], _ => by simp [pair_round]
  | a :: b :: rest, fmls => by
    simp only [pair_round, pair_round_fmls_length is_le bound rest, mk_le_ge_add_length,
      List.length_cons]
    omega

/-- The counts of the reduction on a vector of `es.size()` values, given enough passes. -/
theorem reduce_counts (is_le : lbool) (bound : Expr) :
    ∀ (fuel : Nat) (es fmls : List Expr), es.length ≤ fuel →
      reduce_rounds is_le bound fuel es fmls = Nat.clog 2 es.length ∧
      reduce_adds is_le bound fuel es fmls = es.length - 1 ∧
      (reduce_loop is_le bound fuel es fmls).2.length = fmls.length + 2 * (es.length - 1)
  | 0, es, fmls, h => by
    have : es = [] := List.length_eq_zero.mp (by omega)
    simp [reduce_rounds, reduce_adds, reduce_loop, this]
  | fuel + 1, es, fmls, h => by
    simp only [reduce_rounds, reduce_adds, reduce_loop, while_body_eq_pair_round]
    split_ifs with h1
    · have hl := pair_round_length is_le bound es fmls
      have hf := pair_round_fmls_length is_le bound es fmls
      obtain ⟨i1, i2, i3⟩ := reduce_counts is_le bound fuel
        (pair_round is_le bound es fmls).1 (pair_round is_le bound es fmls).2 (by omega)
      refine ⟨?_, ?_, ?_⟩
      · rw [i1, hl, Nat.clog_of_two_le (by omega) (by omega : 2 ≤ es.length)]
        have h2 : es.length + 2 - 1 = es.length + 1 := by omega
        rw [h2]
        omega
      · rw [i2, hl, pair_for_adds_eq]
        simp only [Nat.sub_zero]
        omega
      · rw [i3, hl, hf]
        omega
    · have hle : es.length ≤ 1 := by omega
      refine ⟨(Nat.clog_of_right_le_one hle 2).symm, by omega, ?_⟩
      simp only []
      omega

/-- When no coefficient exceeds `k` the pruning loop lifts every literal and records no
fact. -/
theorem prune_loop_all_kept (is_le : lbool) (f : func_decl) (k : Int) (nb : Nat)
    (zero : Expr) :
    ∀ (args : List Expr) (i : Nat) (es fmls : List Expr),
      (∀ j, j < args.length → get_coeff f (i + j) ≤ k) →
      (prune_loop is_le f k nb zero i args (es, fmls)).1.length = es.length + args.length ∧
      (prune_loop is_le f k nb zero i args (es, fmls)).2 = fmls
  | [], _, _, _, _ => by simp [prune_loop]
  | a :: rest, i, es, fmls, h => by
    have h0 : ¬ get_coeff f i > k := by
      have := h 0 (by simp)
      simp only [Nat.add_zero] at this
      omega
    obtain ⟨i1, i2⟩ := prune_loop_all_kept is_le f k nb zero rest (i + 1)
      (es ++ [mk_ite a (mk_numeral (get_coeff f i) nb) zero]) fmls (fun j hj => by
        have := h (j + 1) (by simpa using hj)
        rwa [show i + 1 + j = i + (j + 1) by omega])
    simp only [prune_loop, h0, if_false]
    refine ⟨?_, i2⟩
    rw [i1, List.length_append, List.length_singleton, List.length_cons]
    omega

/-- When every coefficient exceeds `k` the pruning loop lifts no literal. -/
theorem prune_loop_all_pruned (is_le : lbool) (f : func_decl) (k : Int) (nb : Nat)
    (zero : Expr) :
    ∀ (args : List Expr) (i : Nat) (es fmls : List Expr),
      (∀ j, j < args.length → k < get_coeff f (i + j)) →
      (prune_loop is_le f k nb zero i args (es, fmls)).1 = es
  | [], _, _, _, _ => by simp [prune_loop]
  | a :: rest, i, es, fmls, h => by
    have h0 : get_coeff f i > k := by
      have := h 0 (by simp)
      simpa using this
    have hrest : ∀ j, j < rest.length → k < get_coeff f (i + 1 + j) := fun j hj => by
      have := h (j + 1) (by simpa using hj)
      rwa [show i + 1 + j = i + (j + 1) by omega]
    simp only [prune_loop, h0, if_true]
    split_ifs
    · exact prune_loop_all_pruned is_le f k nb zero rest (i + 1) es _ hrest
    · exact prune_loop_all_pruned is_le f k nb zero rest (i + 1) es _ hrest

/-- An odd last value passes through one pass of the `while` loop unchanged. -/
theorem while_body_odd_last (is_le : lbool) (bound : Expr) (es fmls : List Expr)
    (hodd : es.length % 2 = 1) :
    (while_body is_le bound es fmls).1.getLast? = es.getLast? := by
  rw [while_body_eq_pair_round, pair_round_odd is_le bound es fmls hodd]
  have hne : es ≠ [] := by
    intro h0
    simp [h0] at hodd
  obtain ⟨x, l, rfl⟩ := List.exists_cons_of_ne_nil hne
  rw [List.getLast?_append, List.getLast?_singleton, List.getLast?_cons]
  simp only [Option.or, List.getLastD_cons, List.getLastD_eq_getLast?, List.getLast?_cons,
    Option.getD_some]

/-- The counts of the reduction inside the weighted encoder when no literal is pruned. -/
theorem encoder_counts (is_le : lbool) (f : func_decl) (args : List Expr) (k : Int)
    (hn : 1 ≤ args.length) (hc : ∀ i, i < args.length → get_coeff f i ≤ k) :
    ∃ es, prune_loop is_le f k (get_num_bits k) (mk_numeral 0 (get_num_bits k)) 0 args ([], [])
        = (es, []) ∧
      es.length = args.length ∧
      reduce_rounds is_le (mk_numeral k (get_num_bits k)) es.length es [] =
        Nat.clog 2 args.length ∧
      reduce_adds is_le (mk_numeral k (get_num_bits k)) es.length es [] = args.length - 1 ∧
      (reduce_loop is_le (mk_numeral k (get_num_bits k)) es.length es []).2.length =
        2 * (args.length - 1) ∧
      (reduce_loop is_le (mk_numeral k (get_num_bits k)) es.length es []).1.length = 1 := by
  obtain ⟨p1, p2⟩ := prune_loop_all_kept is_le f k (get_num_bits k)
    (mk_numeral 0 (get_num_bits k)) args 0 [] [] (by simpa using hc)
  refine ⟨(prune_loop is_le f k (get_num_bits k) (mk_numeral 0 (get_num_bits k)) 0 args
    ([], [])).1, Prod.ext rfl p2, by simpa using p1, ?_⟩
  simp only [List.length_nil, Nat.zero_add] at p1
  obtain ⟨c1, c2, c3⟩ := reduce_counts is_le (mk_numeral k (get_num_bits k)) _ _ []
    (le_refl (prune_loop is_le f k (get_num_bits k) (mk_numeral 0 (get_num_bits k)) 0 args
      ([], [])).1.length)
  rw [p1] at c1 c2 c3
  refine ⟨by rw [p1]; exact c1, by rw [p1]; exact c2, by rw [p1]; simpa using c3, ?_⟩
  rw [reduce_loop_length _ _ _ _ _ (le_refl _), p1]
  omega
/-- The EQ mode returns nothing when every coefficient exceeds `k`, in particular when there
is no literal: the vector `es` is empty when `es.back()` is read. -/
theorem mk_le_ge_eq_none_of_all_pruned (f : func_decl) (args : List Expr) (k : Int)
    (hk : 0 < k) (hc : ∀ i, i < args.length → k < get_coeff f i) :
    mk_le_ge .l_undef f args k = none := by
  have hk0 : k ≠ 0 := by omega
  have hp := prune_loop_all_pruned .l_undef f k (get_num_bits k)
    (mk_numeral 0 (get_num_bits k)) args 0 [] [] (by simpa using hc)
  simp only [mk_le_ge, mk_le_ge_tree, hk0, hk, if_false, not_true_eq_false, hp,
    List.length_nil, reduce_loop, List.getLast?_nil]

/-! ## The GE mode of the weighted encoder -/

theorem add_facts_val_ge (nb kk va vb : Nat) (ha : va < 2 ^ nb) (hb : vb < 2 ^ nb) :
    ((add_facts_val .l_false nb kk va vb).any id = true → kk < 2 ^ nb → kk ≤ va + vb) ∧
    ((add_facts_val .l_false nb kk va vb).any id = false →
      (va + vb) % 2 ^ nb = va + vb) := by
  have hP : 0 < 2 ^ nb := Nat.pos_of_ne_zero (by positivity)
  simp only [add_facts_val, ne_eq, not_true_eq_false, if_false, List.any_cons, id,
    List.any_nil, Bool.or_false, Bool.or_eq_true, decide_eq_true_eq, Bool.or_eq_false_iff,
    decide_eq_false_iff_not]
  constructor
  · rintro (h | h) hk
    · by_contra hlt
      have : (va + vb) / 2 ^ nb = 0 := Nat.div_eq_of_lt (by omega)
      rw [this] at h
      simp at h
    · exact le_trans h (Nat.mod_le _ _)
  · rintro ⟨h1, -⟩
    apply Nat.mod_eq_of_lt
    by_contra hge
    have : (va + vb) / 2 ^ nb = 1 := by
      apply Nat.div_eq_of_lt_le <;> omega
    rw [this] at h1
    simp at h1

theorem pair_round_val_ge (nb kk : Nat) (hk : kk < 2 ^ nb) :
    ∀ vs : List Nat, (∀ v ∈ vs, v < 2 ^ nb) →
      ((pair_round_val .l_false nb kk vs).2.any id = true → kk ≤ vs.sum) ∧
      ((pair_round_val .l_false nb kk vs).2.any id = false →
        (pair_round_val .l_false nb kk vs).1.sum = vs.sum)
  | [], _ => by simp [pair_round_val]
  | [a], _ => by simp [pair_round_val]
  | a :: b :: rest, hv => by
    have ha : a < 2 ^ nb := hv a (by simp)
    have hb : b < 2 ^ nb := hv b (by simp)
    have hrest : ∀ v ∈ rest, v < 2 ^ nb := fun w hw => hv w (by simp [hw])
    obtain ⟨i1, i2⟩ := pair_round_val_ge nb kk hk rest hrest
    obtain ⟨f1, f2⟩ := add_facts_val_ge nb kk a b ha hb
    simp only [pair_round_val, List.any_append, Bool.or_eq_true, List.sum_cons,
      Bool.or_eq_false_iff]
    constructor
    · rintro (h | h)
      · have := f1 h hk
        omega
      · have := i1 h
        omega
    · rintro ⟨h1, h2⟩
      rw [f2 h1, i2 h2]
      omega

/-- The whole reduction in the GE mode: some recorded fact holds or the bound does not exceed
what is left, exactly when the bound does not exceed the sum. -/
theorem reduce_loop_val_ge (nb kk : Nat) (hk : kk < 2 ^ nb) :
    ∀ (fuel : Nat) (vs : List Nat), (∀ v ∈ vs, v < 2 ^ nb) →
      (((reduce_loop_val .l_false nb kk fuel vs).2.any id = true ∨
        kk ≤ (reduce_loop_val .l_false nb kk fuel vs).1.sum) ↔ kk ≤ vs.sum)
  | 0, vs, _ => by simp [reduce_loop_val]
  | fuel + 1, vs, hv => by
    simp only [reduce_loop_val]
    split_ifs with h1
    · obtain ⟨r1, r2⟩ := pair_round_val_ge nb kk hk vs hv
      have ih := reduce_loop_val_ge nb kk hk fuel (pair_round_val .l_false nb kk vs).1
        (pair_round_val_lt .l_false nb kk vs hv)
      simp only [List.any_append, Bool.or_eq_true]
      cases hb : (pair_round_val .l_false nb kk vs).2.any id
      · rw [r2 hb] at ih
        simpa using ih
      · simpa using r1 hb
    · simp

/-- The pruning loop in the GE mode: the recorded unit facts are the pruned literals. -/
theorem prune_loop_spec_ge (σ : Nat → Bool) (f : func_decl) (k : Int) (nb : Nat)
    (hknb : k.toNat < 2 ^ nb) :
    ∀ (args : List Expr) (i : Nat) (es fmls : List Expr),
      (∀ a ∈ args, ∃ x, eval σ a = some (.b x)) →
      (∀ j, j < args.length → 0 ≤ get_coeff f (i + j)) →
      ∃ (kept pruned : List Expr) (bs : List Bool),
        prune_loop .l_false f k nb (mk_numeral 0 nb) i args (es, fmls)
          = (es ++ kept, fmls ++ pruned) ∧
        (∀ e ∈ kept, Lifted σ nb e) ∧
        (((kept.map (valOf σ)).sum : Nat) : Int) = wsum_kept σ f k i args ∧
        pruned.map (eval σ) = bs.map (fun x => some (Val.b x)) ∧
        bs.any id = !pruned_false σ f k i args
  | [], i, es, fmls, _, _ => ⟨[], [], [], by simp [prune_loop, wsum_kept, pruned_false]⟩
  | a :: rest, i, es, fmls, hb, h => by
    have h0 : 0 ≤ get_coeff f i := by simpa using h 0 (by simp)
    have hrest : ∀ j, j < rest.length → 0 ≤ get_coeff f (i + 1 + j) := fun j hj => by
      have := h (j + 1) (by simpa using hj)
      rwa [show i + 1 + j = i + (j + 1) by omega]
    have hbrest : ∀ a ∈ rest, ∃ x, eval σ a = some (.b x) := fun e he => hb e (by simp [he])
    obtain ⟨x, hx⟩ := hb a (by simp)
    have hh := holds_eq σ a x hx
    by_cases hc : get_coeff f i > k
    · obtain ⟨kept, pruned, bs, e1, e2, e4, e5, e6⟩ :=
        prune_loop_spec_ge σ f k nb hknb rest (i + 1) es (fmls ++ [a]) hbrest hrest
      refine ⟨kept, a :: pruned, x :: bs, ?_, e2, ?_, ?_, ?_⟩
      · simp only [prune_loop, hc, if_true, ne_eq, not_true_eq_false, if_false, e1]
        simp
      · have hc2 : ¬ get_coeff f i ≤ k := by omega
        simp [wsum_kept, hc2, e4]
      · simp [hx, e5]
      · simp only [List.any_cons, id, e6, pruned_false, hc, if_true, hh]
        cases x <;> simp
    · obtain ⟨kept, pruned, bs, e1, e2, e4, e5, e6⟩ :=
        prune_loop_spec_ge σ f k nb hknb rest (i + 1)
          (es ++ [mk_ite a (mk_numeral (get_coeff f i) nb) (mk_numeral 0 nb)]) fmls hbrest hrest
      have hck : get_coeff f i ≤ k := by omega
      have hcn : (get_coeff f i).toNat ≤ k.toNat := Int.toNat_le_toNat hck
      obtain ⟨l1, l2⟩ := lifted_mk_ite σ nb a (get_coeff f i) x hx h0 (by omega)
      refine ⟨mk_ite a (mk_numeral (get_coeff f i) nb) (mk_numeral 0 nb) :: kept, pruned, bs,
        ?_, ?_, ?_, e5, ?_⟩
      · simp only [prune_loop, hc, if_false, e1]
        simp
      · intro e he
        rcases List.mem_cons.mp he with rfl | he
        · exact l1
        · exact e2 e he
      · simp only [List.map_cons, List.sum_cons, Nat.cast_add, e4, wsum_kept, hck, hh, true_and,
          l2]
        cases x <;> simp [Int.toNat_of_nonneg h0]
      · simp [pruned_false, hc, e6]

/-- The GE mode of the weighted encoder for a positive threshold and at least one lifted
literal. -/
theorem mk_le_ge_ge_spec (σ : Nat → Bool) (f : func_decl) (args : List Expr) (k : Int)
    (hk : 0 < k) (hc : ∀ i, i < args.length → 0 ≤ get_coeff f i)
    (hb : ∀ a ∈ args, ∃ x, eval σ a = some (.b x))
    (hex : ∃ j, j < args.length ∧ get_coeff f j ≤ k) :
    ∃ e, mk_le_ge .l_false f args k = some e ∧
      eval σ e = some (.b (decide (k ≤ wsum σ f 0 args))) := by
  have hknb := lt_two_pow_get_num_bits k
  have hnb := one_le_get_num_bits k
  have hk0 : k ≠ 0 := by omega
  have hc2 : ∀ j, j < args.length → 0 ≤ get_coeff f (0 + j) := by simpa using hc
  obtain ⟨kept, pruned, bs, e1, e2, e4, e5, e6⟩ :=
    prune_loop_spec_ge σ f k (get_num_bits k) hknb args 0 [] [] hb hc2
  have hgt := prune_loop_length_gt .l_false f k (get_num_bits k)
    (mk_numeral 0 (get_num_bits k)) args 0 [] [] (by simpa using hex)
  simp only [List.nil_append] at e1
  rw [e1] at hgt
  have hbound := eval_mk_numeral_of_lt σ k (get_num_bits k) (le_of_lt hk) hknb
  obtain ⟨r1, r2, r3⟩ := reduce_loop_spec σ .l_false (get_num_bits k) k.toNat
    (mk_numeral k (get_num_bits k)) hnb hbound kept.length kept pruned e2
  have hlen := reduce_loop_length .l_false (mk_numeral k (get_num_bits k)) kept.length kept
    pruned (le_refl _)
  have hlen1 : (reduce_loop .l_false (mk_numeral k (get_num_bits k)) kept.length kept
      pruned).1.length = 1 := by
    rw [hlen]
    simp only [List.length_nil] at hgt
    omega
  obtain ⟨r, hr⟩ := List.length_eq_one.mp hlen1
  have hrl : Lifted σ (get_num_bits k) r := r1 r (by rw [hr]; simp)
  have hv := reduce_loop_val_ge (get_num_bits k) k.toNat hknb kept.length
    (kept.map (valOf σ)) (by
      intro v hv
      obtain ⟨e, he, rfl⟩ := List.mem_map.mp hv
      exact (e2 e he).lt)
  rw [← r2, hr] at hv
  simp only [List.map_cons, List.map_nil, List.sum_cons, List.sum_nil, add_zero] at hv
  obtain ⟨w1, w2, w3⟩ := wsum_split σ f k args 0 hc2
  have hkk : ((k.toNat : Nat) : Int) = k := Int.toNat_of_nonneg (le_of_lt hk)
  refine ⟨mk_or ((reduce_loop .l_false (mk_numeral k (get_num_bits k)) kept.length kept
      pruned).2 ++ [.ule (mk_numeral k (get_num_bits k)) r]), ?_, ?_⟩
  · simp only [mk_le_ge, mk_le_ge_tree, hk0, hk, if_false, not_true_eq_false, e1, hr,
      List.getLast?_singleton]
  · have hm : ((reduce_loop .l_false (mk_numeral k (get_num_bits k)) kept.length kept
        pruned).2 ++ [Expr.ule (mk_numeral k (get_num_bits k)) r]).map (eval σ) =
        (bs ++ (reduce_loop_val .l_false (get_num_bits k) k.toNat kept.length
          (kept.map (valOf σ))).2 ++ [decide (k.toNat ≤ valOf σ r)]).map
          (fun x => some (Val.b x)) := by
      rw [List.map_append, List.map_append, List.map_append, r3, e5]
      simp only [List.map_cons, List.map_nil]
      rw [eval_ule_bv σ _ _ _ _ _ hbound hrl.eval_eq]
    rw [eval_mk_or σ _ _ hm]
    congr 2
    apply Bool.eq_iff_iff.mpr
    simp only [List.any_append, Bool.or_eq_true, List.any_cons, List.any_nil, Bool.or_false,
      id, decide_eq_true_eq, e6, Bool.not_eq_true']
    constructor
    · rintro ((hp | ht) | hfin)
      · have := w3 hp
        omega
      · have h1 := hv.mp (Or.inl ht)
        have : (k.toNat : Int) ≤ ((kept.map (valOf σ)).sum : Nat) := by exact_mod_cast h1
        rw [e4, hkk] at this
        omega
      · have h1 := hv.mp (Or.inr hfin)
        have : (k.toNat : Int) ≤ ((kept.map (valOf σ)).sum : Nat) := by exact_mod_cast h1
        rw [e4, hkk] at this
        omega
    · intro hw
      cases hp : pruned_false σ f k 0 args
      · exact Or.inl (Or.inl rfl)
      · have hs : k.toNat ≤ (kept.map (valOf σ)).sum := by
          have : (k.toNat : Int) ≤ ((kept.map (valOf σ)).sum : Nat) := by
            rw [e4, hkk, ← w2 hp]
            exact hw
          exact_mod_cast this
        rcases hv.mpr hs with h | h
        · exact Or.inl (Or.inr h)
        · exact Or.inr h

/-! ## The arithmetic rule -/

/-- The build that checks assertions is the encoder `mk_le_ge`. -/
theorem mk_le_ge_build_true (is_le : lbool) (f : func_decl) (args : List Expr) (k : Int) :
    mk_le_ge_build true is_le f args k = mk_le_ge is_le f args k := by
  simp [mk_le_ge_build, mk_le_ge]

/-- The build that checks assertions is `mk_bv`. -/
theorem mk_bv_build_true (f : func_decl) (args : List Expr) :
    mk_bv_build true f args = mk_bv f args := by
  unfold mk_bv_build mk_bv
  cases f.kind <;> simp [mk_le_ge_build_true]

/-- The build that checks assertions is `pop`. -/
theorem pop_build_true (n : Nat) (s : imp) : pop_build true n s = pop n s := by
  unfold pop_build pop
  by_cases h : s.m_lemmas.isEmpty = true
  · simp only [h, not_true_eq_false, and_false, if_false]
  · simp [h]

/-- The build that checks assertions is `mk_pb`. -/
theorem mk_pb_build_true (m_sort : psort_nw) (f : func_decl) (args : List Expr) (s : imp) :
    mk_pb_build true m_sort f args s = mk_pb m_sort f args s := by
  unfold mk_pb_build mk_pb
  by_cases h : f.family = .pb_family
  · simp only [h, ne_eq, not_true_eq_false, and_false, if_false, mk_bv_build_true]
  · simp [h]

/-- With no pending lemma the two builds of `pop` agree. -/
theorem pop_build_eq_pop (z3debug : Bool) (n : Nat) (s : imp) (h : s.m_lemmas = []) :
    pop_build z3debug n s = pop n s := by
  unfold pop_build pop
  simp only [h, List.isEmpty_nil, not_true_eq_false, and_false, if_false]

theorem dualize_eq (f : func_decl) (args : List Expr) (k : Int) :
    dualize f args k = (args.map mk_not, total f 0 args.length - k) := by
  rw [dualize, dualize_loop_eq]
  congr 1
  omega

/-- Where the assertions of `mk_bv` hold, the two builds of `mk_bv` agree. -/
theorem mk_bv_build_eq_mk_bv (z3debug : Bool) (f : func_decl) (args : List Expr)
    (h0 : 0 ≤ get_k f)
    (h1 : f.kind = .OP_PB_GE ∨ f.kind = .OP_AT_LEAST_K → get_k f ≤ total f 0 args.length) :
    mk_bv_build z3debug f args = mk_bv f args := by
  cases z3debug
  · have hk : ¬ get_k f < 0 := by omega
    have hle : ∀ (m : lbool) (as : List Expr) (k : Int), 0 ≤ k →
        mk_le_ge_build false m f as k = mk_le_ge m f as k := by
      intro m as k hk
      unfold mk_le_ge_build mk_le_ge
      by_cases hz : k = 0
      · simp [hz]
      · have : 0 < k := by omega
        simp [hz, this]
    unfold mk_bv_build mk_bv
    cases hkind : f.kind <;> simp [hk, hle _ _ _ h0]
    · have := h1 (Or.inr hkind)
      have h2 : ¬ (dualize f args (get_k f)).2 < 0 := by
        rw [dualize_eq]; simp only []; omega
      simp [h2, hle _ _ _ (by omega : 0 ≤ (dualize f args (get_k f)).2)]
    · have := h1 (Or.inl hkind)
      have h2 : ¬ (dualize f args (get_k f)).2 < 0 := by
        rw [dualize_eq]; simp only []; omega
      simp [h2, hle _ _ _ (by omega : 0 ≤ (dualize f args (get_k f)).2)]
  · exact mk_bv_build_true f args

/-- The LE mode of the tree always returns. -/
theorem mk_le_ge_tree_le_isSome (f : func_decl) (args : List Expr) (k : Int) :
    (mk_le_ge_tree .l_true f args k).isSome = true := by
  simp [mk_le_ge_tree]

/-- The EQ mode of the tree returns exactly when some coefficient does not exceed `k`, that
is, when `es.back()` is read of a non-empty vector. -/
theorem mk_le_ge_tree_eq_isSome (f : func_decl) (args : List Expr) (k : Int) :
    (mk_le_ge_tree .l_undef f args k).isSome = true ↔
      ∃ j, j < args.length ∧ get_coeff f j ≤ k := by
  constructor
  · intro h
    by_contra hne
    have hc : ∀ j, j < args.length → k < get_coeff f (0 + j) := by
      intro j hj
      by_contra hjk
      exact hne ⟨j, hj, by simpa using hjk⟩
    have hp := prune_loop_all_pruned .l_undef f k (get_num_bits k)
      (mk_numeral 0 (get_num_bits k)) args 0 [] [] hc
    simp [mk_le_ge_tree, hp, reduce_loop] at h
  · intro h
    have hgt := prune_loop_length_gt .l_undef f k (get_num_bits k)
      (mk_numeral 0 (get_num_bits k)) args 0 [] [] (by simpa using h)
    have hlen := reduce_loop_length .l_undef (mk_numeral k (get_num_bits k)) _
      (prune_loop .l_undef f k (get_num_bits k) (mk_numeral 0 (get_num_bits k)) 0 args
        ([], [])).1
      (prune_loop .l_undef f k (get_num_bits k) (mk_numeral 0 (get_num_bits k)) 0 args
        ([], [])).2 (le_refl _)
    simp only [List.length_nil] at hgt
    have hne : (reduce_loop .l_undef (mk_numeral k (get_num_bits k))
        (prune_loop .l_undef f k (get_num_bits k) (mk_numeral 0 (get_num_bits k)) 0 args
          ([], [])).1.length
        (prune_loop .l_undef f k (get_num_bits k) (mk_numeral 0 (get_num_bits k)) 0 args
          ([], [])).1
        (prune_loop .l_undef f k (get_num_bits k) (mk_numeral 0 (get_num_bits k)) 0 args
          ([], [])).2).1 ≠ [] := by
      intro h0
      rw [h0] at hlen
      simp only [List.length_nil] at hlen
      omega
    obtain ⟨r, hr⟩ : ∃ r, (reduce_loop .l_undef (mk_numeral k (get_num_bits k))
        (prune_loop .l_undef f k (get_num_bits k) (mk_numeral 0 (get_num_bits k)) 0 args
          ([], [])).1.length
        (prune_loop .l_undef f k (get_num_bits k) (mk_numeral 0 (get_num_bits k)) 0 args
          ([], [])).1
        (prune_loop .l_undef f k (get_num_bits k) (mk_numeral 0 (get_num_bits k)) 0 args
          ([], [])).2).1.getLast? = some r :=
      ⟨_, List.getLast?_eq_getLast _ hne⟩
    simp [mk_le_ge_tree, hr]

/-- The function `mk_bv` returns exactly when `mk_bv_defined` holds: in a build that checks
assertions the assertions hold, and in the EQ mode `es.back()` is defined. -/
theorem mk_bv_build_isSome_iff (z3debug : Bool) (f : func_decl) (args : List Expr)
    (h1 : f.kind ≠ .OP_ADD) (h2 : f.kind ≠ .OP_OTHER) :
    (mk_bv_build z3debug f args).isSome = true ↔ mk_bv_defined z3debug f args := by
  have hle : ∀ (as : List Expr) (k : Int),
      (mk_le_ge_build z3debug .l_true f as k).isSome = true ↔ (z3debug = true → 0 ≤ k) := by
    intro as k
    unfold mk_le_ge_build
    by_cases hz : k = 0
    · simp [hz]
    · cases z3debug
      · simp [hz, mk_le_ge_tree_le_isSome]
      · by_cases hp : 0 < k
        · simp [hz, hp, mk_le_ge_tree_le_isSome]
          omega
        · simp [hz, hp]
          omega
  have heq : (mk_le_ge_build z3debug .l_undef f args (get_k f)).isSome = true ↔
      ((z3debug = true → 0 ≤ get_k f) ∧
        (get_k f = 0 ∨ ∃ j, j < args.length ∧ get_coeff f j ≤ get_k f)) := by
    unfold mk_le_ge_build
    by_cases hz : get_k f = 0
    · simp [hz]
    · cases z3debug
      · simp [hz, mk_le_ge_tree_eq_isSome]
      · by_cases hp : 0 < get_k f
        · simp [hz, hp, mk_le_ge_tree_eq_isSome]
          omega
        · simp [hz, hp]
          omega
  unfold mk_bv_build mk_bv_defined
  cases hkind : f.kind
  · -- OP_AT_MOST_K
    cases z3debug
    · simp [hle]
    · by_cases hk : get_k f < 0
      · simp [hk]
      · simp [hk, hle]
  · -- OP_AT_LEAST_K
    cases z3debug
    · simp [hle]
    · by_cases hk : get_k f < 0
      · simp [hk]
      · simp only [hk, dualize_eq, true_and, if_false, sub_neg, true_implies]
        by_cases ht : total f 0 args.length < get_k f
        · simp [ht]
        · simp [ht, hle]
          omega
  · -- OP_PB_LE
    cases z3debug
    · simp [hle]
    · by_cases hk : get_k f < 0
      · simp [hk]
      · simp [hk, hle]
  · -- OP_PB_GE
    cases z3debug
    · simp [hle]
    · by_cases hk : get_k f < 0
      · simp [hk]
      · simp only [hk, dualize_eq, true_and, if_false, sub_neg, true_implies]
        by_cases ht : total f 0 args.length < get_k f
        · simp [ht]
        · simp [ht, hle]
          omega
  · -- OP_PB_EQ
    cases z3debug
    · simp [heq]
    · by_cases hk : get_k f < 0
      · simp [hk]
      · simp [hk, heq]
  · exact absurd hkind h1
  · exact absurd hkind h2

/-- The function `mk_pb` leaves the counter of translated constraints alone, in either
build. -/
theorem mk_pb_build_num_translated (z3debug : Bool) (m_sort : psort_nw) (f : func_decl)
    (args : List Expr) (s : imp) (r : Expr × imp)
    (h : mk_pb_build z3debug m_sort f args s = some r) :
    r.2.m_num_translated = s.m_num_translated := by
  by_cases hg : z3debug = true ∧ f.family ≠ .pb_family
  · simp [mk_pb_build, hg] at h
  cases hor : is_or f with
  | none => simp [mk_pb_build, hor] at h
  | some b =>
    cases b
    · simp only [mk_pb_build, hg, hor, if_false] at h
      split_ifs at h
      all_goals first
        | (cases h; exact apply_calls_num_translated _ _)
        | (split at h
           · cases h; rfl
           · cases h)
    · simp only [mk_pb_build, hg, hor, if_false] at h
      cases h
      rfl

/-- The dispatch of `mk_pb`, in either build, on a constraint that is not the at-least-one
shortcut: the comparator network returns a circuit, or the result is that of `mk_bv`. -/
theorem mk_pb_build_dispatch (z3debug : Bool) (m_sort : psort_nw) (f : func_decl)
    (args : List Expr) (s : imp) (hfam : f.family = .pb_family) (hor : is_or f = some false) :
    (is_unsigned (get_k f) = true ∧ has_unit_coefficients f = true →
      (mk_pb_build z3debug m_sort f args s).isSome = true) ∧
    (¬ (is_unsigned (get_k f) = true ∧ has_unit_coefficients f = true) →
      mk_pb_build z3debug m_sort f args s =
        (mk_bv_build z3debug f args).map (fun e => (e, s))) := by
  have hunit : f.kind = .OP_AT_MOST_K ∨ f.kind = .OP_AT_LEAST_K →
      has_unit_coefficients f = true := by
    intro h
    rcases h with h | h <;> simp [has_unit_coefficients, is_at_most_k, is_at_least_k, hfam, h]
  have hmap : ∀ o : Option Expr,
      (match o with
        | some e => some (e, s)
        | none => none) = o.map (fun e => (e, s)) := by
    intro o; cases o <;> rfl
  constructor
  · rintro ⟨hu, hc⟩
    cases hk : f.kind <;>
      simp [mk_pb_build, hfam, hor, is_at_most_k, is_at_least_k, is_eq, is_le, is_ge, hk, hu,
        hc]
    all_goals simp [is_or, hk] at hor
  · intro hn
    by_cases hu : is_unsigned (get_k f) = true
    · have hc : has_unit_coefficients f = false := by
        cases h : has_unit_coefficients f
        · rfl
        · exact absurd ⟨hu, h⟩ hn
      have hk1 : f.kind ≠ .OP_AT_MOST_K := fun h => by
        rw [hunit (Or.inl h)] at hc; cases hc
      have hk2 : f.kind ≠ .OP_AT_LEAST_K := fun h => by
        rw [hunit (Or.inr h)] at hc; cases hc
      simp only [mk_pb_build, hfam, hor, is_at_most_k, is_at_least_k, is_eq, is_le, is_ge, hu,
        hc, hk1, hk2, hmap, ne_eq, not_true_eq_false, and_false, if_false, decide_False,
        Bool.and_false, Bool.false_and, Bool.and_true, Bool.false_eq_true]
    · have hu2 : is_unsigned (get_k f) = false := by
        cases h : is_unsigned (get_k f)
        · rfl
        · exact absurd h hu
      simp only [mk_pb_build, hfam, hor, hu2, hmap, ne_eq, not_true_eq_false, and_false,
        if_false, Bool.and_false, Bool.false_and, Bool.false_eq_true]

/-- The function `mk_pb` returns, in either build, exactly when the constraint does not reach
`mk_bv` or `mk_bv` returns. -/
theorem mk_pb_build_isSome_iff (z3debug : Bool) (m_sort : psort_nw) (f : func_decl)
    (args : List Expr) (s : imp) (hfam : f.family = .pb_family)
    (h1 : f.kind ≠ .OP_ADD) (h2 : f.kind ≠ .OP_OTHER) :
    (mk_pb_build z3debug m_sort f args s).isSome = true ↔
      (reaches_mk_bv f → mk_bv_defined z3debug f args) := by
  cases hor : is_or f with
  | none =>
    exfalso
    cases hk : f.kind <;> simp [is_or, hk] at hor
    · exact h1 hk
    · exact h2 hk
  | some b =>
    cases b
    · obtain ⟨d1, d2⟩ := mk_pb_build_dispatch z3debug m_sort f args s hfam hor
      by_cases hn : is_unsigned (get_k f) = true ∧ has_unit_coefficients f = true
      · simp [d1 hn, reaches_mk_bv, hn]
      · have hm : (Option.map (fun e => (e, s)) (mk_bv_build z3debug f args)).isSome =
            (mk_bv_build z3debug f args).isSome := by
          cases mk_bv_build z3debug f args <;> rfl
        rw [d2 hn, hm, mk_bv_build_isSome_iff z3debug f args h1 h2]
        simp [reaches_mk_bv, hor, hn]
    · simp [mk_pb_build, hfam, hor, reaches_mk_bv]

/-- The control flow of `mk_app_core`, in either build. -/
theorem mk_app_core_spec (z3debug : Bool) (m_sort : psort_nw) (f : func_decl)
    (args : List Expr) (result : Option Expr) (s : imp) :
    (f.family = .pb_family → f.kind ≠ .OP_ADD → f.kind ≠ .OP_OTHER →
      (reaches_mk_bv f → mk_bv_defined z3debug f args) →
      ∃ r s1, mk_pb_build z3debug m_sort f args s = some (r, s1) ∧
        mk_app_core z3debug m_sort f args result s = some (.BR_DONE, some r,
          { s1 with m_num_translated := (s.m_num_translated + 1) % 2 ^ 32 })) ∧
    (f.family = .arith_family →
      ∃ (b : Bool) (r : Option Expr), mk_arith f args result = some (b, r) ∧
        (b = true → mk_app_core z3debug m_sort f args result s = some (.BR_DONE, r,
          { s with m_num_translated := (s.m_num_translated + 1) % 2 ^ 32 })) ∧
        (b = false → mk_app_core z3debug m_sort f args result s =
          some (.BR_FAILED, result, s))) ∧
    (f.family = .other_family →
      mk_app_core z3debug m_sort f args result s = some (.BR_FAILED, result, s)) := by
  refine ⟨fun hf h1 h2 hd => ?_, fun hf => ?_, fun hf => ?_⟩
  · have hs := (mk_pb_build_isSome_iff z3debug m_sort f args s hf h1 h2).mpr hd
    obtain ⟨r, hr⟩ := Option.isSome_iff_exists.mp hs
    have hn := mk_pb_build_num_translated z3debug m_sort f args s r hr
    refine ⟨r.1, r.2, hr, ?_⟩
    simp [mk_app_core, hf, hr, hn]
  · obtain ⟨b, r, h1, h2⟩ := mk_arith_total f args result
    refine ⟨b, r, h1, fun hb => ?_, fun hb => ?_⟩
    · subst hb
      simp [mk_app_core, hf, h1]
    · have := h2 hb
      subst hb this
      simp [mk_app_core, hf, h1]
  · simp [mk_app_core, hf]

/-- On an operator of the PB family, `mk_app_core` returns exactly when `mk_pb` does. -/
theorem mk_app_core_pb_isSome_iff (z3debug : Bool) (m_sort : psort_nw) (f : func_decl)
    (args : List Expr) (result : Option Expr) (s : imp) (hfam : f.family = .pb_family)
    (h1 : f.kind ≠ .OP_ADD) (h2 : f.kind ≠ .OP_OTHER) :
    (mk_app_core z3debug m_sort f args result s).isSome = true ↔
      (reaches_mk_bv f → mk_bv_defined z3debug f args) := by
  rw [← mk_pb_build_isSome_iff z3debug m_sort f args s hfam h1 h2]
  unfold mk_app_core
  cases mk_pb_build z3debug m_sort f args s <;> simp [hfam]

/-- The weighted sum of PB_GE over coefficients 3, 2, 5 never reaches 11. -/
theorem wsum_3_2_5_lt (σ : Nat → Bool) (k : Int) (a b c : Expr) :
    wsum σ ⟨.pb_family, .OP_PB_GE, k, [3, 2, 5]⟩ 0 [a, b, c] < 11 := by
  have h0 : get_coeff ⟨.pb_family, .OP_PB_GE, k, [3, 2, 5]⟩ 0 = 3 := rfl
  have h1 : get_coeff ⟨.pb_family, .OP_PB_GE, k, [3, 2, 5]⟩ 1 = 2 := rfl
  have h2 : get_coeff ⟨.pb_family, .OP_PB_GE, k, [3, 2, 5]⟩ 2 = 5 := rfl
  simp only [wsum, h0, h1, h2]
  split_ifs <;> omega

/-! ## The claims -/

/-- C1: for a positive threshold `k`, literals with non-negative coefficients and an assignment
under which every literal has a boolean value, the LE mode of the weighted encoder returns a
circuit, and the circuit is true exactly when the sum of the coefficients of the true literals
is at most `k`. The circuit alone decides this: its value is the same under every assignment
that gives the literals the same values, and the encoder, a function of the declaration, the
literals and `k` alone, reads and writes no ledger state. -/
theorem mk_le_ge_le_correct (σ : Nat → Bool) (f : func_decl) (args : List Expr) (k : Int)
    (hk : 0 < k) (hc : ∀ i, i < args.length → 0 ≤ get_coeff f i)
    (hb : ∀ a ∈ args, ∃ x, eval σ a = some (.b x)) :
    ∃ e, mk_le_ge .l_true f args k = some e ∧
      eval σ e = some (.b (decide (wsum σ f 0 args ≤ k))) ∧
      ∀ σ2 : Nat → Bool, (∀ a ∈ args, eval σ2 a = eval σ a) → eval σ2 e = eval σ e := by
  obtain ⟨e, h1, h2⟩ := mk_le_ge_le_spec σ f args k hk hc hb
  refine ⟨e, h1, h2, fun σ2 h => ?_⟩
  obtain ⟨e2, g1, g2⟩ := mk_le_ge_le_spec σ2 f args k hk hc
    (fun a ha => by rw [h a ha]; exact hb a ha)
  rw [h1] at g1
  cases g1
  rw [g2, h2, wsum_congr σ σ2 f args 0 h]

/-- Witness of C1: PB_LE with coefficients 3, 2, 5 and threshold 5 under the assignment that
makes every literal true (weighted sum 10): the circuit is false. -/
theorem mk_le_ge_le_correct_witness :
    ∃ e, mk_le_ge .l_true ⟨.pb_family, .OP_PB_LE, 5, [3, 2, 5]⟩ [.var 0, .var 1, .var 2] 5
        = some e ∧
      eval (fun _ => true) e = some (.b false) ∧
      ∀ σ2 : Nat → Bool,
        (∀ a ∈ [Expr.var 0, Expr.var 1, Expr.var 2], eval σ2 a = eval (fun _ => true) a) →
        eval σ2 e = eval (fun _ => true) e :=
  mk_le_ge_le_correct (fun _ => true) ⟨.pb_family, .OP_PB_LE, 5, [3, 2, 5]⟩
    [.var 0, .var 1, .var 2] 5 (by decide) (by decide) (by decide)

/-- C2: for a PB_GE or AtLeast constraint with non-negative coefficients and a threshold
smaller than the sum of all coefficients, `mk_bv` returns the LE-mode encoding of the negated
literals at the threshold `total - k`, and this circuit is true exactly when the weighted sum
of the true literals is at least `k`. -/
theorem mk_bv_ge_correct (σ : Nat → Bool) (f : func_decl) (args : List Expr)
    (hkind : f.kind = .OP_PB_GE ∨ f.kind = .OP_AT_LEAST_K)
    (hk : 0 ≤ get_k f) (hlt : get_k f < total f 0 args.length)
    (hc : ∀ i, i < args.length → 0 ≤ get_coeff f i)
    (hb : ∀ a ∈ args, ∃ x, eval σ a = some (.b x)) :
    mk_bv f args =
      mk_le_ge .l_true f (args.map mk_not) (total f 0 args.length - get_k f) ∧
    ∃ e, mk_bv f args = some e ∧
      eval σ e = some (.b (decide (get_k f ≤ wsum σ f 0 args))) :=
  mk_bv_ge_spec σ f args hkind hk hlt hc hb

/-- Witness of C2: the literals (a,3), (b,2), (c,5) with `k = 4`, dual threshold 6, under the
assignment that makes only `a` true (weighted sum 3): the circuit is false. -/
theorem mk_bv_ge_correct_witness :
    mk_bv ⟨.pb_family, .OP_PB_GE, 4, [3, 2, 5]⟩ [.var 0, .var 1, .var 2] =
      mk_le_ge .l_true ⟨.pb_family, .OP_PB_GE, 4, [3, 2, 5]⟩
        [.not (.var 0), .not (.var 1), .not (.var 2)] 6 ∧
    ∃ e, mk_bv ⟨.pb_family, .OP_PB_GE, 4, [3, 2, 5]⟩ [.var 0, .var 1, .var 2] = some e ∧
      eval (fun i => decide (i = 0)) e = some (.b false) :=
  mk_bv_ge_correct (fun i => decide (i = 0)) ⟨.pb_family, .OP_PB_GE, 4, [3, 2, 5]⟩
    [.var 0, .var 1, .var 2] (by decide) (by decide) (by decide) (by decide) (by decide)

/-- C3: for a positive threshold `k`, literals with non-negative coefficients of which at
least one is at most `k`, and an assignment under which every literal has a boolean value, the
EQ mode of the weighted encoder returns a circuit that is true exactly when the sum of the
coefficients of the true literals equals `k`; it is the circuit `mk_bv` returns for PB_EQ. -/
theorem mk_le_ge_eq_correct (σ : Nat → Bool) (f : func_decl) (args : List Expr) (k : Int)
    (hk : 0 < k) (hc : ∀ i, i < args.length → 0 ≤ get_coeff f i)
    (hb : ∀ a ∈ args, ∃ x, eval σ a = some (.b x))
    (hex : ∃ j, j < args.length ∧ get_coeff f j ≤ k) :
    ∃ e, mk_le_ge .l_undef f args k = some e ∧
      eval σ e = some (.b (decide (wsum σ f 0 args = k))) ∧
      (f.kind = .OP_PB_EQ → get_k f = k → mk_bv f args = some e) := by
  obtain ⟨e, h1, h2⟩ := mk_le_ge_eq_spec σ f args k hk hc hb hex
  refine ⟨e, h1, h2, fun hkind hkf => ?_⟩
  have hn : ¬ k < 0 := by omega
  simp only [mk_bv, hkind, hkf, hn, if_false, h1]

/-- Witness of C3: PB_EQ with coefficients 3, 2, 5 and threshold 5 under the assignment that
makes only the third literal false (weighted sum 5): the circuit is true. -/
theorem mk_le_ge_eq_correct_witness :
    ∃ e, mk_le_ge .l_undef ⟨.pb_family, .OP_PB_EQ, 5, [3, 2, 5]⟩ [.var 0, .var 1, .var 2] 5
        = some e ∧
      eval (fun i => decide (i < 2)) e = some (.b true) ∧
      (decl_kind.OP_PB_EQ = .OP_PB_EQ → (5 : Int) = 5 →
        mk_bv ⟨.pb_family, .OP_PB_EQ, 5, [3, 2, 5]⟩ [.var 0, .var 1, .var 2] = some e) :=
  mk_le_ge_eq_correct (fun i => decide (i < 2)) ⟨.pb_family, .OP_PB_EQ, 5, [3, 2, 5]⟩
    [.var 0, .var 1, .var 2] 5 (by decide) (by decide) (by decide) (by decide)

/-- C4, the code at the failing input: PB_LE with threshold 0 over one literal of coefficient
0. Under the assignment that makes the literal true the weighted sum is 0, which is at most 0,
but the returned term, the negation of the disjunction of the literals, is false. -/
theorem mk_le_ge_zero_coeff_zero :
    mk_le_ge .l_true ⟨.pb_family, .OP_PB_LE, 0, [0]⟩ [.var 0] 0 = some (.not (.var 0)) ∧
    eval (fun _ => true) (.not (.var 0)) = some (.b false) ∧
    wsum (fun _ => true) ⟨.pb_family, .OP_PB_LE, 0, [0]⟩ 0 [.var 0] = 0 :=
  ⟨rfl, rfl, rfl⟩

/-- C6: when the condition `c` has the boolean value `x` and the branches `hi` and `lo` have
values of the same sort, the term `mk_ite c hi lo` has the value of `hi` if `x` is true and
the value of `lo` if `x` is false, whichever simplification branch is taken. -/
theorem mk_ite_correct (σ : Nat → Bool) (c hi lo : Expr) (x : Bool) (vh vl : Val)
    (hc : eval σ c = some (.b x)) (hh : eval σ hi = some vh) (hl : eval σ lo = some vl)
    (hs : Val.sameSort vh vl = true) :
    eval σ (mk_ite c hi lo) = some (if x then vh else vl) :=
  eval_mk_ite σ c hi lo x vh vl hc hh hl hs

/-- Witness of C6: a negated condition over two bit-vector numerals. -/
theorem mk_ite_correct_witness :
    eval (fun _ => true) (mk_ite (.not (.var 0)) (.bvnum 3 2) (.bvnum 0 2)) =
      some (if false then Val.bv 2 3 else Val.bv 2 0) :=
  mk_ite_correct (fun _ => true) (.not (.var 0)) (.bvnum 3 2) (.bvnum 0 2) false
    (.bv 2 3) (.bv 2 0) rfl rfl rfl rfl

/-- C7, counterexample: `mk_ite(true, a, b)` for two distinct boolean constants `a` and `b` is
the three-argument conditional `ite(true, a, b)`, not the then-branch `a`. -/
theorem mk_ite_true_counterexample :
    mk_ite .tt (.var 0) (.var 1) = .ite .tt (.var 0) (.var 1) ∧
    mk_ite .tt (.var 0) (.var 1) ≠ .var 0 := by
  refine ⟨rfl, fun h => ?_⟩
  have h2 : mk_ite .tt (.var 0) (.var 1) = .ite .tt (.var 0) (.var 1) := rfl
  rw [h2] at h
  cases h

/-- C7 as amended: `mk_ite(true, x, y)` returns `x` itself when `x` and `y` are the same term
or `x` is `true` and `y` is `false`, and for branches with values of the same sort it returns
a term that has the value of `x` under every assignment. -/
theorem mk_ite_true (x y : Expr) :
    (x = y ∨ (x = .tt ∧ y = .ff) → mk_ite .tt x y = x) ∧
    ∀ (σ : Nat → Bool) (vx vy : Val), eval σ x = some vx → eval σ y = some vy →
      Val.sameSort vx vy = true → eval σ (mk_ite .tt x y) = some vx := by
  refine ⟨fun h => ?_, fun σ vx vy hx hy hs => ?_⟩
  · rcases h with rfl | ⟨rfl, rfl⟩
    · exact mk_ite_same .tt x
    · rfl
  · have := eval_mk_ite σ .tt x y true vx vy rfl hx hy hs
    simpa using this

/-- Witness of C7 as amended: equal branches, and two distinct boolean constants. -/
theorem mk_ite_true_witness :
    (Expr.var 0 = Expr.var 0 ∨ (Expr.var 0 = .tt ∧ Expr.var 0 = .ff) →
      mk_ite .tt (.var 0) (.var 0) = .var 0) ∧
    eval (fun _ => true) (mk_ite .tt (.var 0) (.var 1)) = some (.b true) :=
  ⟨(mk_ite_true (.var 0) (.var 0)).1,
    (mk_ite_true (.var 0) (.var 1)).2 (fun _ => true) (.b true) (.b true) rfl rfl rfl⟩

/-- C8: for every condition `c`, negated any number of times or not, and every term `x`,
`mk_ite c x x` is `x` itself. -/
theorem mk_ite_same_branches (c x : Expr) : mk_ite c x x = x :=
  mk_ite_same c x

/-- C9: `negate e` has the complement of the boolean value of `e` under every assignment, and
for a negation `not x` it is `x` itself. -/
theorem negate_correct (e : Expr) :
    (∀ x, e = .not x → negate e = x) ∧
    ∀ (σ : Nat → Bool) (x : Bool), eval σ e = some (.b x) →
      eval σ (negate e) = some (.b (!x)) := by
  refine ⟨fun x h => ?_, fun σ x h => eval_negate σ e x h⟩
  subst h
  rfl

/-- Witness of C9: the negation of a boolean constant. -/
theorem negate_correct_witness :
    negate (.not (.var 0)) = .var 0 ∧
    eval (fun _ => true) (negate (.not (.var 0))) = some (.b (!false)) :=
  ⟨(negate_correct (.not (.var 0))).1 (.var 0) rfl,
    (negate_correct (.not (.var 0))).2 (fun _ => true) false rfl⟩

/-- C10: in a ledger state reached from the initial state by pushes, allocations of fresh
variables, recordings of lemmas, flushes and pops, with no pending lemma, `pop n` for
`1 ≤ n ≤` number of open scopes succeeds, leaves the fresh-variable list equal to the list
recorded at the `n`-th most recent push, removes exactly the `n` most recent checkpoints and
changes nothing else. -/
theorem pop_restores (ops : List Op) (s : imp) (snaps : List (List (Option Nat))) (n : Nat)
    (hrun : run ops (imp.init, []) = some (s, snaps)) (hl : s.m_lemmas = [])
    (h1 : 1 ≤ n) (h2 : n ≤ s.m_fresh_lim.length) :
    snaps.length = s.m_fresh_lim.length ∧
    ∃ s2 snap, pop n s = some s2 ∧ snaps.get? (n - 1) = some snap ∧
      s2.m_fresh = snap ∧
      s2.m_fresh_lim = s.m_fresh_lim.take (s.m_fresh_lim.length - n) ∧
      s2.m_lemmas = s.m_lemmas ∧ s2.m_num_translated = s.m_num_translated := by
  have hinv := run_inv ops imp.init s [] snaps init_inv hrun
  obtain ⟨s2, snap, p1, p2, p3, p4, p5, p6, -⟩ := pop_spec s snaps n hinv hl h1 h2
  refine ⟨?_, s2, snap, p1, p2, p3, p4, p5, p6⟩
  rw [hinv.1]
  simp

/-- Witness of C10: one allocation, `push(); push();`, three allocations, then `pop(1)`
removes exactly the three variables allocated after the second push. -/
theorem pop_restores_witness :
    [[some 7], [some 7]].length = [1, 1].length ∧
    ∃ s2 snap,
      pop 1 ⟨[], [some 7, some 0, some 1, some 2], [1, 1], 0⟩ = some s2 ∧
      [[some 7], [some 7]].get? (1 - 1) = some snap ∧
      s2.m_fresh = snap ∧
      s2.m_fresh_lim = [1, 1].take ([1, 1].length - 1) ∧
      s2.m_lemmas = [] ∧ s2.m_num_translated = 0 :=
  pop_restores [.fresh 7, .push, .push, .fresh 0, .fresh 1, .fresh 2]
    ⟨[], [some 7, some 0, some 1, some 2], [1, 1], 0⟩ [[some 7], [some 7]] 1 rfl rfl
    (by decide) (by decide)

/-- C12: `flush_side_constraints` appends the pending lemmas to the end of the list of the
caller, in the order `mk_clause` recorded them, leaves no pending lemma, so that a repeated
flush adds nothing, and leaves the fresh variables, the checkpoints and the counter of
translated constraints unchanged. -/
theorem flush_side_constraints_spec (s : imp) (side_constraints : List Expr) :
    (flush_side_constraints side_constraints s).1 = side_constraints ++ s.m_lemmas ∧
    (flush_side_constraints side_constraints s).2.m_lemmas = [] ∧
    (flush_side_constraints side_constraints s).2.m_fresh = s.m_fresh ∧
    (flush_side_constraints side_constraints s).2.m_fresh_lim = s.m_fresh_lim ∧
    (flush_side_constraints side_constraints s).2.m_num_translated = s.m_num_translated ∧
    flush_side_constraints (flush_side_constraints side_constraints s).1
        (flush_side_constraints side_constraints s).2
      = flush_side_constraints side_constraints s ∧
    ∀ clauses : List (List Expr),
      (flush_side_constraints side_constraints
        (clauses.foldl (fun st lits => mk_clause lits st) s)).1
      = side_constraints ++ s.m_lemmas ++ clauses.map mk_or := by
  refine ⟨rfl, rfl, rfl, rfl, rfl, ?_, fun clauses => ?_⟩
  · simp [flush_side_constraints]
  · simp [flush_side_constraints, mk_clause_foldl]

/-- C19: in every ledger state reached from the initial state by push, pop, allocation of fresh
variables, recording of lemmas and flush, the checkpoints are non-decreasing and none exceeds
the number of fresh variables; the fresh-variable list has no null entry, and a `pop` that
succeeds leaves an initial segment of it. -/
theorem ledger_invariant (ops : List Op) (s : imp) (snaps : List (List (Option Nat)))
    (hrun : run ops (imp.init, []) = some (s, snaps)) :
    List.Pairwise (fun a b => a ≤ b) s.m_fresh_lim ∧
    (∀ c ∈ s.m_fresh_lim, c ≤ s.m_fresh.length) ∧
    (∀ x ∈ s.m_fresh, x ≠ none) ∧
    ∀ (n : Nat) (s2 : imp), pop n s = some s2 →
      s2.m_fresh.length ≤ s.m_fresh.length ∧
      s2.m_fresh = s.m_fresh.take s2.m_fresh.length := by
  have hinv := run_inv ops imp.init s [] snaps init_inv hrun
  have hnn := run_no_null ops imp.init s [] snaps init_inv (by simp [imp.init]) hrun
  obtain ⟨h1, h2⟩ := checkpoints_sorted s snaps hinv
  refine ⟨h1, h2, hnn, fun n s2 hpop => ?_⟩
  have ht := pop_take s s2 snaps n hinv hpop
  exact ⟨take_length_le _ _ ht, ht⟩

/-- Witness of C19: an allocation, `push`, two allocations, `push`, one allocation, `pop(1)`,
one allocation and `push`: the checkpoints are 1, 3. -/
theorem ledger_invariant_witness :
    List.Pairwise (fun a b => a ≤ b) [1, 3] ∧
    (∀ c ∈ [1, 3], c ≤ [some 7, some 0, some 1].length) ∧
    (∀ x ∈ [some 7, some 0, some 1], x ≠ none) ∧
    ∀ (n : Nat) (s2 : imp), pop n ⟨[], [some 7, some 0, some 1], [1, 3], 0⟩ = some s2 →
      s2.m_fresh.length ≤ [some 7, some 0, some 1].length ∧
      s2.m_fresh = [some 7, some 0, some 1].take s2.m_fresh.length :=
  ledger_invariant
    [.fresh 7, .push, .fresh 0, .fresh 1, .push, .fresh 2, .pop 1, .push]
    ⟨[], [some 7, some 0, some 1], [1, 3], 0⟩ [[some 7, some 0, some 1], [some 7]] rfl

/-- C14: on a constraint of the PB family that is not the at-least-one shortcut, `mk_pb`
delegates to the comparator-network service whenever `k` fits an unsigned machine integer and
all coefficients are 1 (`le` for AtMost and PB_LE, `ge` for AtLeast and PB_GE, `eq` for PB_EQ,
with the unsigned `k` and the unchanged literals), and otherwise, when some coefficient
differs from 1 or `k` does not fit, its result is that of the weighted encoder `mk_bv`. -/
theorem mk_pb_delegates (m_sort : psort_nw) (f : func_decl) (args : List Expr) (s : imp)
    (hfam : f.family = .pb_family) (hor : is_or f = some false) :
    (is_unsigned (get_k f) = true ∧ has_unit_coefficients f = true →
      (f.kind = .OP_AT_MOST_K ∨ f.kind = .OP_PB_LE →
        mk_pb m_sort f args s =
          some ((m_sort.le true (get_unsigned (get_k f)) args s).1,
            apply_calls (m_sort.le true (get_unsigned (get_k f)) args s).2 s)) ∧
      (f.kind = .OP_AT_LEAST_K ∨ f.kind = .OP_PB_GE →
        mk_pb m_sort f args s =
          some ((m_sort.ge true (get_unsigned (get_k f)) args s).1,
            apply_calls (m_sort.ge true (get_unsigned (get_k f)) args s).2 s)) ∧
      (f.kind = .OP_PB_EQ →
        mk_pb m_sort f args s =
          some ((m_sort.eq (get_unsigned (get_k f)) args s).1,
            apply_calls (m_sort.eq (get_unsigned (get_k f)) args s).2 s))) ∧
    (¬ (is_unsigned (get_k f) = true ∧ has_unit_coefficients f = true) →
      mk_pb m_sort f args s = (mk_bv f args).map (fun e => (e, s))) ∧
    (has_unit_coefficients f = true ↔ ∀ i, i < f.coeffs.length → get_coeff f i = 1) := by
  obtain ⟨h1, h2⟩ := mk_pb_dispatch m_sort f args s hfam hor
  refine ⟨fun hu => ⟨fun hk => ?_, fun hk => ?_, fun hk => ?_⟩, h2, ?_⟩
  · rw [h1 hu]
    rcases hk with hk | hk <;> simp [hk]
  · rw [h1 hu]
    rcases hk with hk | hk <;> simp [hk]
  · rw [h1 hu]
    simp [hk]
  · unfold has_unit_coefficients
    split_ifs with hcard
    · simp [get_coeff, hcard]
    · simp

/-- Witness of C14: AtMost(2) over four literals goes to `le`, PB_LE with coefficients 3, 2, 5
goes to `mk_bv`. -/
theorem mk_pb_delegates_witness :
    ((decl_kind.OP_AT_MOST_K = .OP_AT_MOST_K ∨ decl_kind.OP_AT_MOST_K = .OP_PB_LE) →
      mk_pb ⟨fun _ k _ _ => (.var k, [.fresh 9]), fun _ _ _ _ => (.tt, []),
          fun _ _ _ => (.tt, [])⟩ ⟨.pb_family, .OP_AT_MOST_K, 2, []⟩
          [.var 0, .var 1, .var 2, .var 3] imp.init
        = some (Expr.var (get_unsigned 2), apply_calls [.fresh 9] imp.init)) ∧
    mk_pb ⟨fun _ k _ _ => (.var k, [.fresh 9]), fun _ _ _ _ => (.tt, []),
        fun _ _ _ => (.tt, [])⟩ ⟨.pb_family, .OP_PB_LE, 5, [3, 2, 5]⟩
        [.var 0, .var 1, .var 2] imp.init
      = (mk_bv ⟨.pb_family, .OP_PB_LE, 5, [3, 2, 5]⟩ [.var 0, .var 1, .var 2]).map
          (fun e => (e, imp.init)) :=
  ⟨((mk_pb_delegates ⟨fun _ k _ _ => (.var k, [.fresh 9]), fun _ _ _ _ => (.tt, []),
        fun _ _ _ => (.tt, [])⟩ ⟨.pb_family, .OP_AT_MOST_K, 2, []⟩
        [.var 0, .var 1, .var 2, .var 3] imp.init rfl rfl).1 (by decide)).1,
    (mk_pb_delegates ⟨fun _ k _ _ => (.var k, [.fresh 9]), fun _ _ _ _ => (.tt, []),
        fun _ _ _ => (.tt, [])⟩ ⟨.pb_family, .OP_PB_LE, 5, [3, 2, 5]⟩
        [.var 0, .var 1, .var 2] imp.init rfl rfl).2.1 (by decide)⟩

/-- C17, the code at the failing input: PB_GE with threshold 1 over one literal of coefficient
0. `is_or` holds, so `mk_pb` returns the disjunction of the literals, which is true under the
assignment that makes the literal true, while the weighted sum is 0 and the constraint
`0 >= 1` does not hold. -/
theorem mk_pb_or_zero_coeff :
    is_or ⟨.pb_family, .OP_PB_GE, 1, [0]⟩ = some true ∧
    (∀ (m_sort : psort_nw) (s : imp),
      mk_pb m_sort ⟨.pb_family, .OP_PB_GE, 1, [0]⟩ [.var 0] s = some (.or [.var 0], s)) ∧
    eval (fun _ => true) (.or [.var 0]) = some (.b true) ∧
    wsum (fun _ => true) ⟨.pb_family, .OP_PB_GE, 1, [0]⟩ 0 [.var 0] = 0 :=
  ⟨rfl, fun _ _ => rfl, rfl, rfl⟩

/-- C16: for a positive threshold `k` and `n >= 1` literals none of whose coefficients exceeds
`k`, all `n` literals are lifted, the loop `while (es.size() > 1)` makes exactly
`ceil(log2 n)` passes and `n - 1` checked-add steps in all, which record `2 (n - 1)` facts, and
it ends with one value; an odd last value passes through a pass unchanged. -/
theorem reduction_counts (is_le : lbool) (f : func_decl) (args : List Expr) (k : Int)
    (_hk : 0 < k) (hn : 1 ≤ args.length) (hc : ∀ i, i < args.length → get_coeff f i ≤ k) :
    (∃ es, prune_loop is_le f k (get_num_bits k) (mk_numeral 0 (get_num_bits k)) 0 args
        ([], []) = (es, []) ∧
      es.length = args.length ∧
      reduce_rounds is_le (mk_numeral k (get_num_bits k)) es.length es [] =
        Nat.clog 2 args.length ∧
      reduce_adds is_le (mk_numeral k (get_num_bits k)) es.length es [] = args.length - 1 ∧
      (reduce_loop is_le (mk_numeral k (get_num_bits k)) es.length es []).2.length =
        2 * (args.length - 1) ∧
      (reduce_loop is_le (mk_numeral k (get_num_bits k)) es.length es []).1.length = 1) ∧
    ∀ (bound : Expr) (es fmls : List Expr), es.length % 2 = 1 →
      (while_body is_le bound es fmls).1.getLast? = es.getLast? :=
  ⟨encoder_counts is_le f args k hn hc,
    fun bound es fmls hodd => while_body_odd_last is_le bound es fmls hodd⟩

/-- Witness of C16: five literals with unit coefficients and threshold 2, and the counts of
passes and of checked-add steps of the loop for 1, 2, 3, 4, 5, 8 and 9 values. -/
theorem reduction_counts_witness :
    ((∃ es, prune_loop .l_true ⟨.pb_family, .OP_PB_LE, 2, [1, 1, 1, 1, 1]⟩ 2 (get_num_bits 2)
          (mk_numeral 0 (get_num_bits 2)) 0 [.var 0, .var 1, .var 2, .var 3, .var 4] ([], [])
        = (es, []) ∧
      es.length = [Expr.var 0, .var 1, .var 2, .var 3, .var 4].length ∧
      reduce_rounds .l_true (mk_numeral 2 (get_num_bits 2)) es.length es [] =
        Nat.clog 2 [Expr.var 0, .var 1, .var 2, .var 3, .var 4].length ∧
      reduce_adds .l_true (mk_numeral 2 (get_num_bits 2)) es.length es [] =
        [Expr.var 0, .var 1, .var 2, .var 3, .var 4].length - 1 ∧
      (reduce_loop .l_true (mk_numeral 2 (get_num_bits 2)) es.length es []).2.length =
        2 * ([Expr.var 0, .var 1, .var 2, .var 3, .var 4].length - 1) ∧
      (reduce_loop .l_true (mk_numeral 2 (get_num_bits 2)) es.length es []).1.length = 1) ∧
    ∀ (bound : Expr) (es fmls : List Expr), es.length % 2 = 1 →
      (while_body .l_true bound es fmls).1.getLast? = es.getLast?) ∧
    [1, 2, 3, 4, 5, 8, 9].map (fun n =>
      (reduce_rounds .l_true (mk_numeral 2 2) n (List.replicate n (mk_numeral 0 2)) [],
       reduce_adds .l_true (mk_numeral 2 2) n (List.replicate n (mk_numeral 0 2)) []))
      = [(0, 0), (1, 1), (2, 2), (2, 3), (3, 4), (3, 7), (4, 8)] :=
  ⟨reduction_counts .l_true ⟨.pb_family, .OP_PB_LE, 2, [1, 1, 1, 1, 1]⟩
      [.var 0, .var 1, .var 2, .var 3, .var 4] 2 (by decide) (by decide) (by decide),
    by decide⟩

/-- C18, the code at the failing input: PB_EQ with threshold 1 over one literal of coefficient
2. The finalization of the EQ mode is reached with an empty vector `es`, so `es.back()` is read
of an empty vector and the encoder, also through `mk_bv`, returns nothing. The same holds of
the encoder called with threshold 1 on no literal, a call that `mk_pb` does not make: it hands
a PB_EQ without a coefficient other than 1 to the comparator network. -/
theorem mk_le_ge_eq_back_undefined :
    (reduce_loop .l_undef (mk_numeral 1 (get_num_bits 1)) 0
      (prune_loop .l_undef ⟨.pb_family, .OP_PB_EQ, 1, [2]⟩ 1 (get_num_bits 1)
        (mk_numeral 0 (get_num_bits 1)) 0 [.var 0] ([], [])).1
      (prune_loop .l_undef ⟨.pb_family, .OP_PB_EQ, 1, [2]⟩ 1 (get_num_bits 1)
        (mk_numeral 0 (get_num_bits 1)) 0 [.var 0] ([], [])).2).1 = [] ∧
    mk_le_ge .l_undef ⟨.pb_family, .OP_PB_EQ, 1, [2]⟩ [.var 0] 1 = none ∧
    mk_bv ⟨.pb_family, .OP_PB_EQ, 1, [2]⟩ [.var 0] = none ∧
    mk_le_ge .l_undef ⟨.pb_family, .OP_PB_EQ, 1, []⟩ [] 1 = none :=
  ⟨rfl, rfl, rfl, rfl⟩

/-- C20: for a positive threshold `k`, literals with non-negative coefficients of which at
least one is at most `k`, and an assignment under which every literal has a boolean value, the
GE mode of the weighted encoder returns a circuit (the disjunction of the pruned literals, the
carry-bit-is-1 facts, the `bound <= remainder` facts and `bound <= final remainder`) that is
true exactly when the sum of the coefficients of the true literals is at least `k`. -/
theorem mk_le_ge_ge_correct (σ : Nat → Bool) (f : func_decl) (args : List Expr) (k : Int)
    (hk : 0 < k) (hc : ∀ i, i < args.length → 0 ≤ get_coeff f i)
    (hb : ∀ a ∈ args, ∃ x, eval σ a = some (.b x))
    (hex : ∃ j, j < args.length ∧ get_coeff f j ≤ k) :
    ∃ e, mk_le_ge .l_false f args k = some e ∧
      eval σ e = some (.b (decide (k ≤ wsum σ f 0 args))) :=
  mk_le_ge_ge_spec σ f args k hk hc hb hex

/-- Witness of C20: coefficients 3, 2, 5 and threshold 5 under the assignment that makes only
the first two literals true (weighted sum 5): the circuit is true. -/
theorem mk_le_ge_ge_correct_witness :
    ∃ e, mk_le_ge .l_false ⟨.pb_family, .OP_PB_GE, 5, [3, 2, 5]⟩ [.var 0, .var 1, .var 2] 5
        = some e ∧
      eval (fun i => decide (i < 2)) e = some (.b true) :=
  mk_le_ge_ge_correct (fun i => decide (i < 2)) ⟨.pb_family, .OP_PB_GE, 5, [3, 2, 5]⟩
    [.var 0, .var 1, .var 2] 5 (by decide) (by decide) (by decide) (by decide)

/-- C5, the code at the failing input: PB_GE with coefficients 3, 2, 5 and threshold 11,
above the sum 10 of the coefficients, reaches `mk_bv` through `mk_pb`. No case is made of it:
`dualize` leaves the threshold -1, which violates `SASSERT(!k.is_neg())` of line 175. The
build that checks assertions stops there. The build with assertions compiled out builds the
tree from the negative bound and returns the conjunction of the doubly negated literals, which
is true when every literal is true, although the constraint holds under no assignment. -/
theorem mk_bv_ge_over_unsound :
    total ⟨.pb_family, .OP_PB_GE, 11, [3, 2, 5]⟩ 0 3 = 10 ∧
    reaches_mk_bv ⟨.pb_family, .OP_PB_GE, 11, [3, 2, 5]⟩ ∧
    (dualize ⟨.pb_family, .OP_PB_GE, 11, [3, 2, 5]⟩ [.var 0, .var 1, .var 2] 11).2 = -1 ∧
    mk_bv_build true ⟨.pb_family, .OP_PB_GE, 11, [3, 2, 5]⟩ [.var 0, .var 1, .var 2] = none ∧
    mk_bv_build false ⟨.pb_family, .OP_PB_GE, 11, [3, 2, 5]⟩ [.var 0, .var 1, .var 2] =
      some (.and [.not (.not (.var 0)), .not (.not (.var 1)), .not (.not (.var 2))]) ∧
    (∀ (m_sort : psort_nw) (s : imp),
      mk_pb_build false m_sort ⟨.pb_family, .OP_PB_GE, 11, [3, 2, 5]⟩
          [.var 0, .var 1, .var 2] s =
        some (.and [.not (.not (.var 0)), .not (.not (.var 1)), .not (.not (.var 2))], s)) ∧
    eval (fun _ => true)
        (.and [.not (.not (.var 0)), .not (.not (.var 1)), .not (.not (.var 2))]) =
      some (.b true) ∧
    ∀ σ : Nat → Bool,
      ¬ (11 ≤ wsum σ ⟨.pb_family, .OP_PB_GE, 11, [3, 2, 5]⟩ 0 [.var 0, .var 1, .var 2]) :=
  ⟨rfl, ⟨rfl, by decide⟩, rfl, rfl, rfl, fun _ _ => rfl, rfl, fun σ => by
    have := wsum_3_2_5_lt σ 11 (.var 0) (.var 1) (.var 2)
    omega⟩

/-- C11, the code at the failing input: after `push()`, one fresh variable and one lemma that
mentions it, the lemma is pending; `pop(1)` in the build with assertions compiled out proceeds:
it removes the fresh variable and the checkpoint and leaves the lemma pending. Only the build
that checks `SASSERT(m_lemmas.empty())` stops. -/
theorem pop_pending_truncates :
    run [.push, .fresh 0, .mk_clause [.var 0, .var 1]] (imp.init, []) =
      some (⟨[.or [.var 0, .var 1]], [some 0], [0], 0⟩, [[]]) ∧
    pop_build false 1 ⟨[.or [.var 0, .var 1]], [some 0], [0], 0⟩ =
      some ⟨[.or [.var 0, .var 1]], [], [], 0⟩ ∧
    pop_build true 1 ⟨[.or [.var 0, .var 1]], [some 0], [0], 0⟩ = none :=
  ⟨rfl, rfl, rfl⟩

/-- C13, counterexample: the counter of translated constraints is an `unsigned`. On an AtLeast
constraint, an operator of the PB family, with the counter at `2 ^ 32 - 1`, `mk_app_core`
returns `BR_DONE` in either build and the counter is 0 afterwards: it has not increased by
1. -/
theorem mk_app_core_counterexample :
    mk_app_core true ⟨fun _ _ _ _ => (.tt, []), fun _ _ _ _ => (.tt, []),
        fun _ _ _ => (.tt, [])⟩ ⟨.pb_family, .OP_AT_LEAST_K, 1, []⟩ [.var 0, .var 1] none
        ⟨[], [], [], 4294967295⟩ =
      some (.BR_DONE, some (.or [.var 0, .var 1]), ⟨[], [], [], 0⟩) ∧
    mk_app_core false ⟨fun _ _ _ _ => (.tt, []), fun _ _ _ _ => (.tt, []),
        fun _ _ _ => (.tt, [])⟩ ⟨.pb_family, .OP_AT_LEAST_K, 1, []⟩ [.var 0, .var 1] none
        ⟨[], [], [], 4294967295⟩ =
      some (.BR_DONE, some (.or [.var 0, .var 1]), ⟨[], [], [], 0⟩) ∧
    (0 : Nat) ≠ 4294967295 + 1 :=
  ⟨rfl, rfl, by decide⟩

/-- C13 as amended: in either build, when `f` belongs to the PB family (with one of its five
kinds) and `mk_pb` returns, which it does unless the constraint reaches `mk_bv` and there an
assertion that is checked is violated or `es.back()` is read of an empty vector, `mk_app_core`
returns `BR_DONE` with the result of `mk_pb`; when `f` belongs to the arithmetic family it
returns `BR_DONE` if `mk_arith` accepts and `BR_FAILED` with `result` and the ledger unchanged
if `mk_arith` rejects; for every other family it returns `BR_FAILED` with `result` and the
ledger unchanged. With `BR_DONE` the counter of translated constraints is increased by 1
modulo `2 ^ 32`, that is by exactly 1 unless it was `2 ^ 32 - 1`. -/
theorem mk_app_core_correct (z3debug : Bool) (m_sort : psort_nw) (f : func_decl)
    (args : List Expr) (result : Option Expr) (s : imp) :
    (f.family = .pb_family → f.kind ≠ .OP_ADD → f.kind ≠ .OP_OTHER →
      (reaches_mk_bv f → mk_bv_defined z3debug f args) →
      ∃ r s1, mk_pb_build z3debug m_sort f args s = some (r, s1) ∧
        mk_app_core z3debug m_sort f args result s = some (.BR_DONE, some r,
          { s1 with m_num_translated := (s.m_num_translated + 1) % 2 ^ 32 })) ∧
    (f.family = .arith_family →
      ∃ (b : Bool) (r : Option Expr), mk_arith f args result = some (b, r) ∧
        (b = true → mk_app_core z3debug m_sort f args result s = some (.BR_DONE, r,
          { s with m_num_translated := (s.m_num_translated + 1) % 2 ^ 32 })) ∧
        (b = false → mk_app_core z3debug m_sort f args result s =
          some (.BR_FAILED, result, s))) ∧
    (f.family = .other_family →
      mk_app_core z3debug m_sort f args result s = some (.BR_FAILED, result, s)) ∧
    (s.m_num_translated + 1 < 2 ^ 32 →
      (s.m_num_translated + 1) % 2 ^ 32 = s.m_num_translated + 1) :=
  ⟨(mk_app_core_spec z3debug m_sort f args result s).1,
    (mk_app_core_spec z3debug m_sort f args result s).2.1,
    (mk_app_core_spec z3debug m_sort f args result s).2.2,
    fun h => Nat.mod_eq_of_lt h⟩

/-- Witness of C13 as amended: PB_GE with coefficients 3, 2, 5 and threshold 4 reaches `mk_bv`
with its assertions satisfied, in the build that checks them. -/
theorem mk_app_core_correct_witness :
    ∃ r s1, mk_pb_build true ⟨fun _ _ _ _ => (.tt, []), fun _ _ _ _ => (.tt, []),
        fun _ _ _ => (.tt, [])⟩ ⟨.pb_family, .OP_PB_GE, 4, [3, 2, 5]⟩
        [.var 0, .var 1, .var 2] imp.init = some (r, s1) ∧
      mk_app_core true ⟨fun _ _ _ _ => (.tt, []), fun _ _ _ _ => (.tt, []),
        fun _ _ _ => (.tt, [])⟩ ⟨.pb_family, .OP_PB_GE, 4, [3, 2, 5]⟩
        [.var 0, .var 1, .var 2] none imp.init = some (.BR_DONE, some r,
          { s1 with m_num_translated := (imp.init.m_num_translated + 1) % 2 ^ 32 }) :=
  (mk_app_core_correct true ⟨fun _ _ _ _ => (.tt, []), fun _ _ _ _ => (.tt, []),
      fun _ _ _ => (.tt, [])⟩ ⟨.pb_family, .OP_PB_GE, 4, [3, 2, 5]⟩
      [.var 0, .var 1, .var 2] none imp.init).1 rfl (by decide) (by decide)
    (fun _ => ⟨fun _ => ⟨by decide, fun _ => by decide⟩, fun h => absurd h (by decide)⟩)

end Pb2bv
